import Mathlib

/-!
# Verification of the 2D/4D geometry stack and oriented-edge solver

This file is a shallow embedding, over the exact real numbers, of the core
geometry/algorithm stack of the `viterbo` crate:

* the strict ordered 2D H-representation engine (`geom2/ordered.rs`,
  `geom2/types.rs`, `geom2/util.rs`),
* the 2D solvers (`geom2/solvers.rs`),
* the chart construction for 2-faces (`geom4/maps.rs`),
* the oriented-edge graph builder (`oriented_edge/build.rs`) and the DFS
  solver (`oriented_edge/dfs.rs`).

Modelling conventions (stated once, used throughout):

* `f64` values are modelled as exact real numbers; floating-point rounding
  is outside the scope of this development.  The source never relies on NaN
  behaviour in the fragments embedded here, and `is_finite` tests on real
  numbers are always true, so the corresponding branches degenerate.
* The IEEE infinities that the source uses as sentinels are modelled
  structurally: the DFS incumbent `best : f64`, which starts at `+inf`, is
  an `Option ℝ` (`none` = "no incumbent yet"); the per-edge lower bound
  `lb_action : f64`, which can be `-inf`, is an `EReal`.  The incumbent cut
  `with_cut(to_cut(best))` is applied only when an incumbent exists; with
  `best = +inf` the source inserts a half-space with offset `+inf`, which is
  satisfied by every point.
* `nalgebra`'s iterative 2x2 SVD is an external library routine; it is
  modelled as an oracle `svd : Mat2 → Svd2` producing the `u`, `singular
  values` and `v_t` data.  Definitions take the oracle as a parameter;
  theorems that need the SVD contract state it as an explicit hypothesis
  (`IsSvd2`).  For 2x2 inputs with both factors requested the library always
  returns the factors, so the `Option` unwrapping in the source always
  succeeds and the oracle returns plain data.
* Rust `Vec` is a Lean `List`, a `VecDeque` is a `List` whose head is the
  deque front, and `slice::sort_by` (a stable sort) is `List.insertionSort`
  (also stable; stable sorts of the same list by the same total key agree).
* Rust `f64::atan2` is the piecewise-`arctan` function `atan2` below, with
  range `(-π, π]` and `atan2 0 0 = 0`, matching IEEE semantics on the
  inputs that occur here (no signed zeros or infinities).
* In the DFS embedding, `fixed_point_in_poly` is an oracle
  `fp : Aff2 → Poly2 → Aff1 → Option (Vec2 × ℝ)` (its rank-1 line clipping
  initializes the interval at IEEE `±inf`, outside the exact embedding);
  the DFS theorems hold for every oracle, hence for the real solver.  The
  unbounded recursion of `DfsRunner::recur` (terminating because each
  descent marks a fresh facet) carries explicit fuel, with exhausted fuel
  returning the runner unchanged, and the runner carries a ghost list of
  all successful closure values used only to state results.
-/

noncomputable section

open Real

/-- Rust `f64::atan2 y x` (quadrant-corrected arctangent, range `(-π, π]`). -/
def atan2 (y x : ℝ) : ℝ :=
  if 0 < x then arctan (y / x)
  else if x < 0 then
    (if 0 ≤ y then arctan (y / x) + π else arctan (y / x) - π)
  else
    (if 0 < y then π / 2 else if y < 0 then -(π / 2) else 0)

theorem atan2_zero_one : atan2 0 1 = 0 := by
  simp [atan2, arctan_zero]

theorem atan2_zero_neg_one : atan2 0 (-1) = π := by
  norm_num [atan2, arctan_zero]

theorem atan2_one_zero : atan2 1 0 = π / 2 := by
  norm_num [atan2]

theorem atan2_neg_one_zero : atan2 (-1) 0 = -(π / 2) := by
  norm_num [atan2]

theorem arctan_pos_of_pos {t : ℝ} (h : 0 < t) : 0 < arctan t := by
  have h' : arctan 0 < arctan t := arctan_strictMono h
  rwa [arctan_zero] at h'

theorem arctan_nonpos_of_nonpos {t : ℝ} (h : t ≤ 0) : arctan t ≤ 0 := by
  have h' : arctan t ≤ arctan 0 := arctan_strictMono.monotone h
  rwa [arctan_zero] at h'

theorem neg_pi_lt_atan2 (y x : ℝ) : -π < atan2 y x := by
  have hpi := pi_pos
  have h1 := neg_pi_div_two_lt_arctan (y / x)
  have h2 := arctan_lt_pi_div_two (y / x)
  unfold atan2
  split_ifs with hx hx' hy hy1 hy2
  · nlinarith
  · nlinarith
  · have hy' : y < 0 := lt_of_not_ge hy
    have hq : 0 < y / x := div_pos_of_neg_of_neg hy' hx'
    have := arctan_pos_of_pos hq
    linarith
  · linarith
  · linarith
  · linarith

theorem atan2_le_pi (y x : ℝ) : atan2 y x ≤ π := by
  have hpi := pi_pos
  have h1 := neg_pi_div_two_lt_arctan (y / x)
  have h2 := arctan_lt_pi_div_two (y / x)
  unfold atan2
  split_ifs with hx hx' hy hy1 hy2
  · nlinarith
  · have hq : y / x ≤ 0 := div_nonpos_iff.mpr (Or.inl ⟨hy, hx'.le⟩)
    have := arctan_nonpos_of_nonpos hq
    linarith
  · nlinarith
  · linarith
  · linarith
  · linarith

/-- 2D vector (nalgebra `Vector2<f64>`). -/
structure Vec2 where
  x : ℝ
  y : ℝ
deriving DecidableEq

namespace Vec2

def add (a b : Vec2) : Vec2 := ⟨a.x + b.x, a.y + b.y⟩

def sub (a b : Vec2) : Vec2 := ⟨a.x - b.x, a.y - b.y⟩

def neg (a : Vec2) : Vec2 := ⟨-a.x, -a.y⟩

def smul (t : ℝ) (a : Vec2) : Vec2 := ⟨t * a.x, t * a.y⟩

def dot (a b : Vec2) : ℝ := a.x * b.x + a.y * b.y

/-- Euclidean norm (`nalgebra`'s `.norm()`). -/
def norm (a : Vec2) : ℝ := Real.sqrt (a.x ^ 2 + a.y ^ 2)

def zero : Vec2 := ⟨0, 0⟩

end Vec2

/-- `angle_of` from `geom2/util.rs`: `n.y.atan2(n.x)`. -/
def angle_of (n : Vec2) : ℝ := atan2 n.y n.x

/-- `canonicalize_unit` from `geom2/util.rs`: rescale `(n, c)` so that `n` is
a unit vector; `None` if the norm is not positive (the finiteness test on a
real number is always true). -/
def canonicalize_unit (n : Vec2) (c : ℝ) : Option (Vec2 × ℝ) :=
  let norm := n.norm
  if norm ≤ 0 then none
  else some (⟨n.x / norm, n.y / norm⟩, c / norm)

/-- Closed half-space `n · x ≤ c` (`Hs2` in `geom2/types.rs`). -/
structure Hs2 where
  n : Vec2
  c : ℝ

namespace Hs2

/-- `Hs2::satisfies_eps`: `n · p ≤ c + eps`. -/
def satisfies_eps (h : Hs2) (p : Vec2) (eps : ℝ) : Prop :=
  h.n.dot p ≤ h.c + eps

instance (h : Hs2) (p : Vec2) (eps : ℝ) : Decidable (h.satisfies_eps p eps) := by
  unfold satisfies_eps; infer_instance

end Hs2

/-- `wrap_angle`, first loop: `while x <= -π { x += 2π }`. -/
def wrapUp (x : ℝ) : ℝ :=
  if h : x ≤ -π then wrapUp (x + 2 * π) else x
termination_by Nat.floor ((π - x) / (2 * π))
decreasing_by
  have hpi := pi_pos
  have h2 : (0:ℝ) < 2 * π := by linarith
  have ht : (1:ℝ) ≤ (π - x) / (2 * π) := by
    rw [le_div_iff₀ h2]; linarith
  have hx : (π - (x + 2 * π)) / (2 * π) = (π - x) / (2 * π) - 1 := by
    field_simp; ring
  rw [hx]
  have h01 : (0:ℝ) ≤ (π - x) / (2 * π) - 1 := by linarith
  have := Nat.floor_add_one h01
  have hrw : (π - x) / (2 * π) - 1 + 1 = (π - x) / (2 * π) := by ring
  rw [hrw] at this
  omega

/-- `wrap_angle`, second loop: `while x > π { x -= 2π }`. -/
def wrapDown (x : ℝ) : ℝ :=
  if h : π < x then wrapDown (x - 2 * π) else x
termination_by Nat.floor ((x + π) / (2 * π))
decreasing_by
  have hpi := pi_pos
  have h2 : (0:ℝ) < 2 * π := by linarith
  have ht : (1:ℝ) ≤ (x + π) / (2 * π) := by
    rw [le_div_iff₀ h2]; linarith
  have hx : (x - 2 * π + π) / (2 * π) = (x + π) / (2 * π) - 1 := by
    field_simp; ring
  rw [hx]
  have h01 : (0:ℝ) ≤ (x + π) / (2 * π) - 1 := by linarith
  have := Nat.floor_add_one h01
  have hrw : (x + π) / (2 * π) - 1 + 1 = (x + π) / (2 * π) := by ring
  rw [hrw] at this
  omega

/-- `wrap_angle` from `geom2/ordered.rs`. -/
def wrap_angle (a : ℝ) : ℝ := wrapDown (wrapUp a)

theorem wrapUp_eq_self {x : ℝ} (h : -π < x) : wrapUp x = x := by
  rw [wrapUp]
  simp [not_le.mpr h]

theorem wrapDown_eq_self {x : ℝ} (h : x ≤ π) : wrapDown x = x := by
  rw [wrapDown]
  simp [not_lt.mpr h]

/-- On `(-π, π]`-shifted inputs from the fast check, one subtraction at most. -/
theorem wrap_angle_of_mem {x : ℝ} (h1 : -π < x) (h2 : x ≤ π) : wrap_angle x = x := by
  rw [wrap_angle, wrapUp_eq_self h1, wrapDown_eq_self h2]

theorem wrap_angle_of_gt {x : ℝ} (h1 : π < x) (h2 : x ≤ 3 * π) :
    wrap_angle x = x - 2 * π := by
  have hpi := pi_pos
  have hx1 : -π < x := by linarith
  rw [wrap_angle, wrapUp_eq_self hx1, wrapDown]
  simp only [dif_pos h1]
  exact wrapDown_eq_self (by linarith)

instance : Inhabited Vec2 := ⟨⟨0, 0⟩⟩

instance : Inhabited Hs2 := ⟨⟨⟨0, 0⟩, 0⟩⟩

/-- `line_intersection` from `geom2/ordered.rs`: intersection point of the two
boundary lines, `None` when the 2x2 system is near-singular.  The explicit
formula is the 2x2 inverse applied to `(c1, c2)`. -/
def line_intersection (h1 h2 : Hs2) : Option Vec2 :=
  let det := h1.n.x * h2.n.y - h1.n.y * h2.n.x
  if |det| < 1e-12 then none
  else some ⟨(h2.n.y * h1.c - h1.n.y * h2.c) / det,
             (h1.n.x * h2.c - h2.n.x * h1.c) / det⟩

/-- The fast-check binary search in `hsi_ordered`: first index in `[lo, hi)`
whose angle is `≥ target` (the loop `if angles[mid] < target { lo = mid + 1 }
else { hi_idx = mid }`). -/
def bsearch_lt (angles : List ℝ) (target : ℝ) (lo hi : ℕ) : ℕ :=
  if h : lo < hi then
    let mid := (lo + hi) / 2
    if angles.getD mid 0 < target then bsearch_lt angles target (mid + 1) hi
    else bsearch_lt angles target lo mid
  else lo
termination_by hi - lo
decreasing_by
  · omega
  · omega

/-- The near-antipodal "fast contradiction check" of `hsi_ordered` fires at
index `i`: the binary search finds an angle within `1e-12` of the antipode of
`angles[i]`, and `max(-c1, -c2) > min(c1, c2)` holds for the two offsets. -/
def FastFire (hs : List Hs2) (i : ℕ) : Prop :=
  let angles := hs.map (fun h => angle_of h.n)
  let target := wrap_angle (angles.getD i 0 + π)
  let lo := bsearch_lt angles target 0 angles.length
  lo < angles.length ∧ |angles.getD lo 0 - target| < 1e-12 ∧
    max (-(hs.getD i default).c) (-(hs.getD lo default).c)
      > min (hs.getD i default).c (hs.getD lo default).c

/-- Back-of-deque pops in the sweep of `hsi_ordered`: while the last two
lines' intersection is cut off by the new constraint `h` (or does not exist),
pop the back. -/
def backPops (hs : List Hs2) (eps : ℝ) (h : Hs2) (dq : List ℕ) : List ℕ :=
  if hlen : 2 ≤ dq.length then
    let l1 := dq.getD (dq.length - 2) 0
    let l2 := dq.getD (dq.length - 1) 0
    match line_intersection (hs.getD l1 default) (hs.getD l2 default) with
    | some p =>
        if h.satisfies_eps p eps then dq
        else backPops hs eps h dq.dropLast
    | none => backPops hs eps h dq.dropLast
  else dq
termination_by dq.length
decreasing_by
  all_goals simp [List.length_dropLast]
  all_goals omega

/-- Front-of-deque pops in the sweep of `hsi_ordered`. -/
def frontPops (hs : List Hs2) (eps : ℝ) (h : Hs2) (dq : List ℕ) : List ℕ :=
  if hlen : 2 ≤ dq.length then
    let f1 := dq.getD 0 0
    let f2 := dq.getD 1 0
    match line_intersection (hs.getD f1 default) (hs.getD f2 default) with
    | some p =>
        if h.satisfies_eps p eps then dq
        else frontPops hs eps h dq.tail
    | none => frontPops hs eps h dq.tail
  else dq
termination_by dq.length
decreasing_by
  all_goals simp [List.length_tail]
  all_goals omega

/-- One iteration of the main sweep loop of `hsi_ordered` (both pop loops,
then `push_back(i)`). -/
def sweepStep (hs : List Hs2) (eps : ℝ) (dq : List ℕ) (i : ℕ) : List ℕ :=
  let h := hs.getD i default
  frontPops hs eps h (backPops hs eps h dq) ++ [i]

/-- First cleanup loop of `hsi_ordered`: pop the back while the last two
lines' point violates the front constraint. -/
def cleanBack (hs : List Hs2) (eps : ℝ) (dq : List ℕ) : List ℕ :=
  if hlen : 3 ≤ dq.length then
    let l1 := dq.getD (dq.length - 2) 0
    let l2 := dq.getD (dq.length - 1) 0
    match line_intersection (hs.getD l1 default) (hs.getD l2 default) with
    | some p =>
        if (hs.getD (dq.getD 0 0) default).satisfies_eps p eps then dq
        else cleanBack hs eps dq.dropLast
    | none => cleanBack hs eps dq.dropLast
  else dq
termination_by dq.length
decreasing_by
  all_goals simp [List.length_dropLast]
  all_goals omega

/-- Second cleanup loop of `hsi_ordered`: pop the front while the first two
lines' point violates the back constraint. -/
def cleanFront (hs : List Hs2) (eps : ℝ) (dq : List ℕ) : List ℕ :=
  if hlen : 3 ≤ dq.length then
    let f1 := dq.getD 0 0
    let f2 := dq.getD 1 0
    match line_intersection (hs.getD f1 default) (hs.getD f2 default) with
    | some p =>
        if (hs.getD (dq.getD (dq.length - 1) 0) default).satisfies_eps p eps then dq
        else cleanFront hs eps dq.tail
    | none => cleanFront hs eps dq.tail
  else dq
termination_by dq.length
decreasing_by
  all_goals simp [List.length_tail]
  all_goals omega

/-- Vertex collection at the end of `hsi_ordered`: intersections of cyclically
consecutive deque entries; `none` (leading to `Unbounded`) if any fails. -/
def collectVerts (hs : List Hs2) (dq : List ℕ) : List ℕ → Option (List Vec2)
  | [] => some []
  | k :: ks =>
      match line_intersection (hs.getD (dq.getD k 0) default)
          (hs.getD (dq.getD ((k + 1) % dq.length) 0) default) with
      | some p => (collectVerts hs dq ks).map (fun vs => p :: vs)
      | none => none

/-- HPI result (`HalfspaceIntersection` in `geom2/ordered.rs`). -/
inductive HalfspaceIntersection where
  | Empty : HalfspaceIntersection
  | Unbounded : HalfspaceIntersection
  | Bounded : List Vec2 → HalfspaceIntersection

namespace HalfspaceIntersection

/-- `HalfspaceIntersection::is_empty`. -/
def is_empty : HalfspaceIntersection → Bool
  | .Empty => true
  | _ => false

/-- `HalfspaceIntersection::is_bounded`. -/
def is_bounded : HalfspaceIntersection → Bool
  | .Bounded _ => true
  | _ => false

end HalfspaceIntersection

open Classical in
/-- `hsi_ordered` from `geom2/ordered.rs`: fast near-antipodal contradiction
check (an early return from a loop, i.e. an existence check over the indices),
then the deque sweep, the two cleanup passes, and vertex extraction. -/
def hsi_ordered (hs : List Hs2) (eps : ℝ) : HalfspaceIntersection :=
  if hs.isEmpty then .Unbounded
  else if ∃ i, i < hs.length ∧ FastFire hs i then .Empty
  else
    let dq0 := (List.range hs.length).foldl (sweepStep hs eps) []
    let dq := cleanFront hs eps (cleanBack hs eps dq0)
    if dq.isEmpty then .Empty
    else if dq.length < 3 then .Unbounded
    else
      match collectVerts hs dq (List.range dq.length) with
      | none => .Unbounded
      | some verts => if 3 ≤ verts.length then .Bounded verts else .Unbounded

/-- Strict ordered 2D H-representation (`Poly2` in `geom2/ordered.rs`). -/
structure Poly2 where
  hs : List Hs2

namespace Poly2

/-- `Poly2::halfspace_intersection_eps`. -/
def halfspace_intersection_eps (p : Poly2) (eps : ℝ) : HalfspaceIntersection :=
  hsi_ordered p.hs eps

/-- `Poly2::halfspace_intersection` (shorthand for eps `0.0`). -/
def halfspace_intersection (p : Poly2) : HalfspaceIntersection :=
  p.halfspace_intersection_eps 0

/-- `Poly2::is_empty_eps`. -/
def is_empty_eps (p : Poly2) (eps : ℝ) : Bool :=
  (p.halfspace_intersection_eps eps).is_empty

/-- `Poly2::contains_eps`: all half-spaces satisfied with slack `eps`. -/
def contains_eps (p : Poly2) (pt : Vec2) (eps : ℝ) : Prop :=
  ∀ h ∈ p.hs, h.satisfies_eps pt eps

end Poly2

/-- **C10**: for an ordered 2D polytope containing zero half-spaces,
`halfspace_intersection_eps` (hence `halfspace_intersection` and
`is_empty_eps`) classifies the region as `Unbounded` — never `Empty` and
never `Bounded` — for every `eps`. -/
theorem c10_empty_poly_unbounded :
    ∀ eps : ℝ,
      (Poly2.mk []).halfspace_intersection_eps eps = .Unbounded ∧
      (Poly2.mk []).halfspace_intersection = .Unbounded ∧
      (Poly2.mk []).is_empty_eps eps = false := by
  intro eps
  refine ⟨?_, ?_, ?_⟩ <;>
    simp [Poly2.halfspace_intersection_eps, Poly2.halfspace_intersection,
      Poly2.is_empty_eps, hsi_ordered, HalfspaceIntersection.is_empty]

theorem bsearch_lt_done {angles : List ℝ} {target : ℝ} {lo hi : ℕ} (h : ¬ lo < hi) :
    bsearch_lt angles target lo hi = lo := by
  rw [bsearch_lt, dif_neg h]

theorem bsearch_lt_go_right {angles : List ℝ} {target : ℝ} {lo hi : ℕ} (h : lo < hi)
    (hcmp : angles.getD ((lo + hi) / 2) 0 < target) :
    bsearch_lt angles target lo hi = bsearch_lt angles target ((lo + hi) / 2 + 1) hi := by
  rw [bsearch_lt, dif_pos h]
  simp only [if_pos hcmp]

theorem bsearch_lt_go_left {angles : List ℝ} {target : ℝ} {lo hi : ℕ} (h : lo < hi)
    (hcmp : ¬ angles.getD ((lo + hi) / 2) 0 < target) :
    bsearch_lt angles target lo hi = bsearch_lt angles target lo ((lo + hi) / 2) := by
  rw [bsearch_lt, dif_pos h]
  simp only [if_neg hcmp]

theorem line_intersection_eval {h1 h2 : Hs2}
    (hdet : ¬ |h1.n.x * h2.n.y - h1.n.y * h2.n.x| < 1e-12) :
    line_intersection h1 h2 =
      some ⟨(h2.n.y * h1.c - h1.n.y * h2.c) / (h1.n.x * h2.n.y - h1.n.y * h2.n.x),
            (h1.n.x * h2.c - h2.n.x * h1.c) / (h1.n.x * h2.n.y - h1.n.y * h2.n.x)⟩ := by
  rw [line_intersection]
  simp only [if_neg hdet]

theorem backPops_small {hs : List Hs2} {eps : ℝ} {h : Hs2} {dq : List ℕ}
    (hl : ¬ 2 ≤ dq.length) : backPops hs eps h dq = dq := by
  rw [backPops, dif_neg hl]

theorem backPops_stop {hs : List Hs2} {eps : ℝ} {h : Hs2} {dq : List ℕ}
    (hl : 2 ≤ dq.length) {p : Vec2}
    (hp : line_intersection (hs.getD (dq.getD (dq.length - 2) 0) default)
        (hs.getD (dq.getD (dq.length - 1) 0) default) = some p)
    (hsat : h.satisfies_eps p eps) : backPops hs eps h dq = dq := by
  rw [backPops, dif_pos hl]
  simp only [hp, if_pos hsat]

theorem backPops_pop {hs : List Hs2} {eps : ℝ} {h : Hs2} {dq : List ℕ}
    (hl : 2 ≤ dq.length) {p : Vec2}
    (hp : line_intersection (hs.getD (dq.getD (dq.length - 2) 0) default)
        (hs.getD (dq.getD (dq.length - 1) 0) default) = some p)
    (hsat : ¬ h.satisfies_eps p eps) :
    backPops hs eps h dq = backPops hs eps h dq.dropLast := by
  rw [backPops, dif_pos hl]
  simp only [hp, if_neg hsat]

theorem frontPops_small {hs : List Hs2} {eps : ℝ} {h : Hs2} {dq : List ℕ}
    (hl : ¬ 2 ≤ dq.length) : frontPops hs eps h dq = dq := by
  rw [frontPops, dif_neg hl]

theorem frontPops_stop {hs : List Hs2} {eps : ℝ} {h : Hs2} {dq : List ℕ}
    (hl : 2 ≤ dq.length) {p : Vec2}
    (hp : line_intersection (hs.getD (dq.getD 0 0) default)
        (hs.getD (dq.getD 1 0) default) = some p)
    (hsat : h.satisfies_eps p eps) : frontPops hs eps h dq = dq := by
  rw [frontPops, dif_pos hl]
  simp only [hp, if_pos hsat]

theorem frontPops_pop {hs : List Hs2} {eps : ℝ} {h : Hs2} {dq : List ℕ}
    (hl : 2 ≤ dq.length) {p : Vec2}
    (hp : line_intersection (hs.getD (dq.getD 0 0) default)
        (hs.getD (dq.getD 1 0) default) = some p)
    (hsat : ¬ h.satisfies_eps p eps) :
    frontPops hs eps h dq = frontPops hs eps h dq.tail := by
  rw [frontPops, dif_pos hl]
  simp only [hp, if_neg hsat]

theorem cleanBack_small {hs : List Hs2} {eps : ℝ} {dq : List ℕ}
    (hl : ¬ 3 ≤ dq.length) : cleanBack hs eps dq = dq := by
  rw [cleanBack, dif_neg hl]

theorem cleanBack_stop {hs : List Hs2} {eps : ℝ} {dq : List ℕ}
    (hl : 3 ≤ dq.length) {p : Vec2}
    (hp : line_intersection (hs.getD (dq.getD (dq.length - 2) 0) default)
        (hs.getD (dq.getD (dq.length - 1) 0) default) = some p)
    (hsat : (hs.getD (dq.getD 0 0) default).satisfies_eps p eps) :
    cleanBack hs eps dq = dq := by
  rw [cleanBack, dif_pos hl]
  simp only [hp, if_pos hsat]

theorem cleanFront_small {hs : List Hs2} {eps : ℝ} {dq : List ℕ}
    (hl : ¬ 3 ≤ dq.length) : cleanFront hs eps dq = dq := by
  rw [cleanFront, dif_neg hl]

theorem cleanFront_stop {hs : List Hs2} {eps : ℝ} {dq : List ℕ}
    (hl : 3 ≤ dq.length) {p : Vec2}
    (hp : line_intersection (hs.getD (dq.getD 0 0) default)
        (hs.getD (dq.getD 1 0) default) = some p)
    (hsat : (hs.getD (dq.getD (dq.length - 1) 0) default).satisfies_eps p eps) :
    cleanFront hs eps dq = dq := by
  rw [cleanFront, dif_pos hl]
  simp only [hp, if_pos hsat]

theorem angle_of_e1 : angle_of ⟨1, 0⟩ = 0 := atan2_zero_one

theorem angle_of_neg_e1 : angle_of ⟨-1, 0⟩ = π := atan2_zero_neg_one

theorem angle_of_e2 : angle_of ⟨0, 1⟩ = π / 2 := atan2_one_zero

theorem angle_of_neg_e2 : angle_of ⟨0, -1⟩ = -(π / 2) := atan2_neg_one_zero

/-- The reference input `{x ≤ 0} ∩ {x ≥ 1}` of the spec, as stored
half-spaces `(1,0)·x ≤ 0` and `(-1,0)·x ≤ -1` (angle-sorted, unit normals). -/
def empty_pair_hs : List Hs2 := [⟨⟨1, 0⟩, 0⟩, ⟨⟨-1, 0⟩, -1⟩]

theorem empty_pair_angles :
    empty_pair_hs.map (fun h => angle_of h.n) = [0, π] := by
  simp [empty_pair_hs, angle_of_e1, angle_of_neg_e1]

theorem empty_pair_fastfire : FastFire empty_pair_hs 0 := by
  have hpi := pi_pos
  have htarget : wrap_angle ((0:ℝ) + π) = π := by
    rw [zero_add]; exact wrap_angle_of_mem (by linarith) le_rfl
  have hbs : bsearch_lt [0, π] π 0 2 = 1 := by
    rw [bsearch_lt_go_left (by norm_num) (by norm_num [List.getD])]
    rw [bsearch_lt_go_right (by norm_num) (by norm_num [List.getD, hpi])]
    exact bsearch_lt_done (by norm_num)
  unfold FastFire
  simp only [empty_pair_angles]
  refine ⟨?_, ?_, ?_⟩
  · simp only [List.getD, List.length_cons, List.length_nil, List.get?_cons_zero,
      Option.getD_some, htarget, hbs]
    norm_num
  · simp only [List.getD, List.length_cons, List.length_nil, List.get?_cons_zero,
      Option.getD_some, htarget, hbs]
    norm_num [empty_pair_hs]
  · simp only [List.getD, List.length_cons, List.length_nil, List.get?_cons_zero,
      Option.getD_some, htarget, hbs]
    norm_num [empty_pair_hs]

theorem empty_pair_hsi (eps : ℝ) : hsi_ordered empty_pair_hs eps = .Empty := by
  unfold hsi_ordered
  rw [if_neg (by simp [empty_pair_hs]),
    if_pos ⟨0, by simp [empty_pair_hs], empty_pair_fastfire⟩]

/-- The first-quadrant wedge `{x ≥ 0, y ≥ 0}` as stored half-spaces
`(0,-1)·x ≤ 0` and `(-1,0)·x ≤ 0` (angle-sorted, unit normals). -/
def wedge_hs : List Hs2 := [⟨⟨0, -1⟩, 0⟩, ⟨⟨-1, 0⟩, 0⟩]

theorem wedge_angles :
    wedge_hs.map (fun h => angle_of h.n) = [-(π / 2), π] := by
  simp [wedge_hs, angle_of_neg_e2, angle_of_neg_e1]

theorem wedge_not_fire : ¬ ∃ i, i < wedge_hs.length ∧ FastFire wedge_hs i := by
  have hpi := pi_gt_three
  rintro ⟨i, hi, hf⟩
  simp only [wedge_hs, List.length_cons, List.length_nil] at hi
  unfold FastFire at hf
  simp only [wedge_angles] at hf
  interval_cases i
  · have htarget : wrap_angle (([-(π / 2), π] : List ℝ).getD 0 0 + π) = π / 2 := by
      have hg : ([-(π / 2), π] : List ℝ).getD 0 0 = -(π / 2) := by simp
      rw [hg, show -(π / 2) + π = π / 2 by ring]
      exact wrap_angle_of_mem (by linarith) (by linarith)
    have hbs : bsearch_lt [-(π / 2), π] (π / 2) 0 2 = 1 := by
      rw [bsearch_lt_go_left (by norm_num) (by simp; linarith)]
      rw [bsearch_lt_go_right (by norm_num) (by simp; linarith)]
      exact bsearch_lt_done (by norm_num)
    rw [htarget] at hf
    simp only [List.length_cons, List.length_nil, hbs] at hf
    have habs := hf.2.1
    have hg1 : ([-(π / 2), π] : List ℝ).getD 1 0 = π := by simp
    rw [hg1] at habs
    have := le_abs_self (π - π / 2)
    rw [abs_lt] at habs
    linarith [habs.2]
  · have htarget : wrap_angle (([-(π / 2), π] : List ℝ).getD 1 0 + π) = 0 := by
      have hg : ([-(π / 2), π] : List ℝ).getD 1 0 = π := by simp
      rw [hg, wrap_angle_of_gt (by linarith) (by linarith)]
      ring
    have hbs : bsearch_lt [-(π / 2), π] 0 0 2 = 1 := by
      rw [bsearch_lt_go_left (by norm_num) (by simp; linarith)]
      rw [bsearch_lt_go_right (by norm_num) (by simp; linarith)]
      exact bsearch_lt_done (by norm_num)
    rw [htarget] at hf
    simp only [List.length_cons, List.length_nil, hbs] at hf
    have habs := hf.2.1
    have hg1 : ([-(π / 2), π] : List ℝ).getD 1 0 = π := by simp
    rw [hg1] at habs
    rw [abs_lt] at habs
    linarith [habs.2]

theorem wedge_hsi (eps : ℝ) : hsi_ordered wedge_hs eps = .Unbounded := by
  unfold hsi_ordered
  rw [if_neg (by simp [wedge_hs]), if_neg wedge_not_fire]
  have hrange : List.range wedge_hs.length = [0, 1] := by
    rw [show wedge_hs.length = 2 by simp [wedge_hs]]
    decide
  have hfold : (List.range wedge_hs.length).foldl (sweepStep wedge_hs eps) [] = [0, 1] := by
    rw [hrange]
    simp only [List.foldl_cons, List.foldl_nil]
    rw [show sweepStep wedge_hs eps [] 0 = [0] by
      simp only [sweepStep]
      rw [backPops_small (by norm_num), frontPops_small (by norm_num)]
      rfl]
    simp only [sweepStep]
    rw [backPops_small (by norm_num), frontPops_small (by norm_num)]
    rfl
  simp only [hfold]
  rw [cleanBack_small (by norm_num), cleanFront_small (by norm_num)]
  norm_num

/-- The four half-spaces of the unit square `[0,1]^2`, angle-sorted as the
ordered engine stores them after insertion. -/
def square_hs : List Hs2 :=
  [⟨⟨0, -1⟩, 0⟩, ⟨⟨1, 0⟩, 1⟩, ⟨⟨0, 1⟩, 1⟩, ⟨⟨-1, 0⟩, 0⟩]

theorem square_angles :
    square_hs.map (fun h => angle_of h.n) = [-(π / 2), 0, π / 2, π] := by
  simp [square_hs, angle_of_neg_e2, angle_of_e1, angle_of_e2, angle_of_neg_e1]

theorem square_not_fire : ¬ ∃ i, i < square_hs.length ∧ FastFire square_hs i := by
  have hpi := pi_gt_three
  rintro ⟨i, hi, hf⟩
  simp only [square_hs, List.length_cons, List.length_nil] at hi
  unfold FastFire at hf
  simp only [square_angles] at hf
  interval_cases i
  · have htarget : wrap_angle (([-(π / 2), 0, π / 2, π] : List ℝ).getD 0 0 + π) = π / 2 := by
      have hg : ([-(π / 2), 0, π / 2, π] : List ℝ).getD 0 0 = -(π / 2) := by simp
      rw [hg, show -(π / 2) + π = π / 2 by ring]
      exact wrap_angle_of_mem (by linarith) (by linarith)
    have hbs : bsearch_lt [-(π / 2), 0, π / 2, π] (π / 2) 0 4 = 2 := by
      rw [bsearch_lt_go_left (by norm_num) (by simp)]
      rw [bsearch_lt_go_right (by norm_num) (by simp; linarith)]
      exact bsearch_lt_done (by norm_num)
    rw [htarget] at hf
    simp only [List.length_cons, List.length_nil, hbs] at hf
    have h3 := hf.2.2
    revert h3
    norm_num [square_hs]
  · have htarget : wrap_angle (([-(π / 2), 0, π / 2, π] : List ℝ).getD 1 0 + π) = π := by
      have hg : ([-(π / 2), 0, π / 2, π] : List ℝ).getD 1 0 = 0 := by simp
      rw [hg, zero_add]
      exact wrap_angle_of_mem (by linarith) le_rfl
    have hbs : bsearch_lt [-(π / 2), 0, π / 2, π] π 0 4 = 3 := by
      rw [bsearch_lt_go_right (by norm_num) (by simp; linarith)]
      rw [bsearch_lt_go_left (by norm_num) (by simp)]
      exact bsearch_lt_done (by norm_num)
    rw [htarget] at hf
    simp only [List.length_cons, List.length_nil, hbs] at hf
    have h3 := hf.2.2
    revert h3
    norm_num [square_hs]
  · have htarget :
        wrap_angle (([-(π / 2), 0, π / 2, π] : List ℝ).getD 2 0 + π) = -(π / 2) := by
      have hg : ([-(π / 2), 0, π / 2, π] : List ℝ).getD 2 0 = π / 2 := by simp
      rw [hg, wrap_angle_of_gt (by linarith) (by linarith)]
      ring
    have hbs : bsearch_lt [-(π / 2), 0, π / 2, π] (-(π / 2)) 0 4 = 0 := by
      rw [bsearch_lt_go_left (by norm_num) (by simp; linarith)]
      rw [bsearch_lt_go_left (by norm_num) (by simp; linarith)]
      rw [bsearch_lt_go_left (by norm_num) (by simp)]
      exact bsearch_lt_done (by norm_num)
    rw [htarget] at hf
    simp only [List.length_cons, List.length_nil, hbs] at hf
    have h3 := hf.2.2
    revert h3
    norm_num [square_hs]
  · have htarget : wrap_angle (([-(π / 2), 0, π / 2, π] : List ℝ).getD 3 0 + π) = 0 := by
      have hg : ([-(π / 2), 0, π / 2, π] : List ℝ).getD 3 0 = π := by simp
      rw [hg, wrap_angle_of_gt (by linarith) (by linarith)]
      ring
    have hbs : bsearch_lt [-(π / 2), 0, π / 2, π] 0 0 4 = 1 := by
      rw [bsearch_lt_go_left (by norm_num) (by simp; linarith)]
      rw [bsearch_lt_go_left (by norm_num) (by simp)]
      rw [bsearch_lt_go_right (by norm_num) (by simp; linarith)]
      exact bsearch_lt_done (by norm_num)
    rw [htarget] at hf
    simp only [List.length_cons, List.length_nil, hbs] at hf
    have h3 := hf.2.2
    revert h3
    norm_num [square_hs]

theorem hL01 : line_intersection ⟨⟨0, -1⟩, 0⟩ ⟨⟨1, 0⟩, 1⟩ = some ⟨1, 0⟩ := by
  rw [line_intersection_eval (by norm_num)]
  norm_num

theorem hL12 : line_intersection ⟨⟨1, 0⟩, 1⟩ ⟨⟨0, 1⟩, 1⟩ = some ⟨1, 1⟩ := by
  rw [line_intersection_eval (by norm_num)]
  norm_num

theorem hL23 : line_intersection ⟨⟨0, 1⟩, 1⟩ ⟨⟨-1, 0⟩, 0⟩ = some ⟨0, 1⟩ := by
  rw [line_intersection_eval (by norm_num)]
  norm_num

theorem hL30 : line_intersection ⟨⟨-1, 0⟩, 0⟩ ⟨⟨0, -1⟩, 0⟩ = some ⟨0, 0⟩ := by
  rw [line_intersection_eval (by norm_num)]
  norm_num

theorem square_sweep :
    (List.range square_hs.length).foldl (sweepStep square_hs 0) [] = [0, 1, 2, 3] := by
  rw [show List.range square_hs.length = [0, 1, 2, 3] by
    rw [show square_hs.length = 4 by simp [square_hs]]; decide]
  simp only [List.foldl_cons, List.foldl_nil]
  rw [show sweepStep square_hs 0 [] 0 = [0] by
    simp only [sweepStep]
    rw [backPops_small (by norm_num), frontPops_small (by norm_num)]
    rfl]
  rw [show sweepStep square_hs 0 [0] 1 = [0, 1] by
    simp only [sweepStep]
    rw [backPops_small (by norm_num), frontPops_small (by norm_num)]
    rfl]
  rw [show sweepStep square_hs 0 [0, 1] 2 = [0, 1, 2] by
    simp only [sweepStep]
    rw [backPops_stop (by norm_num) (p := ⟨1, 0⟩) (by exact hL01)
      (by simp [square_hs, Hs2.satisfies_eps, Vec2.dot])]
    rw [frontPops_stop (by norm_num) (p := ⟨1, 0⟩) (by exact hL01)
      (by simp [square_hs, Hs2.satisfies_eps, Vec2.dot])]
    rfl]
  rw [show sweepStep square_hs 0 [0, 1, 2] 3 = [0, 1, 2, 3] by
    simp only [sweepStep]
    rw [backPops_stop (by norm_num) (p := ⟨1, 1⟩) (by exact hL12)
      (by simp [square_hs, Hs2.satisfies_eps, Vec2.dot])]
    rw [frontPops_stop (by norm_num) (p := ⟨1, 0⟩) (by exact hL01)
      (by simp [square_hs, Hs2.satisfies_eps, Vec2.dot])]
    rfl]

theorem square_verts :
    collectVerts square_hs [0, 1, 2, 3] (List.range 4) =
      some [⟨1, 0⟩, ⟨1, 1⟩, ⟨0, 1⟩, ⟨0, 0⟩] := by
  rw [show List.range 4 = [0, 1, 2, 3] by decide]
  simp only [collectVerts, List.getD_cons_zero, List.getD_cons_succ,
    List.length_cons, List.length_nil, square_hs]
  norm_num [hL01, hL12, hL23, hL30]

theorem square_hsi : hsi_ordered square_hs 0 = .Bounded [⟨1, 0⟩, ⟨1, 1⟩, ⟨0, 1⟩, ⟨0, 0⟩] := by
  unfold hsi_ordered
  rw [if_neg (by simp [square_hs]), if_neg square_not_fire]
  simp only [square_sweep]
  rw [cleanBack_stop (by norm_num) (p := ⟨0, 1⟩)
      (by
        show line_intersection (square_hs.getD 2 default) (square_hs.getD 3 default) = _
        exact hL23)
      (by simp [square_hs, Hs2.satisfies_eps, Vec2.dot])]
  rw [cleanFront_stop (by norm_num) (p := ⟨1, 0⟩)
      (by
        show line_intersection (square_hs.getD 0 default) (square_hs.getD 1 default) = _
        exact hL01)
      (by simp [square_hs, Hs2.satisfies_eps, Vec2.dot])]
  rw [show ([0, 1, 2, 3] : List ℕ).isEmpty = false from rfl]
  simp only [Bool.false_eq_true, if_false]
  rw [if_neg (by norm_num)]
  rw [show ([0, 1, 2, 3] : List ℕ).length = 4 from rfl, square_verts]
  norm_num

/-- **C5**: `half_plane_intersection` classifies the three reference inputs as
specified: the ordered polytope holding `{x ≤ 0}` and `{x ≥ 1}` (half-spaces
`(1,0)·x ≤ 0` and `(-1,0)·x ≤ -1`) returns `Empty`; the four half-spaces of
the unit square return `Bounded` with at least 4 vertices; the two
half-spaces of the first-quadrant wedge `{x ≥ 0, y ≥ 0}` return
`Unbounded`. -/
theorem c5_reference_classifications :
    (Poly2.mk empty_pair_hs).halfspace_intersection = .Empty ∧
    ((Poly2.mk square_hs).halfspace_intersection =
        .Bounded [⟨1, 0⟩, ⟨1, 1⟩, ⟨0, 1⟩, ⟨0, 0⟩] ∧
      4 ≤ ([⟨1, 0⟩, ⟨1, 1⟩, ⟨0, 1⟩, ⟨0, 0⟩] : List Vec2).length) ∧
    (Poly2.mk wedge_hs).halfspace_intersection = .Unbounded := by
  refine ⟨?_, ⟨?_, by norm_num⟩, ?_⟩
  · exact empty_pair_hsi 0
  · exact square_hsi
  · exact wedge_hsi 0

theorem cleanBack_pop {hs : List Hs2} {eps : ℝ} {dq : List ℕ}
    (hl : 3 ≤ dq.length) {p : Vec2}
    (hp : line_intersection (hs.getD (dq.getD (dq.length - 2) 0) default)
        (hs.getD (dq.getD (dq.length - 1) 0) default) = some p)
    (hsat : ¬ (hs.getD (dq.getD 0 0) default).satisfies_eps p eps) :
    cleanBack hs eps dq = cleanBack hs eps dq.dropLast := by
  rw [cleanBack, dif_pos hl]
  simp only [hp, if_neg hsat]

theorem cleanBack_none {hs : List Hs2} {eps : ℝ} {dq : List ℕ}
    (hl : 3 ≤ dq.length)
    (hp : line_intersection (hs.getD (dq.getD (dq.length - 2) 0) default)
        (hs.getD (dq.getD (dq.length - 1) 0) default) = none) :
    cleanBack hs eps dq = cleanBack hs eps dq.dropLast := by
  rw [cleanBack, dif_pos hl]
  simp only [hp]

theorem cleanFront_pop {hs : List Hs2} {eps : ℝ} {dq : List ℕ}
    (hl : 3 ≤ dq.length) {p : Vec2}
    (hp : line_intersection (hs.getD (dq.getD 0 0) default)
        (hs.getD (dq.getD 1 0) default) = some p)
    (hsat : ¬ (hs.getD (dq.getD (dq.length - 1) 0) default).satisfies_eps p eps) :
    cleanFront hs eps dq = cleanFront hs eps dq.tail := by
  rw [cleanFront, dif_pos hl]
  simp only [hp, if_neg hsat]

theorem cleanFront_none {hs : List Hs2} {eps : ℝ} {dq : List ℕ}
    (hl : 3 ≤ dq.length)
    (hp : line_intersection (hs.getD (dq.getD 0 0) default)
        (hs.getD (dq.getD 1 0) default) = none) :
    cleanFront hs eps dq = cleanFront hs eps dq.tail := by
  rw [cleanFront, dif_pos hl]
  simp only [hp]

/-- Every main-loop iteration of the sweep ends with a `push_back`, so the
deque is non-empty after a non-empty index range has been processed. -/
theorem foldl_sweepStep_ne_nil (hs : List Hs2) (eps : ℝ) :
    ∀ ks : List ℕ, ∀ a : List ℕ, ks ≠ [] → ks.foldl (sweepStep hs eps) a ≠ [] := by
  intro ks
  induction ks with
  | nil => intro a h; exact absurd rfl h
  | cons k ks ih =>
    intro a _
    rcases ks with _ | ⟨k', ks'⟩
    · simp only [List.foldl_cons, List.foldl_nil, sweepStep]
      intro hcon
      simpa using congrArg List.length hcon
    · exact ih _ (by simp)

/-- The first cleanup pass pops only while the deque has length at least 3,
so it never empties the deque. -/
theorem cleanBack_ne_nil (hs : List Hs2) (eps : ℝ) :
    ∀ n (dq : List ℕ), dq.length ≤ n → dq ≠ [] → cleanBack hs eps dq ≠ [] := by
  intro n
  induction n with
  | zero =>
    intro dq hl hne
    exact absurd (List.length_eq_zero.mp (Nat.le_zero.mp hl)) hne
  | succ n ih =>
    intro dq hl hne
    by_cases hlen : 3 ≤ dq.length
    · have hdrop_len : dq.dropLast.length = dq.length - 1 := List.length_dropLast dq
      have hdrop_ne : dq.dropLast ≠ [] := by
        intro hc
        apply_fun List.length at hc
        rw [hdrop_len] at hc
        simp at hc
        omega
      have hrec := ih dq.dropLast (by omega) hdrop_ne
      rcases hli : line_intersection (hs.getD (dq.getD (dq.length - 2) 0) default)
          (hs.getD (dq.getD (dq.length - 1) 0) default) with _ | p
      · rw [cleanBack_none hlen hli]; exact hrec
      · by_cases hsat : (hs.getD (dq.getD 0 0) default).satisfies_eps p eps
        · rw [cleanBack_stop hlen hli hsat]; exact hne
        · rw [cleanBack_pop hlen hli hsat]; exact hrec
    · rw [cleanBack_small hlen]; exact hne

/-- The second cleanup pass pops only while the deque has length at least 3,
so it never empties the deque. -/
theorem cleanFront_ne_nil (hs : List Hs2) (eps : ℝ) :
    ∀ n (dq : List ℕ), dq.length ≤ n → dq ≠ [] → cleanFront hs eps dq ≠ [] := by
  intro n
  induction n with
  | zero =>
    intro dq hl hne
    exact absurd (List.length_eq_zero.mp (Nat.le_zero.mp hl)) hne
  | succ n ih =>
    intro dq hl hne
    by_cases hlen : 3 ≤ dq.length
    · have htail_len : dq.tail.length = dq.length - 1 := List.length_tail dq
      have htail_ne : dq.tail ≠ [] := by
        intro hc
        apply_fun List.length at hc
        rw [htail_len] at hc
        simp at hc
        omega
      have hrec := ih dq.tail (by omega) htail_ne
      rcases hli : line_intersection (hs.getD (dq.getD 0 0) default)
          (hs.getD (dq.getD 1 0) default) with _ | p
      · rw [cleanFront_none hlen hli]; exact hrec
      · by_cases hsat : (hs.getD (dq.getD (dq.length - 1) 0) default).satisfies_eps p eps
        · rw [cleanFront_stop hlen hli hsat]; exact hne
        · rw [cleanFront_pop hlen hli hsat]; exact hrec
    · rw [cleanFront_small hlen]; exact hne

/-- `hsi_ordered` returns `Empty` only through the fast near-antipodal check:
the sweep stage always leaves a non-empty deque and classifies as `Unbounded`
or `Bounded`. -/
theorem hsi_empty_fire {hs : List Hs2} {eps : ℝ}
    (h : hsi_ordered hs eps = .Empty) : ∃ i, i < hs.length ∧ FastFire hs i := by
  unfold hsi_ordered at h
  by_cases he : hs.isEmpty = true
  · rw [if_pos he] at h; exact absurd h (by simp)
  rw [if_neg he] at h
  by_cases hex : ∃ i, i < hs.length ∧ FastFire hs i
  · exact hex
  rw [if_neg hex] at h
  exfalso
  set dq0 := (List.range hs.length).foldl (sweepStep hs eps) [] with hdq0
  have hne_hs : hs ≠ [] := fun hc => he (by simp [hc])
  have hne0 : dq0 ≠ [] := by
    apply foldl_sweepStep_ne_nil
    intro hc
    apply_fun List.length at hc
    simp at hc
    exact hne_hs hc
  set dq1 := cleanBack hs eps dq0 with hdq1
  have hne1 : dq1 ≠ [] := cleanBack_ne_nil hs eps dq0.length dq0 le_rfl hne0
  set dq := cleanFront hs eps dq1 with hdq
  have hne : dq ≠ [] := cleanFront_ne_nil hs eps dq1.length dq1 le_rfl hne1
  simp only [] at h
  by_cases hemp : dq.isEmpty = true
  · exact hne (List.isEmpty_iff.mp hemp)
  rw [if_neg hemp] at h
  by_cases hlt : dq.length < 3
  · rw [if_pos hlt] at h; exact absurd h (by simp)
  rw [if_neg hlt] at h
  rcases hcv : collectVerts hs dq (List.range dq.length) with _ | verts
  · rw [hcv] at h; exact absurd h (by simp)
  · rw [hcv] at h
    have h' : (if 3 ≤ verts.length then HalfspaceIntersection.Bounded verts
        else HalfspaceIntersection.Unbounded) = HalfspaceIntersection.Empty := h
    by_cases hv3 : 3 ≤ verts.length
    · rw [if_pos hv3] at h'; exact absurd h' (by simp)
    · rw [if_neg hv3] at h'; exact absurd h' (by simp)

theorem getD_mem_of_lt {α : Type} {l : List α} {n : ℕ} (h : n < l.length) (d : α) :
    l.getD n d ∈ l := by
  rw [List.getD_eq_getElem?_getD, List.getElem?_eq_getElem h]
  exact List.getElem_mem h

/-- The index found by the fast check's binary search for the near-antipode
of entry `i` (the `lo` of `hsi_ordered`'s first loop). -/
def fastPartner (hs : List Hs2) (i : ℕ) : ℕ :=
  bsearch_lt (hs.map fun h => angle_of h.n)
    (wrap_angle ((hs.map fun h => angle_of h.n).getD i 0 + π)) 0
    (hs.map fun h => angle_of h.n).length

theorem fastFire_iff (hs : List Hs2) (i : ℕ) :
    FastFire hs i ↔
      fastPartner hs i < (hs.map fun h => angle_of h.n).length ∧
      |(hs.map fun h => angle_of h.n).getD (fastPartner hs i) 0 -
          wrap_angle ((hs.map fun h => angle_of h.n).getD i 0 + π)| < 1e-12 ∧
      max (-(hs.getD i default).c) (-(hs.getD (fastPartner hs i) default).c)
        > min (hs.getD i default).c (hs.getD (fastPartner hs i) default).c :=
  Iff.rfl

/-- **C3** (amended): the signed-eps soundness holds only in the restricted
form the implementation supports.  `hsi_ordered` returns `Empty` only via the
near-antipodal fast check, which ignores `eps` and compares
`max(-c1,-c2) > min(c1,c2)` (that is, `min(c1,c2) < 0`); so emptiness of the
exact intersection is guaranteed (for every `eps`) only under the proviso
that every pair the fast check can fire on is exactly antipodal with negative
offset sum.  The unrestricted positive-eps direction, and the negative-eps
non-emptiness direction, are refuted by `c3_counterexample`. -/
theorem c3_empty_sound_restricted (hs : List Hs2) (eps : ℝ)
    (hprov : ∀ i, i < hs.length → FastFire hs i →
      (hs.getD (fastPartner hs i) default).n = (hs.getD i default).n.neg ∧
      (hs.getD i default).c + (hs.getD (fastPartner hs i) default).c < 0)
    (hempty : hsi_ordered hs eps = .Empty) :
    ∀ p : Vec2, ¬ (Poly2.mk hs).contains_eps p 0 := by
  obtain ⟨i, hi, hf⟩ := hsi_empty_fire hempty
  obtain ⟨hn, hc⟩ := hprov i hi hf
  intro p hp
  have hj : fastPartner hs i < hs.length := by
    have h1 := (fastFire_iff hs i).mp hf
    simpa using h1.1
  have hmi := hp _ (getD_mem_of_lt hi default)
  have hmj := hp _ (getD_mem_of_lt hj default)
  unfold Hs2.satisfies_eps at hmi hmj
  rw [hn] at hmj
  simp only [Vec2.dot, Vec2.neg, add_zero] at hmi hmj
  linarith

theorem arctan_lt_self_of_pos {x : ℝ} (h : 0 < x) : arctan x < x := by
  have h1 : 0 < arctan x := arctan_pos_of_pos h
  have h2 : arctan x < π / 2 := arctan_lt_pi_div_two x
  have h3 := lt_tan h1 h2
  rwa [tan_arctan] at h3

theorem arctan_43_lb : π / 4 ≤ arctan (4 / 3) := by
  rw [← arctan_one]
  exact arctan_strictMono.monotone (by norm_num)

theorem arctan_43_ub : arctan (4 / 3) < 4 / 3 :=
  arctan_lt_self_of_pos (by norm_num)

/-- A generic antipodal slab `[(1,0)·x ≤ c1, (-1,0)·x ≤ c2]`: the fast check
fires at index 0 whenever `max(-c1,-c2) > min(c1,c2)`. -/
theorem slab_fastfire_general (c1 c2 : ℝ) (hcmp : max (-c1) (-c2) > min c1 c2) :
    FastFire [⟨⟨1, 0⟩, c1⟩, ⟨⟨-1, 0⟩, c2⟩] 0 := by
  have hpi := pi_pos
  have hang : ([⟨⟨1, 0⟩, c1⟩, ⟨⟨-1, 0⟩, c2⟩] : List Hs2).map (fun h => angle_of h.n)
      = [0, π] := by
    simp [angle_of_e1, angle_of_neg_e1]
  have htarget : wrap_angle ((0:ℝ) + π) = π := by
    rw [zero_add]; exact wrap_angle_of_mem (by linarith) le_rfl
  have hbs : bsearch_lt [0, π] π 0 2 = 1 := by
    rw [bsearch_lt_go_left (by norm_num) (by norm_num [List.getD])]
    rw [bsearch_lt_go_right (by norm_num) (by norm_num [List.getD, hpi])]
    exact bsearch_lt_done (by norm_num)
  unfold FastFire
  simp only [hang]
  refine ⟨?_, ?_, ?_⟩
  · simp only [List.getD, List.length_cons, List.length_nil, List.get?_cons_zero,
      Option.getD_some, htarget, hbs]
    norm_num
  · simp only [List.getD, List.length_cons, List.length_nil, List.get?_cons_zero,
      Option.getD_some, htarget, hbs]
    norm_num
  · simp only [List.getD, List.length_cons, List.length_nil, List.get?_cons_zero,
      Option.getD_some, htarget, hbs]
    simpa using hcmp

theorem slab_hsi_general (c1 c2 : ℝ) (hcmp : max (-c1) (-c2) > min c1 c2) (eps : ℝ) :
    hsi_ordered [⟨⟨1, 0⟩, c1⟩, ⟨⟨-1, 0⟩, c2⟩] eps = .Empty := by
  unfold hsi_ordered
  rw [if_neg (by simp), if_pos ⟨0, by simp, slab_fastfire_general c1 c2 hcmp⟩]

/-- Direction-1 counterexample input for C3: the slab `x ≤ -1 ∧ -x ≤ 5`,
whose exact intersection `[-5, -1] × ℝ` is non-empty but whose fast check
fires (`min(c1,c2) = -1 < 0`). -/
def ce_slab_hs : List Hs2 := [⟨⟨1, 0⟩, -1⟩, ⟨⟨-1, 0⟩, 5⟩]

/-- Direction-2 counterexample input for C3: three half-planes with normals
`(-3/5,-4/5)`, `(1,0)`, `(-3/5,4/5)` and offsets `-1`, whose exact
intersection is empty, but which the sweep classifies `Unbounded`. -/
def tri_hs : List Hs2 :=
  [⟨⟨-3/5, -4/5⟩, -1⟩, ⟨⟨1, 0⟩, -1⟩, ⟨⟨-3/5, 4/5⟩, -1⟩]

theorem angle_of_tri0 : angle_of ⟨-3/5, -4/5⟩ = arctan (4/3) - π := by
  unfold angle_of atan2
  rw [if_neg (by norm_num), if_pos (by norm_num), if_neg (by norm_num)]
  norm_num

theorem angle_of_tri2 : angle_of ⟨-3/5, 4/5⟩ = π - arctan (4/3) := by
  unfold angle_of atan2
  rw [if_neg (by norm_num), if_pos (by norm_num), if_pos (by norm_num)]
  rw [show (4/5 : ℝ) / (-3/5) = -(4/3) by norm_num, arctan_neg]
  ring

theorem tri_angles :
    tri_hs.map (fun h => angle_of h.n) =
      [arctan (4/3) - π, 0, π - arctan (4/3)] := by
  simp [tri_hs, angle_of_tri0, angle_of_e1, angle_of_tri2]

theorem tri_not_fire : ¬ ∃ i, i < tri_hs.length ∧ FastFire tri_hs i := by
  have hpi := pi_gt_d2
  have ha0 : 0 < arctan (4/3) := arctan_pos_of_pos (by norm_num)
  have ha2 : arctan (4/3) < π / 2 := arctan_lt_pi_div_two _
  have ha4 := arctan_43_lb
  have hau := arctan_43_ub
  rintro ⟨i, hi, hf⟩
  simp only [tri_hs, List.length_cons, List.length_nil] at hi
  unfold FastFire at hf
  simp only [tri_angles] at hf
  interval_cases i
  · have htarget :
        wrap_angle (([arctan (4/3) - π, 0, π - arctan (4/3)] : List ℝ).getD 0 0 + π)
          = arctan (4/3) := by
      have hg : ([arctan (4/3) - π, 0, π - arctan (4/3)] : List ℝ).getD 0 0
          = arctan (4/3) - π := by simp
      rw [hg, show arctan (4/3) - π + π = arctan (4/3) by ring]
      exact wrap_angle_of_mem (by linarith) (by linarith)
    have hbs : bsearch_lt [arctan (4/3) - π, 0, π - arctan (4/3)] (arctan (4/3)) 0 3 = 2 := by
      rw [bsearch_lt_go_right (by norm_num) (by simp; linarith)]
      rw [bsearch_lt_go_left (by norm_num) (by simp; linarith)]
      exact bsearch_lt_done (by norm_num)
    rw [htarget] at hf
    simp only [List.length_cons, List.length_nil, hbs] at hf
    have habs := hf.2.1
    have hg1 : ([arctan (4/3) - π, 0, π - arctan (4/3)] : List ℝ).getD 2 0
        = π - arctan (4/3) := by simp
    rw [hg1, abs_lt] at habs
    linarith [habs.2]
  · have htarget :
        wrap_angle (([arctan (4/3) - π, 0, π - arctan (4/3)] : List ℝ).getD 1 0 + π) = π := by
      have hg : ([arctan (4/3) - π, 0, π - arctan (4/3)] : List ℝ).getD 1 0 = 0 := by simp
      rw [hg, zero_add]
      exact wrap_angle_of_mem (by linarith) le_rfl
    have hbs : bsearch_lt [arctan (4/3) - π, 0, π - arctan (4/3)] π 0 3 = 3 := by
      rw [bsearch_lt_go_right (by norm_num) (by simp; linarith)]
      rw [bsearch_lt_go_right (by norm_num) (by simp; linarith)]
      exact bsearch_lt_done (by norm_num)
    rw [htarget] at hf
    simp only [List.length_cons, List.length_nil, hbs] at hf
    exact absurd hf.1 (by norm_num)
  · have htarget :
        wrap_angle (([arctan (4/3) - π, 0, π - arctan (4/3)] : List ℝ).getD 2 0 + π)
          = -arctan (4/3) := by
      have hg : ([arctan (4/3) - π, 0, π - arctan (4/3)] : List ℝ).getD 2 0
          = π - arctan (4/3) := by simp
      rw [hg, show π - arctan (4/3) + π = 2 * π - arctan (4/3) by ring,
        wrap_angle_of_gt (by linarith) (by linarith)]
      ring
    have hbs : bsearch_lt [arctan (4/3) - π, 0, π - arctan (4/3)] (-arctan (4/3)) 0 3 = 1 := by
      rw [bsearch_lt_go_left (by norm_num) (by simp; linarith)]
      rw [bsearch_lt_go_right (by norm_num) (by simp; linarith)]
      exact bsearch_lt_done (by norm_num)
    rw [htarget] at hf
    simp only [List.length_cons, List.length_nil, hbs] at hf
    have habs := hf.2.1
    have hg1 : ([arctan (4/3) - π, 0, π - arctan (4/3)] : List ℝ).getD 1 0 = 0 := by simp
    rw [hg1, abs_lt] at habs
    linarith [habs.2]

theorem tri_line01 :
    line_intersection ⟨⟨-3/5, -4/5⟩, -1⟩ ⟨⟨1, 0⟩, -1⟩ = some ⟨-1, 2⟩ := by
  rw [line_intersection_eval (by intro hcon; rw [abs_lt] at hcon; norm_num at hcon)]
  norm_num

theorem tri_hsi : hsi_ordered tri_hs (-(1/10)) = .Unbounded := by
  unfold hsi_ordered
  rw [if_neg (by simp [tri_hs]), if_neg tri_not_fire]
  have hfold : (List.range tri_hs.length).foldl (sweepStep tri_hs (-(1/10))) [] = [0, 2] := by
    rw [show List.range tri_hs.length = [0, 1, 2] by
      rw [show tri_hs.length = 3 by simp [tri_hs]]; decide]
    simp only [List.foldl_cons, List.foldl_nil]
    rw [show sweepStep tri_hs (-(1/10)) [] 0 = [0] by
      simp only [sweepStep]
      rw [backPops_small (by norm_num), frontPops_small (by norm_num)]
      rfl]
    rw [show sweepStep tri_hs (-(1/10)) [0] 1 = [0, 1] by
      simp only [sweepStep]
      rw [backPops_small (by norm_num), frontPops_small (by norm_num)]
      rfl]
    simp only [sweepStep]
    rw [backPops_pop (by norm_num) (p := ⟨-1, 2⟩) (by exact tri_line01)
      (by simp [tri_hs, Hs2.satisfies_eps, Vec2.dot]; norm_num)]
    rw [show ([0, 1] : List ℕ).dropLast = [0] from rfl]
    rw [backPops_small (by norm_num), frontPops_small (by norm_num)]
    rfl
  simp only [hfold]
  rw [cleanBack_small (by norm_num), cleanFront_small (by norm_num)]
  norm_num

/-- **C3** (counterexample): both soundness directions of the claim fail.
With `eps = 1 > 0`, the slab `x ≤ -1 ∧ -x ≤ 5` is classified `Empty` although
the point `(-2, 0)` lies in the exact intersection (the fast check ignores
`eps` and tests `min(c1,c2) < 0` instead of `c1 + c2 < 0`).  With
`eps = -1/10 < 0`, the three half-planes of `tri_hs` have empty exact
intersection but are classified `Unbounded`. -/
theorem c3_counterexample :
    ((0:ℝ) < 1 ∧ hsi_ordered ce_slab_hs 1 = .Empty ∧
      (Poly2.mk ce_slab_hs).contains_eps ⟨-2, 0⟩ 0) ∧
    ((-(1/10) : ℝ) < 0 ∧ hsi_ordered tri_hs (-(1/10)) = .Unbounded ∧
      ∀ p : Vec2, ¬ (Poly2.mk tri_hs).contains_eps p 0) := by
  refine ⟨⟨by norm_num, ?_, ?_⟩, ⟨by norm_num, tri_hsi, ?_⟩⟩
  · exact slab_hsi_general (-1) 5 (by norm_num) 1
  · intro h hm
    simp only [ce_slab_hs, List.mem_cons, List.not_mem_nil, or_false] at hm
    rcases hm with h1 | h2
    · subst h1; norm_num [Hs2.satisfies_eps, Vec2.dot]
    · subst h2; norm_num [Hs2.satisfies_eps, Vec2.dot]
  · intro p hp
    have h0 := hp ⟨⟨-3/5, -4/5⟩, -1⟩ (by simp [tri_hs])
    have h1 := hp ⟨⟨1, 0⟩, -1⟩ (by simp [tri_hs])
    have h2 := hp ⟨⟨-3/5, 4/5⟩, -1⟩ (by simp [tri_hs])
    simp only [Hs2.satisfies_eps, Vec2.dot, add_zero] at h0 h1 h2
    linarith

theorem c3_witness :
    hsi_ordered [⟨⟨1, 0⟩, -1⟩, ⟨⟨-1, 0⟩, -1⟩] 1 = .Empty ∧
    ∀ p : Vec2, ¬ (Poly2.mk [⟨⟨1, 0⟩, -1⟩, ⟨⟨-1, 0⟩, -1⟩]).contains_eps p 0 := by
  have hpi := pi_pos
  have hempty := slab_hsi_general (-1) (-1) (by norm_num) 1
  refine ⟨hempty, c3_empty_sound_restricted _ 1 ?_ hempty⟩
  have hang : ([⟨⟨1, 0⟩, -1⟩, ⟨⟨-1, 0⟩, -1⟩] : List Hs2).map (fun h => angle_of h.n)
      = [0, π] := by
    simp [angle_of_e1, angle_of_neg_e1]
  have hp0 : fastPartner [⟨⟨1, 0⟩, -1⟩, ⟨⟨-1, 0⟩, -1⟩] 0 = 1 := by
    unfold fastPartner
    rw [hang]
    rw [show ([0, π] : List ℝ).getD 0 0 = 0 by simp]
    rw [show wrap_angle ((0:ℝ) + π) = π by
      rw [zero_add]; exact wrap_angle_of_mem (by linarith) le_rfl]
    rw [bsearch_lt_go_left (by norm_num) (by norm_num [List.getD])]
    rw [bsearch_lt_go_right (by norm_num) (by norm_num [List.getD, hpi])]
    exact bsearch_lt_done (by norm_num)
  have hp1 : fastPartner [⟨⟨1, 0⟩, -1⟩, ⟨⟨-1, 0⟩, -1⟩] 1 = 0 := by
    unfold fastPartner
    rw [hang]
    rw [show ([0, π] : List ℝ).getD 1 0 = π by simp]
    rw [show wrap_angle (π + π) = 0 by
      rw [wrap_angle_of_gt (by linarith) (by linarith)]; ring]
    rw [bsearch_lt_go_left (by norm_num) (by norm_num [List.getD]; linarith)]
    rw [bsearch_lt_go_left (by norm_num) (by norm_num [List.getD])]
    exact bsearch_lt_done (by norm_num)
  intro i hi _hf
  simp only [List.length_cons, List.length_nil] at hi
  interval_cases i
  · rw [hp0]
    constructor
    · show (⟨⟨-1, 0⟩, -1⟩ : Hs2).n = Vec2.neg ⟨1, 0⟩
      simp [Vec2.neg]
    · norm_num
  · rw [hp1]
    constructor
    · show (⟨⟨1, 0⟩, -1⟩ : Hs2).n = Vec2.neg ⟨-1, 0⟩
      simp [Vec2.neg]
    · norm_num

/-- 2x2 matrix (nalgebra `Matrix2<f64>`), row-major entries. -/
structure Mat2 where
  m00 : ℝ
  m01 : ℝ
  m10 : ℝ
  m11 : ℝ

namespace Mat2

def mul (A B : Mat2) : Mat2 :=
  ⟨A.m00 * B.m00 + A.m01 * B.m10, A.m00 * B.m01 + A.m01 * B.m11,
   A.m10 * B.m00 + A.m11 * B.m10, A.m10 * B.m01 + A.m11 * B.m11⟩

def transpose (A : Mat2) : Mat2 := ⟨A.m00, A.m10, A.m01, A.m11⟩

def det (A : Mat2) : ℝ := A.m00 * A.m11 - A.m01 * A.m10

def id : Mat2 := ⟨1, 0, 0, 1⟩

def diag (a b : ℝ) : Mat2 := ⟨a, 0, 0, b⟩

def mulVec (A : Mat2) (v : Vec2) : Vec2 :=
  ⟨A.m00 * v.x + A.m01 * v.y, A.m10 * v.x + A.m11 * v.y⟩

/-- `nalgebra`'s `try_inverse`: `None` exactly when the matrix is singular. -/
def try_inverse (A : Mat2) : Option Mat2 :=
  if A.det = 0 then none
  else some ⟨A.m11 / A.det, -A.m01 / A.det, -A.m10 / A.det, A.m00 / A.det⟩

theorem mul_assoc' (A B C : Mat2) : (A.mul B).mul C = A.mul (B.mul C) := by
  simp only [mul, Mat2.mk.injEq]
  refine ⟨by ring, by ring, by ring, by ring⟩

theorem mul_id (A : Mat2) : A.mul id = A := by
  simp only [mul, id]
  cases A
  simp only [Mat2.mk.injEq]
  refine ⟨by ring, by ring, by ring, by ring⟩

theorem id_mul (A : Mat2) : id.mul A = A := by
  simp only [mul, id]
  cases A
  simp only [Mat2.mk.injEq]
  refine ⟨by ring, by ring, by ring, by ring⟩

theorem transpose_mul (A B : Mat2) : (A.mul B).transpose = B.transpose.mul A.transpose := by
  simp only [mul, transpose, Mat2.mk.injEq]
  refine ⟨by ring, by ring, by ring, by ring⟩

theorem transpose_transpose (A : Mat2) : A.transpose.transpose = A := rfl

theorem transpose_diag (a b : ℝ) : (diag a b).transpose = diag a b := rfl

theorem diag_mul_diag (a b c d : ℝ) : (diag a b).mul (diag c d) = diag (a * c) (b * d) := by
  simp only [mul, diag, Mat2.mk.injEq]
  refine ⟨by ring, by ring, by ring, by ring⟩

end Mat2

/-- 2D affine map `x ↦ M x + t` (`Affine2` in `geom2/types.rs`, alias `Aff2`). -/
structure Aff2 where
  m : Mat2
  t : Vec2

namespace Aff2

def identity : Aff2 := ⟨Mat2.id, ⟨0, 0⟩⟩

/-- `Affine2::inverse`: `(M⁻¹, -M⁻¹ t)` when `M` is invertible. -/
def inverse (f : Aff2) : Option Aff2 :=
  (f.m.try_inverse).map fun minv => ⟨minv, (minv.mulVec f.t).neg⟩

end Aff2

/-- 1D affine functional `A(z) = a·z + b` (`Aff1` in `geom2/types.rs`). -/
structure Aff1 where
  a : Vec2
  b : ℝ

namespace Aff1

def eval (f : Aff1) (z : Vec2) : ℝ := f.a.dot z + f.b

/-- `Aff1::compose_with_affine2`: `A ∘ φ` for `φ(z) = M z + t`. -/
def compose_with_affine2 (f : Aff1) (phi : Aff2) : Aff1 :=
  ⟨phi.m.transpose.mulVec f.a, f.a.dot phi.t + f.b⟩

/-- `Aff1::compose_with_inv_affine2`: `A ∘ φ⁻¹` when `φ` is invertible. -/
def compose_with_inv_affine2 (f : Aff1) (phi : Aff2) : Option Aff1 :=
  (phi.inverse).map fun inv => f.compose_with_affine2 inv

/-- `Aff1::add` (pointwise). -/
def add (f g : Aff1) : Aff1 := ⟨f.a.add g.a, f.b + g.b⟩

/-- `Aff1::to_cut`: the half-space `{A(z) ≤ a_best}`. -/
def to_cut (f : Aff1) (a_best : ℝ) : Hs2 := ⟨f.a, a_best - f.b⟩

end Aff1

/-- The data returned by nalgebra's 2x2 `SVD::new` (`u`, `singular_values`,
`v_t`); modelled as an oracle since the library routine is iterative. -/
structure Svd2 where
  u : Mat2
  s0 : ℝ
  s1 : ℝ
  vt : Mat2

/-- The SVD contract: `m = U Σ Vᵗ` with orthogonal factors and nonnegative
singular values (nalgebra guarantees this for the returned decomposition). -/
structure IsSvd2 (m : Mat2) (d : Svd2) : Prop where
  factor : m = d.u.mul ((Mat2.diag d.s0 d.s1).mul d.vt)
  u_orth : d.u.mul d.u.transpose = Mat2.id
  u_orth' : d.u.transpose.mul d.u = Mat2.id
  vt_orth : d.vt.mul d.vt.transpose = Mat2.id
  vt_orth' : d.vt.transpose.mul d.vt = Mat2.id
  s0_nonneg : 0 ≤ d.s0
  s1_nonneg : 0 ≤ d.s1

/-- `rotation_angle` from `geom2/solvers.rs`: polar factor `Q = U Vᵗ` of the
linear part; `None` when `Q` is orientation-reversing, otherwise the
principal angle `|atan2(q10, q00)|/π`, clamped by `min · 1`.  (The
`is_finite` test on the determinant is always true over the reals.) -/
def rotation_angle (svd : Mat2 → Svd2) (f : Aff2) : Option ℝ :=
  let d := svd f.m
  let q := d.u.mul d.vt
  if q.det < 0 then none
  else some (min (|atan2 q.m10 q.m00| / π) 1)

/-- For an orthogonal input matrix, any valid SVD has polar factor
`Q = U Vᵗ` equal to the matrix itself (the diagonal factor is forced to the
identity). -/
theorem svd_polar_of_orth {m : Mat2} {d : Svd2} (h : IsSvd2 m d)
    (hm : m.mul m.transpose = Mat2.id) : d.u.mul d.vt = m := by
  set D := Mat2.diag d.s0 d.s1 with hD
  have h1 : m.mul d.vt.transpose = d.u.mul D := by
    rw [h.factor]
    calc (d.u.mul (D.mul d.vt)).mul d.vt.transpose
        = d.u.mul ((D.mul d.vt).mul d.vt.transpose) := Mat2.mul_assoc' _ _ _
      _ = d.u.mul (D.mul (d.vt.mul d.vt.transpose)) := by rw [Mat2.mul_assoc']
      _ = d.u.mul (D.mul Mat2.id) := by rw [h.vt_orth]
      _ = d.u.mul D := by rw [Mat2.mul_id]
  have h2 : d.u.mul ((D.mul D.transpose).mul d.u.transpose) = Mat2.id := by
    have h2a : (m.mul d.vt.transpose).mul ((m.mul d.vt.transpose).transpose) = Mat2.id := by
      rw [Mat2.transpose_mul, Mat2.transpose_transpose]
      calc (m.mul d.vt.transpose).mul (d.vt.mul m.transpose)
          = m.mul (d.vt.transpose.mul (d.vt.mul m.transpose)) := Mat2.mul_assoc' _ _ _
        _ = m.mul ((d.vt.transpose.mul d.vt).mul m.transpose) := by rw [Mat2.mul_assoc']
        _ = m.mul (Mat2.id.mul m.transpose) := by rw [h.vt_orth']
        _ = m.mul m.transpose := by rw [Mat2.id_mul]
        _ = Mat2.id := hm
    calc d.u.mul ((D.mul D.transpose).mul d.u.transpose)
        = d.u.mul (D.mul (D.transpose.mul d.u.transpose)) := by rw [Mat2.mul_assoc']
      _ = (d.u.mul D).mul (D.transpose.mul d.u.transpose) := (Mat2.mul_assoc' _ _ _).symm
      _ = (m.mul d.vt.transpose).mul ((d.u.mul D).transpose) := by
            rw [h1, Mat2.transpose_mul]
      _ = (m.mul d.vt.transpose).mul ((m.mul d.vt.transpose).transpose) := by rw [h1]
      _ = Mat2.id := h2a
  have h3 : D.mul D.transpose = Mat2.id := by
    have h3a : (D.mul D.transpose).mul d.u.transpose = d.u.transpose := by
      calc (D.mul D.transpose).mul d.u.transpose
          = Mat2.id.mul ((D.mul D.transpose).mul d.u.transpose) := (Mat2.id_mul _).symm
        _ = (d.u.transpose.mul d.u).mul ((D.mul D.transpose).mul d.u.transpose) := by
              rw [h.u_orth']
        _ = d.u.transpose.mul (d.u.mul ((D.mul D.transpose).mul d.u.transpose)) :=
              Mat2.mul_assoc' _ _ _
        _ = d.u.transpose.mul Mat2.id := by rw [h2]
        _ = d.u.transpose := Mat2.mul_id _
    calc D.mul D.transpose
        = (D.mul D.transpose).mul Mat2.id := (Mat2.mul_id _).symm
      _ = (D.mul D.transpose).mul (d.u.transpose.mul d.u) := by rw [h.u_orth']
      _ = ((D.mul D.transpose).mul d.u.transpose).mul d.u := (Mat2.mul_assoc' _ _ _).symm
      _ = d.u.transpose.mul d.u := by rw [h3a]
      _ = Mat2.id := h.u_orth'
  have hs0 : d.s0 = 1 := by
    rw [hD, Mat2.transpose_diag, Mat2.diag_mul_diag] at h3
    have h30 : d.s0 * d.s0 = 1 := congrArg Mat2.m00 h3
    have hfac : (d.s0 - 1) * (d.s0 + 1) = 0 := by nlinarith
    rcases mul_eq_zero.mp hfac with hc | hc
    · linarith
    · nlinarith [h.s0_nonneg]
  have hs1 : d.s1 = 1 := by
    rw [hD, Mat2.transpose_diag, Mat2.diag_mul_diag] at h3
    have h31 : d.s1 * d.s1 = 1 := congrArg Mat2.m11 h3
    have hfac : (d.s1 - 1) * (d.s1 + 1) = 0 := by nlinarith
    rcases mul_eq_zero.mp hfac with hc | hc
    · linarith
    · nlinarith [h.s1_nonneg]
  have hDid : D = Mat2.id := by rw [hD, hs0, hs1]; rfl
  have h6 : m.mul d.vt.transpose = d.u := by rw [h1, hDid, Mat2.mul_id]
  calc d.u.mul d.vt
      = (m.mul d.vt.transpose).mul d.vt := by rw [h6]
    _ = m.mul (d.vt.transpose.mul d.vt) := Mat2.mul_assoc' _ _ _
    _ = m.mul Mat2.id := by rw [h.vt_orth']
    _ = m := Mat2.mul_id _

/-- **C9**: `rotation_angle` always returns either `None` or a value in
`[0,1]`; it returns `None` exactly for maps whose polar rotation factor
`Q = U Vᵗ` is orientation-reversing (negative determinant); under the SVD
contract it returns `0` for the identity map and `0.5` for a 90-degree
rotation. -/
theorem c9_rotation_angle_spec :
    (∀ (svd : Mat2 → Svd2) (f : Aff2),
      (∀ r, rotation_angle svd f = some r → 0 ≤ r ∧ r ≤ 1) ∧
      (rotation_angle svd f = none ↔ ((svd f.m).u.mul (svd f.m).vt).det < 0)) ∧
    (∀ (svd : Mat2 → Svd2) (f : Aff2), IsSvd2 f.m (svd f.m) →
      f.m = Mat2.id → rotation_angle svd f = some 0) ∧
    (∀ (svd : Mat2 → Svd2) (f : Aff2), IsSvd2 f.m (svd f.m) →
      f.m = ⟨0, -1, 1, 0⟩ → rotation_angle svd f = some (1 / 2)) := by
  have hpi := pi_pos
  refine ⟨?_, ?_, ?_⟩
  · intro svd f
    unfold rotation_angle
    by_cases hdet : ((svd f.m).u.mul (svd f.m).vt).det < 0
    · rw [if_pos hdet]
      exact ⟨fun r hr => absurd hr (by simp), by simp [hdet]⟩
    · rw [if_neg hdet]
      refine ⟨fun r hr => ?_, by simp [hdet]⟩
      have hr' : min (|atan2 ((svd f.m).u.mul (svd f.m).vt).m10
          ((svd f.m).u.mul (svd f.m).vt).m00| / π) 1 = r := by
        simpa using hr
      constructor
      · rw [← hr']
        exact le_min (div_nonneg (abs_nonneg _) hpi.le) zero_le_one
      · rw [← hr']
        exact min_le_right _ _
  · intro svd f hsvd hm
    have hq : (svd f.m).u.mul (svd f.m).vt = Mat2.id := by
      rw [← hm]
      apply svd_polar_of_orth hsvd
      rw [hm]
      simp only [Mat2.mul, Mat2.transpose, Mat2.id, Mat2.mk.injEq]
      norm_num
    simp only [rotation_angle]
    rw [hq]
    rw [if_neg (by simp [Mat2.det, Mat2.id])]
    rw [show (Mat2.id).m10 = 0 from rfl, show (Mat2.id).m00 = 1 from rfl]
    rw [atan2_zero_one]
    simp
  · intro svd f hsvd hm
    have hq : (svd f.m).u.mul (svd f.m).vt = ⟨0, -1, 1, 0⟩ := by
      rw [← hm]
      apply svd_polar_of_orth hsvd
      rw [hm]
      simp only [Mat2.mul, Mat2.transpose, Mat2.id, Mat2.mk.injEq]
      norm_num
    simp only [rotation_angle]
    rw [hq]
    rw [if_neg (by simp [Mat2.det])]
    rw [show (⟨0, -1, 1, 0⟩ : Mat2).m10 = 1 from rfl,
      show (⟨0, -1, 1, 0⟩ : Mat2).m00 = 0 from rfl]
    rw [atan2_one_zero, abs_of_pos (by linarith)]
    rw [show π / 2 / π = 1 / 2 by field_simp; ring]
    norm_num

theorem c9_witness :
    IsSvd2 (Aff2.identity).m
        ((fun _ => (⟨Mat2.id, 1, 1, Mat2.id⟩ : Svd2)) (Aff2.identity).m) ∧
    rotation_angle (fun _ => (⟨Mat2.id, 1, 1, Mat2.id⟩ : Svd2)) Aff2.identity = some 0 := by
  have hsvd : IsSvd2 (Aff2.identity).m
      ((fun _ => (⟨Mat2.id, 1, 1, Mat2.id⟩ : Svd2)) (Aff2.identity).m) := by
    refine ⟨?_, ?_, ?_, ?_, ?_, by norm_num, by norm_num⟩ <;>
      simp [Mat2.mul, Mat2.id, Mat2.diag, Mat2.transpose, Aff2.identity]
  exact ⟨hsvd, c9_rotation_angle_spec.2.1 _ _ hsvd rfl⟩

/-- The insertion binary search of `Poly2::insert_halfspace`
(`if angle(hs[mid]) <= key { lo = mid + 1 } else { hi = mid }`). -/
def bsearch_le (hs : List Hs2) (key : ℝ) (lo hi : ℕ) : ℕ :=
  if h : lo < hi then
    let mid := (lo + hi) / 2
    if angle_of (hs.getD mid default).n ≤ key then bsearch_le hs key (mid + 1) hi
    else bsearch_le hs key lo mid
  else lo
termination_by hi - lo
decreasing_by
  · omega
  · omega

namespace Poly2

/-- `Poly2::insert_halfspace`: canonicalize, binary-search the insertion
point by angle, coalesce with a neighbouring parallel entry (keeping the
minimum offset) or insert. -/
def insert_halfspace (p : Poly2) (h : Hs2) : Poly2 :=
  match canonicalize_unit h.n h.c with
  | none => p
  | some (n, c) =>
    let key := angle_of n
    let lo := bsearch_le p.hs key 0 p.hs.length
    if 0 < lo ∧ ((p.hs.getD (lo - 1) default).n.sub n).norm < 1e-9 then
      (if c < (p.hs.getD (lo - 1) default).c then
        ⟨p.hs.set (lo - 1) ⟨(p.hs.getD (lo - 1) default).n, c⟩⟩
      else p)
    else if lo < p.hs.length ∧ ((p.hs.getD lo default).n.sub n).norm < 1e-9 then
      (if c < (p.hs.getD lo default).c then
        ⟨p.hs.set lo ⟨(p.hs.getD lo default).n, c⟩⟩
      else p)
    else ⟨List.insertIdx lo ⟨n, c⟩ p.hs⟩

end Poly2

/-- `push_or_coalesce` from `geom2/ordered.rs`: append, or merge into the
last entry when the directions are near-identical (keeping the minimum
offset). -/
def push_or_coalesce (out : List Hs2) (n : Vec2) (c : ℝ) : List Hs2 :=
  match out.getLast? with
  | some last =>
      if (last.n.sub n).norm < 1e-9 then
        (if c < last.c then out.dropLast ++ [⟨last.n, c⟩] else out)
      else out ++ [⟨n, c⟩]
  | none => out ++ [⟨n, c⟩]

/-- The two-pointer merge loop of `Poly2::intersect`. -/
def intersectMerge : List Hs2 → List Hs2 → List Hs2 → List Hs2
  | [], [], out => out
  | [], hb :: tb, out => intersectMerge [] tb (push_or_coalesce out hb.n hb.c)
  | ha :: ta, [], out => intersectMerge ta [] (push_or_coalesce out ha.n ha.c)
  | ha :: ta, hb :: tb, out =>
      if |angle_of ha.n - angle_of hb.n| < 1e-12 then
        intersectMerge ta tb (push_or_coalesce out ha.n (min ha.c hb.c))
      else if angle_of ha.n < angle_of hb.n then
        intersectMerge ta (hb :: tb) (push_or_coalesce out ha.n ha.c)
      else
        intersectMerge (ha :: ta) tb (push_or_coalesce out hb.n hb.c)
termination_by a b _ => a.length + b.length

namespace Poly2

/-- `Poly2::intersect`: merge two angle-sorted half-space sequences,
coalescing equal directions by minimum offset. -/
def intersect (p q : Poly2) : Poly2 := ⟨intersectMerge p.hs q.hs []⟩

/-- The comparison relation used by `push_forward`'s sort (ascending angle). -/
def angleLe (a b : Hs2) : Prop := angle_of a.n ≤ angle_of b.n

instance : DecidableRel angleLe := fun a b => by unfold angleLe; infer_instance

instance : IsTotal Hs2 angleLe := ⟨fun a b => le_total _ _⟩

instance : IsTrans Hs2 angleLe := ⟨fun _ _ _ => le_trans⟩

/-- `Poly2::push_forward`: transform every half-space through the inverse
linear part (`n' = n·M⁻¹`, `c' = c + n'·t`), re-canonicalize, sort by angle
(a stable sort, like Rust's `sort_by`) and re-coalesce.  `None` if the
linear part is singular. -/
def push_forward (p : Poly2) (f : Aff2) : Option Poly2 :=
  match f.m.try_inverse with
  | none => none
  | some minv =>
    let tmp := p.hs.filterMap (fun h =>
      let n_new : Vec2 := ⟨h.n.x * minv.m00 + h.n.y * minv.m10,
                           h.n.x * minv.m01 + h.n.y * minv.m11⟩
      let c_new := h.c + n_new.dot f.t
      (canonicalize_unit n_new c_new).map (fun nc => Hs2.mk nc.1 nc.2))
    let sorted := tmp.insertionSort angleLe
    some ⟨sorted.foldl (fun acc h => push_or_coalesce acc h.n h.c) []⟩

/-- `Poly2::with_cut`: clone plus one inserted cut. -/
def with_cut (p : Poly2) (cut : Hs2) : Poly2 := p.insert_halfspace cut

end Poly2

theorem Vec2.norm_nonneg' (v : Vec2) : 0 ≤ v.norm := Real.sqrt_nonneg _

theorem Vec2.norm_sq (v : Vec2) : v.norm ^ 2 = v.x ^ 2 + v.y ^ 2 :=
  Real.sq_sqrt (by positivity)

theorem Vec2.norm_sub_comm (a b : Vec2) : (a.sub b).norm = (b.sub a).norm := by
  unfold Vec2.norm Vec2.sub
  congr 1
  ring

theorem canonicalize_unit_norm {v : Vec2} {c : ℝ} {n : Vec2} {c' : ℝ}
    (h : canonicalize_unit v c = some (n, c')) : n.norm = 1 := by
  unfold canonicalize_unit at h
  by_cases hle : v.norm ≤ 0
  · simp [hle] at h
  · simp only [if_neg hle, Option.some.injEq, Prod.mk.injEq] at h
    have hpos : 0 < v.norm := lt_of_not_ge hle
    obtain ⟨h1, -⟩ := h
    rw [← h1]
    have hr2 : v.norm ^ 2 = v.x ^ 2 + v.y ^ 2 := Vec2.norm_sq v
    have harg : (v.x / v.norm) ^ 2 + (v.y / v.norm) ^ 2 = 1 := by
      field_simp
      linarith [hr2]
    show Real.sqrt ((v.x / v.norm) ^ 2 + (v.y / v.norm) ^ 2) = 1
    rw [harg]
    exact Real.sqrt_one

/-- A unit vector is `(cos θ, sin θ)` for its `atan2` angle `θ`. -/
theorem angle_cos_sin {v : Vec2} (h : v.norm = 1) :
    v.x = Real.cos (angle_of v) ∧ v.y = Real.sin (angle_of v) := by
  have hsq : v.x ^ 2 + v.y ^ 2 = 1 := by
    have h2 := Vec2.norm_sq v
    rw [h] at h2
    linarith [h2.symm]
  unfold angle_of atan2
  by_cases hx : 0 < v.x
  · rw [if_pos hx]
    have hxne : v.x ≠ 0 := ne_of_gt hx
    have h1 : 1 + (v.y / v.x) ^ 2 = 1 / v.x ^ 2 := by
      field_simp
      linarith
    have hs : Real.sqrt (1 + (v.y / v.x) ^ 2) = 1 / v.x := by
      rw [h1, one_div, Real.sqrt_inv, Real.sqrt_sq hx.le, one_div]
    constructor
    · rw [Real.cos_arctan, hs]
      field_simp
    · rw [Real.sin_arctan, hs]
      field_simp
  · by_cases hx' : v.x < 0
    · rw [if_neg hx, if_pos hx']
      have hxne : v.x ≠ 0 := ne_of_lt hx'
      have h1 : 1 + (v.y / v.x) ^ 2 = 1 / v.x ^ 2 := by
        field_simp
        linarith
      have hs : Real.sqrt (1 + (v.y / v.x) ^ 2) = 1 / (-v.x) := by
        rw [h1, one_div, Real.sqrt_inv, Real.sqrt_sq_eq_abs, abs_of_neg hx', one_div]
      have hcos : Real.cos (arctan (v.y / v.x)) = -v.x := by
        rw [Real.cos_arctan, hs]
        field_simp
      have hsin : Real.sin (arctan (v.y / v.x)) = -v.y := by
        rw [Real.sin_arctan, hs]
        field_simp
      by_cases hy : 0 ≤ v.y
      · rw [if_pos hy]
        constructor
        · rw [Real.cos_add_pi, hcos]; ring
        · rw [Real.sin_add_pi, hsin]; ring
      · rw [if_neg hy]
        constructor
        · rw [show arctan (v.y / v.x) - π = -(π - arctan (v.y / v.x)) by ring,
            Real.cos_neg, Real.cos_pi_sub, hcos]
          ring
        · rw [show arctan (v.y / v.x) - π = -(π - arctan (v.y / v.x)) by ring,
            Real.sin_neg, Real.sin_pi_sub, hsin]
          ring
    · have hx0 : v.x = 0 := le_antisymm (not_lt.mp hx) (not_lt.mp hx')
      rw [if_neg hx, if_neg hx']
      have hy2 : v.y ^ 2 = 1 := by
        rw [hx0] at hsq
        linarith
      have hyor : v.y = 1 ∨ v.y = -1 := by
        have hfac : (v.y - 1) * (v.y + 1) = 0 := by nlinarith
        rcases mul_eq_zero.mp hfac with hc | hc
        · left; linarith
        · right; linarith
      rcases hyor with hy1 | hy1
      · rw [if_pos (by rw [hy1]; norm_num)]
        rw [Real.cos_pi_div_two, Real.sin_pi_div_two, hx0, hy1]
        exact ⟨rfl, rfl⟩
      · rw [if_neg (by rw [hy1]; norm_num), if_pos (by rw [hy1]; norm_num)]
        rw [Real.cos_neg, Real.sin_neg, Real.cos_pi_div_two, Real.sin_pi_div_two, hx0, hy1]
        norm_num

/-- Chord-versus-angle bound for unit vectors: the distance between two unit
vectors is at most the difference of their `atan2` angles. -/
theorem norm_sub_le_angle {u v : Vec2} (hu : u.norm = 1) (hv : v.norm = 1) :
    (u.sub v).norm ≤ |angle_of u - angle_of v| := by
  obtain ⟨hux, huy⟩ := angle_cos_sin hu
  obtain ⟨hvx, hvy⟩ := angle_cos_sin hv
  set α := angle_of u
  set β := angle_of v
  have hsq : (u.sub v).norm ^ 2 ≤ (α - β) ^ 2 := by
    rw [show (u.sub v).norm ^ 2 = (u.x - v.x) ^ 2 + (u.y - v.y) ^ 2 from
      Vec2.norm_sq (u.sub v)]
    rw [hux, huy, hvx, hvy]
    have hcs := Real.cos_sub α β
    have hb := Real.one_sub_sq_div_two_le_cos (x := α - β)
    have h1 := Real.sin_sq_add_cos_sq α
    have h2 := Real.sin_sq_add_cos_sq β
    nlinarith
  calc (u.sub v).norm = Real.sqrt ((u.sub v).norm ^ 2) :=
        (Real.sqrt_sq (Vec2.norm_nonneg' _)).symm
    _ ≤ Real.sqrt ((α - β) ^ 2) := Real.sqrt_le_sqrt hsq
    _ = |α - β| := Real.sqrt_sq_eq_abs _

/-- Invariant (a) of the ordered engine: every stored normal is unit. -/
def UnitNormals (l : List Hs2) : Prop := ∀ h ∈ l, h.n.norm = 1

/-- Invariant (b): entries sorted by `atan2` angle of the normal. -/
def AngleSorted (l : List Hs2) : Prop :=
  l.Pairwise (fun a b => angle_of a.n ≤ angle_of b.n)

/-- Invariant (c): no two consecutive entries have near-identical
directions (within `1e-9` in normal distance). -/
def SepConsec (l : List Hs2) : Prop :=
  l.Chain' (fun a b => ¬ (a.n.sub b.n).norm < 1e-9)

/-- The three invariants of a strict ordered `Poly2`. -/
def Poly2.StrictInv (p : Poly2) : Prop :=
  UnitNormals p.hs ∧ AngleSorted p.hs ∧ SepConsec p.hs

/-- The invariants only depend on the stored normals. -/
theorem strictInv_parts_of_map_eq {l l' : List Hs2}
    (hmap : l.map (fun h => h.n) = l'.map (fun h => h.n)) :
    (UnitNormals l → UnitNormals l') ∧ (AngleSorted l → AngleSorted l') ∧
    (SepConsec l → SepConsec l') := by
  refine ⟨?_, ?_, ?_⟩
  · intro hU h' hmem
    have : h'.n ∈ l'.map (fun h => h.n) := List.mem_map_of_mem _ hmem
    rw [← hmap] at this
    obtain ⟨g, hg, hgn⟩ := List.mem_map.mp this
    rw [← hgn]
    exact hU g hg
  · intro hS
    have h1 : (l.map (fun h => h.n)).Pairwise (fun a b : Vec2 => angle_of a ≤ angle_of b) := by
      rw [List.pairwise_map]
      exact hS
    rw [hmap] at h1
    rw [List.pairwise_map] at h1
    exact h1
  · intro hS
    have h1 : (l.map (fun h => h.n)).Chain' (fun a b : Vec2 => ¬ (a.sub b).norm < 1e-9) := by
      rw [List.chain'_map]
      exact hS
    rw [hmap] at h1
    rw [List.chain'_map] at h1
    exact h1

theorem set_getElem_self' {α : Type} (l : List α) (i : ℕ) (h : i < l.length) :
    l.set i l[i] = l := by
  apply List.ext_getElem (by simp)
  intro j h1 h2
  rw [List.getElem_set]
  split
  · next heq => subst heq; rfl
  · rfl

/-- Setting entry `k` to a half-space with the same normal preserves the
stored normals. -/
theorem map_n_set {l : List Hs2} {k : ℕ} (hk : k < l.length) (c : ℝ) :
    (l.set k ⟨(l.getD k default).n, c⟩).map (fun h => h.n) = l.map (fun h => h.n) := by
  rw [List.map_set]
  have hk2 : k < (l.map (fun h => h.n)).length := by simpa using hk
  have hgd : (l.getD k default).n = (l.map (fun h => h.n))[k] := by
    rw [List.getD_eq_getElem?_getD, List.getElem?_eq_getElem hk]
    simp
  rw [hgd]
  exact set_getElem_self' _ _ (by simpa using hk)

/-- list-level version of the `Poly2` invariants (used for accumulators). -/
def OutInv (l : List Hs2) : Prop := UnitNormals l ∧ AngleSorted l ∧ SepConsec l

theorem push_or_coalesce_cases (out : List Hs2) (n : Vec2) (c : ℝ) :
    (out.getLast? = none ∧ push_or_coalesce out n c = out ++ [⟨n, c⟩]) ∨
    (∃ last, out.getLast? = some last ∧ ¬ (last.n.sub n).norm < 1e-9 ∧
      push_or_coalesce out n c = out ++ [⟨n, c⟩]) ∨
    (∃ last, out.getLast? = some last ∧ (last.n.sub n).norm < 1e-9 ∧
      ((push_or_coalesce out n c = out.dropLast ++ [⟨last.n, c⟩] ∧ c < last.c) ∨
       (push_or_coalesce out n c = out ∧ ¬ c < last.c))) := by
  unfold push_or_coalesce
  rcases hlast : out.getLast? with _ | last
  · exact Or.inl ⟨rfl, rfl⟩
  · by_cases hnear : (last.n.sub n).norm < 1e-9
    · refine Or.inr (Or.inr ⟨last, rfl, hnear, ?_⟩)
      by_cases hc : c < last.c
      · exact Or.inl ⟨by simp only [if_pos hnear, if_pos hc], hc⟩
      · exact Or.inr ⟨by simp only [if_pos hnear, if_neg hc], hc⟩
    · exact Or.inr (Or.inl ⟨last, rfl, hnear, by simp only [if_neg hnear]⟩)

theorem angle_le_getLast {out : List Hs2} (hS : AngleSorted out) {last : Hs2}
    (hlast : out.getLast? = some last) :
    ∀ x ∈ out, angle_of x.n ≤ angle_of last.n := by
  have hne : out ≠ [] := by
    intro hc
    rw [hc] at hlast
    simp at hlast
  have hdecomp := List.dropLast_append_getLast hne
  have hgl : out.getLast hne = last := by
    have := List.getLast?_eq_getLast out hne
    rw [hlast] at this
    exact (Option.some.injEq _ _ ▸ this).symm
  intro x hx
  rw [← hdecomp] at hS hx
  unfold AngleSorted at hS
  rw [List.pairwise_append] at hS
  rcases List.mem_append.mp hx with hx1 | hx2
  · have := hS.2.2 x hx1 (out.getLast hne) (by simp)
    rwa [hgl] at this
  · simp only [List.mem_singleton] at hx2
    rw [hx2, hgl]

/-- The invariant step for `push_or_coalesce`: if the accumulator satisfies
the invariants and its last entry's angle is at most `1e-12` above that of
the unit vector being pushed, the invariants are preserved, and the new last
entry's normal is the pushed one or the old last one. -/
theorem push_or_coalesce_inv {out : List Hs2} {n : Vec2} {c : ℝ}
    (hout : OutInv out) (hn : n.norm = 1)
    (hb : ∀ last ∈ out.getLast?, angle_of last.n ≤ angle_of n + 1e-12) :
    OutInv (push_or_coalesce out n c) ∧
    ∀ last' ∈ (push_or_coalesce out n c).getLast?,
      last'.n = n ∨ ∃ last ∈ out.getLast?, last'.n = last.n := by
  obtain ⟨hU, hS, hC⟩ := hout
  rcases push_or_coalesce_cases out n c with ⟨hnone, heq⟩ |
    ⟨last, hlast, hnear, heq⟩ | ⟨last, hlast, hnear, hsub⟩
  · have hout0 : out = [] := List.getLast?_eq_none_iff.mp hnone
    subst hout0
    rw [heq]
    refine ⟨⟨?_, ?_, ?_⟩, ?_⟩
    · intro h hm
      simp only [List.nil_append, List.mem_singleton] at hm
      rw [hm]
      exact hn
    · simp [AngleSorted]
    · simp [SepConsec]
    · intro last' hl'
      simp only [List.nil_append, List.getLast?_singleton, Option.mem_def,
        Option.some.injEq] at hl'
      left
      rw [← hl']
  · have hmem : last ∈ out := List.mem_of_mem_getLast? hlast
    have hlastle : angle_of last.n ≤ angle_of n := by
      by_contra hgt
      push_neg at hgt
      have hbb := hb last hlast
      have hun : last.n.norm = 1 := hU last hmem
      have hd := norm_sub_le_angle hun hn
      have habs : |angle_of last.n - angle_of n| ≤ 1e-12 := by
        rw [abs_le]
        constructor <;> linarith
      exact hnear (lt_of_le_of_lt (le_trans hd habs) (by norm_num))
    rw [heq]
    refine ⟨⟨?_, ?_, ?_⟩, ?_⟩
    · intro h hm
      rcases List.mem_append.mp hm with h1 | h2
      · exact hU h h1
      · simp only [List.mem_singleton] at h2
        rw [h2]
        exact hn
    · unfold AngleSorted
      rw [List.pairwise_append]
      refine ⟨hS, by simp, ?_⟩
      intro x hx y hy
      simp only [List.mem_singleton] at hy
      rw [hy]
      exact le_trans (angle_le_getLast hS hlast x hx) hlastle
    · unfold SepConsec
      rw [List.chain'_append]
      refine ⟨hC, by simp, ?_⟩
      intro x hx y hy
      rw [hlast] at hx
      simp only [Option.mem_def, Option.some.injEq] at hx
      simp only [List.head?_cons, Option.mem_def, Option.some.injEq] at hy
      rw [← hx, ← hy]
      exact hnear
    · intro last' hl'
      rw [List.getLast?_concat] at hl'
      simp only [Option.mem_def, Option.some.injEq] at hl'
      left
      rw [← hl']
  · have hne : out ≠ [] := by
      intro hc
      rw [hc] at hlast
      simp at hlast
    rcases hsub with ⟨heq, -⟩ | ⟨heq, -⟩
    · have hgl : out.getLast hne = last := by
        have := List.getLast?_eq_getLast out hne
        rw [hlast] at this
        exact (Option.some.injEq _ _ ▸ this).symm
      have hmapeq : out.map (fun h => h.n) =
          (out.dropLast ++ [(⟨last.n, c⟩ : Hs2)]).map (fun h => h.n) := by
        conv_lhs => rw [← List.dropLast_append_getLast hne]
        rw [List.map_append, List.map_append]
        congr 1
        simp [hgl]
      rw [heq]
      obtain ⟨t1, t2, t3⟩ := strictInv_parts_of_map_eq hmapeq
      refine ⟨⟨t1 hU, t2 hS, t3 hC⟩, ?_⟩
      intro last' hl'
      rw [List.getLast?_concat] at hl'
      simp only [Option.mem_def, Option.some.injEq] at hl'
      right
      exact ⟨last, by rw [hlast]; rfl, by rw [← hl']⟩
    · rw [heq]
      refine ⟨⟨hU, hS, hC⟩, ?_⟩
      intro last' hl'
      rw [hlast] at hl'
      simp only [Option.mem_def, Option.some.injEq] at hl'
      right
      exact ⟨last, by rw [hlast]; rfl, by rw [← hl']⟩

/-- Folding `push_or_coalesce` over an angle-sorted list of unit half-spaces
preserves the invariants (the re-coalescing passes of `push_forward`). -/
theorem foldl_poc_inv : ∀ (l out : List Hs2),
    UnitNormals l → AngleSorted l → OutInv out →
    (∀ last ∈ out.getLast?, ∀ h ∈ l, angle_of last.n ≤ angle_of h.n + 1e-12) →
    OutInv (l.foldl (fun acc h => push_or_coalesce acc h.n h.c) out) := by
  intro l
  induction l with
  | nil =>
    intro out _ _ hout _
    simpa using hout
  | cons h t ih =>
    intro out hU hS hout hb
    have hhead : h.n.norm = 1 := hU h (List.mem_cons_self h t)
    have hstep := push_or_coalesce_inv (c := h.c) hout hhead
      (fun last hl => hb last hl h (List.mem_cons_self h t))
    simp only [List.foldl_cons]
    apply ih
    · intro x hx
      exact hU x (List.mem_cons_of_mem _ hx)
    · exact (List.pairwise_cons.mp hS).2
    · exact hstep.1
    · intro last' hl' h' hh'
      rcases hstep.2 last' hl' with hn' | ⟨last, hl, hn'⟩
      · rw [hn']
        have := (List.pairwise_cons.mp hS).1 h' hh'
        linarith
      · rw [hn']
        exact hb last hl h' (List.mem_cons_of_mem _ hh')

/-- The two-pointer merge of `Poly2::intersect` preserves the invariants. -/
theorem intersectMerge_inv : ∀ (fuel : ℕ) (a b out : List Hs2),
    a.length + b.length ≤ fuel →
    UnitNormals a → AngleSorted a → UnitNormals b → AngleSorted b → OutInv out →
    (∀ last ∈ out.getLast?, ∀ h ∈ a, angle_of last.n ≤ angle_of h.n + 1e-12) →
    (∀ last ∈ out.getLast?, ∀ h ∈ b, angle_of last.n ≤ angle_of h.n + 1e-12) →
    OutInv (intersectMerge a b out) := by
  intro fuel
  induction fuel with
  | zero =>
    intro a b out hlen hUa hSa hUb hSb hout hba hbb
    have ha0 : a = [] := List.length_eq_zero.mp (by omega)
    have hb0 : b = [] := List.length_eq_zero.mp (by omega)
    subst ha0
    subst hb0
    rw [intersectMerge]
    exact hout
  | succ fuel ih =>
    intro a b out hlen hUa hSa hUb hSb hout hba hbb
    rcases a with _ | ⟨ha', ta⟩
    · rcases b with _ | ⟨hb', tb⟩
      · rw [intersectMerge]
        exact hout
      · rw [intersectMerge]
        have hhead : hb'.n.norm = 1 := hUb hb' (List.mem_cons_self _ _)
        have hstep := push_or_coalesce_inv (c := hb'.c) hout hhead
          (fun last hl => hbb last hl hb' (List.mem_cons_self _ _))
        apply ih [] tb _ (by simp at hlen ⊢; omega)
          (by intro x hx; exact absurd hx (List.not_mem_nil x)) (by simp [AngleSorted])
          (fun x hx => hUb x (List.mem_cons_of_mem _ hx)) (List.pairwise_cons.mp hSb).2
          hstep.1
        · intro last' hl' h' hh'
          exact absurd hh' (List.not_mem_nil h')
        · intro last' hl' h' hh'
          rcases hstep.2 last' hl' with hn' | ⟨last, hl, hn'⟩
          · rw [hn']
            have := (List.pairwise_cons.mp hSb).1 h' hh'
            linarith
          · rw [hn']
            exact hbb last hl h' (List.mem_cons_of_mem _ hh')
    · rcases b with _ | ⟨hb', tb⟩
      · rw [intersectMerge]
        have hhead : ha'.n.norm = 1 := hUa ha' (List.mem_cons_self _ _)
        have hstep := push_or_coalesce_inv (c := ha'.c) hout hhead
          (fun last hl => hba last hl ha' (List.mem_cons_self _ _))
        apply ih ta [] _ (by simp at hlen ⊢; omega)
          (fun x hx => hUa x (List.mem_cons_of_mem _ hx)) (List.pairwise_cons.mp hSa).2
          (by intro x hx; exact absurd hx (List.not_mem_nil x)) (by simp [AngleSorted])
          hstep.1
        · intro last' hl' h' hh'
          rcases hstep.2 last' hl' with hn' | ⟨last, hl, hn'⟩
          · rw [hn']
            have := (List.pairwise_cons.mp hSa).1 h' hh'
            linarith
          · rw [hn']
            exact hba last hl h' (List.mem_cons_of_mem _ hh')
        · intro last' hl' h' hh'
          exact absurd hh' (List.not_mem_nil h')
      · rw [intersectMerge]
        by_cases hcmp : |angle_of ha'.n - angle_of hb'.n| < 1e-12
        · rw [if_pos hcmp]
          have hhead : ha'.n.norm = 1 := hUa ha' (List.mem_cons_self _ _)
          have hstep := push_or_coalesce_inv (c := min ha'.c hb'.c) hout hhead
            (fun last hl => hba last hl ha' (List.mem_cons_self _ _))
          have habs := abs_lt.mp hcmp
          apply ih ta tb _ (by simp at hlen ⊢; omega)
            (fun x hx => hUa x (List.mem_cons_of_mem _ hx)) (List.pairwise_cons.mp hSa).2
            (fun x hx => hUb x (List.mem_cons_of_mem _ hx)) (List.pairwise_cons.mp hSb).2
            hstep.1
          · intro last' hl' h' hh'
            rcases hstep.2 last' hl' with hn' | ⟨last, hl, hn'⟩
            · rw [hn']
              have := (List.pairwise_cons.mp hSa).1 h' hh'
              linarith
            · rw [hn']
              exact hba last hl h' (List.mem_cons_of_mem _ hh')
          · intro last' hl' h' hh'
            rcases hstep.2 last' hl' with hn' | ⟨last, hl, hn'⟩
            · rw [hn']
              have := (List.pairwise_cons.mp hSb).1 h' hh'
              linarith
            · rw [hn']
              exact hbb last hl h' (List.mem_cons_of_mem _ hh')
        · rw [if_neg hcmp]
          by_cases hlt : angle_of ha'.n < angle_of hb'.n
          · rw [if_pos hlt]
            have hhead : ha'.n.norm = 1 := hUa ha' (List.mem_cons_self _ _)
            have hstep := push_or_coalesce_inv (c := ha'.c) hout hhead
              (fun last hl => hba last hl ha' (List.mem_cons_self _ _))
            apply ih ta (hb' :: tb) _ (by simp at hlen ⊢; omega)
              (fun x hx => hUa x (List.mem_cons_of_mem _ hx)) (List.pairwise_cons.mp hSa).2
              hUb hSb hstep.1
            · intro last' hl' h' hh'
              rcases hstep.2 last' hl' with hn' | ⟨last, hl, hn'⟩
              · rw [hn']
                have := (List.pairwise_cons.mp hSa).1 h' hh'
                linarith
              · rw [hn']
                exact hba last hl h' (List.mem_cons_of_mem _ hh')
            · intro last' hl' h' hh'
              rcases hstep.2 last' hl' with hn' | ⟨last, hl, hn'⟩
              · rw [hn']
                rcases List.mem_cons.mp hh' with hh1 | hh1
                · rw [hh1]
                  linarith
                · have := (List.pairwise_cons.mp hSb).1 h' hh1
                  linarith
              · rw [hn']
                exact hbb last hl h' hh'
          · rw [if_neg hlt]
            have hhead : hb'.n.norm = 1 := hUb hb' (List.mem_cons_self _ _)
            have hstep := push_or_coalesce_inv (c := hb'.c) hout hhead
              (fun last hl => hbb last hl hb' (List.mem_cons_self _ _))
            have hble : angle_of hb'.n ≤ angle_of ha'.n := le_of_not_lt hlt
            apply ih (ha' :: ta) tb _ (by simp at hlen ⊢; omega)
              hUa hSa
              (fun x hx => hUb x (List.mem_cons_of_mem _ hx)) (List.pairwise_cons.mp hSb).2
              hstep.1
            · intro last' hl' h' hh'
              rcases hstep.2 last' hl' with hn' | ⟨last, hl, hn'⟩
              · rw [hn']
                rcases List.mem_cons.mp hh' with hh1 | hh1
                · rw [hh1]
                  linarith
                · have h1 := (List.pairwise_cons.mp hSa).1 h' hh1
                  linarith
              · rw [hn']
                exact hba last hl h' hh'
            · intro last' hl' h' hh'
              rcases hstep.2 last' hl' with hn' | ⟨last, hl, hn'⟩
              · rw [hn']
                have := (List.pairwise_cons.mp hSb).1 h' hh'
                linarith
              · rw [hn']
                exact hbb last hl h' (List.mem_cons_of_mem _ hh')

theorem outInv_nil : OutInv [] :=
  ⟨fun h hm => absurd hm (List.not_mem_nil h), List.Pairwise.nil, List.chain'_nil⟩

/-- `Poly2::intersect` preserves the strict invariants. -/
theorem intersect_strictInv {p q : Poly2} (hp : p.StrictInv) (hq : q.StrictInv) :
    (p.intersect q).StrictInv := by
  obtain ⟨hUp, hSp, hCp⟩ := hp
  obtain ⟨hUq, hSq, hCq⟩ := hq
  exact intersectMerge_inv (p.hs.length + q.hs.length) p.hs q.hs [] le_rfl
    hUp hSp hUq hSq outInv_nil
    (by intro last hl; simp at hl) (by intro last hl; simp at hl)

/-- A successful `Poly2::push_forward` yields a polytope satisfying the
strict invariants. -/
theorem push_forward_strictInv {p : Poly2} {f : Aff2} {p' : Poly2}
    (h : p.push_forward f = some p') : p'.StrictInv := by
  unfold Poly2.push_forward at h
  rcases hinv : f.m.try_inverse with _ | minv
  · rw [hinv] at h
    exact absurd h (by simp)
  · rw [hinv] at h
    simp only [Option.some.injEq] at h
    set tmp := p.hs.filterMap (fun h =>
      let n_new : Vec2 := ⟨h.n.x * minv.m00 + h.n.y * minv.m10,
                           h.n.x * minv.m01 + h.n.y * minv.m11⟩
      let c_new := h.c + n_new.dot f.t
      (canonicalize_unit n_new c_new).map (fun nc => Hs2.mk nc.1 nc.2)) with htmp
    have hUtmp : UnitNormals tmp := by
      intro x hx
      rw [htmp] at hx
      obtain ⟨y, -, hy⟩ := List.mem_filterMap.mp hx
      simp only [Option.map_eq_some'] at hy
      obtain ⟨nc, hnc, hx'⟩ := hy
      rw [← hx']
      exact canonicalize_unit_norm (c := _) (by rw [← hnc])
    have hUsort : UnitNormals (tmp.insertionSort Poly2.angleLe) := by
      intro x hx
      exact hUtmp x ((List.perm_insertionSort Poly2.angleLe tmp).mem_iff.mp hx)
    have hSsort : AngleSorted (tmp.insertionSort Poly2.angleLe) :=
      List.sorted_insertionSort Poly2.angleLe tmp
    rw [← h]
    exact foldl_poc_inv _ [] hUsort hSsort outInv_nil
      (by intro last hl; simp at hl)

theorem angleSorted_getD_mono {l : List Hs2} (hS : AngleSorted l) {i j : ℕ}
    (hij : i ≤ j) (hj : j < l.length) :
    angle_of (l.getD i default).n ≤ angle_of (l.getD j default).n := by
  rcases Nat.lt_or_ge i j with hlt | hge
  · have hi : i < l.length := lt_trans hlt hj
    rw [List.getD_eq_getElem?_getD, List.getElem?_eq_getElem hi,
      List.getD_eq_getElem?_getD, List.getElem?_eq_getElem hj]
    simp only [Option.getD_some]
    unfold AngleSorted at hS
    exact (List.pairwise_iff_getElem.mp hS) i j hi hj hlt
  · have hij' : i = j := le_antisymm hij hge
    rw [hij']

/-- Specification of the insertion binary search: on a sorted list it
returns the first index whose angle exceeds the key, within `[lo, hi]`. -/
theorem bsearch_le_spec {l : List Hs2} {key : ℝ} (hS : AngleSorted l) :
    ∀ (fuel lo hi : ℕ), hi - lo ≤ fuel → lo ≤ hi → hi ≤ l.length →
    (∀ k, k < lo → angle_of (l.getD k default).n ≤ key) →
    (∀ k, hi ≤ k → k < l.length → key < angle_of (l.getD k default).n) →
    lo ≤ bsearch_le l key lo hi ∧ bsearch_le l key lo hi ≤ hi ∧
    (∀ k, k < bsearch_le l key lo hi → angle_of (l.getD k default).n ≤ key) ∧
    (∀ k, bsearch_le l key lo hi ≤ k → k < l.length →
      key < angle_of (l.getD k default).n) := by
  intro fuel
  induction fuel with
  | zero =>
    intro lo hi hfuel hlohi hhi hpre hsuf
    have heq : lo = hi := by omega
    rw [bsearch_le, dif_neg (by omega)]
    exact ⟨le_rfl, le_of_eq heq, hpre, fun k hk hk' => hsuf k (heq ▸ hk) hk'⟩
  | succ fuel ih =>
    intro lo hi hfuel hlohi hhi hpre hsuf
    by_cases hlt : lo < hi
    · have hmidlt : (lo + hi) / 2 < hi := by omega
      have hmidge : lo ≤ (lo + hi) / 2 := by omega
      have hmidlen : (lo + hi) / 2 < l.length := lt_of_lt_of_le hmidlt hhi
      by_cases hcmp : angle_of (l.getD ((lo + hi) / 2) default).n ≤ key
      · rw [bsearch_le, dif_pos hlt]
        simp only [if_pos hcmp]
        obtain ⟨h1, h2, h3, h4⟩ := ih ((lo + hi) / 2 + 1) hi (by omega) (by omega) hhi
          (fun k hk => le_trans (angleSorted_getD_mono hS (by omega) hmidlen) hcmp)
          hsuf
        exact ⟨by omega, h2, h3, h4⟩
      · rw [bsearch_le, dif_pos hlt]
        simp only [if_neg hcmp]
        obtain ⟨h1, h2, h3, h4⟩ := ih lo ((lo + hi) / 2) (by omega) (by omega)
          (le_of_lt hmidlen) hpre
          (fun k hk hk' => lt_of_not_ge (fun hge =>
            hcmp (le_trans (angleSorted_getD_mono hS hk hk') hge)))
        exact ⟨h1, by omega, h3, h4⟩
    · rw [bsearch_le, dif_neg hlt]
      have heq : lo = hi := by omega
      exact ⟨le_rfl, le_of_eq heq, hpre, fun k hk hk' => hsuf k (heq ▸ hk) hk'⟩

theorem insertIdx_eq_take_cons_drop {α : Type} (x : α) :
    ∀ (lo : ℕ) (l : List α), lo ≤ l.length →
    List.insertIdx lo x l = l.take lo ++ x :: l.drop lo := by
  intro lo
  induction lo with
  | zero =>
    intro l _
    simp
  | succ lo ih =>
    intro l hl
    rcases l with _ | ⟨a, t⟩
    · simp at hl
    · rw [List.insertIdx_succ_cons, ih t (by simpa using hl)]
      rfl

/-- `Poly2::insert_halfspace` preserves the strict invariants. -/
theorem insert_strictInv {p : Poly2} (hp : p.StrictInv) (h : Hs2) :
    (p.insert_halfspace h).StrictInv := by
  obtain ⟨hU, hS, hC⟩ := hp
  unfold Poly2.insert_halfspace
  rcases hcan : canonicalize_unit h.n h.c with _ | ⟨n, c⟩
  · exact ⟨hU, hS, hC⟩
  · simp only [hcan]
    have hn1 : n.norm = 1 := canonicalize_unit_norm hcan
    obtain ⟨-, hlohi, hpre, hsuf⟩ := @bsearch_le_spec p.hs (angle_of n) hS
      p.hs.length 0 p.hs.length (by omega) (Nat.zero_le _) le_rfl
      (fun k hk => absurd hk (Nat.not_lt_zero k))
      (fun k hk hk' => absurd hk' (not_lt.mpr hk))
    set lo := bsearch_le p.hs (angle_of n) 0 p.hs.length with hlodef
    have hgetD : ∀ (k : ℕ) (hk : k < p.hs.length), p.hs.getD k default = p.hs[k] := by
      intro k hk
      rw [List.getD_eq_getElem?_getD, List.getElem?_eq_getElem hk]
      rfl
    by_cases hbr1 : 0 < lo ∧ ((p.hs.getD (lo - 1) default).n.sub n).norm < 1e-9
    · rw [if_pos hbr1]
      by_cases hc : c < (p.hs.getD (lo - 1) default).c
      · rw [if_pos hc]
        have hlt : lo - 1 < p.hs.length := by omega
        obtain ⟨t1, t2, t3⟩ := strictInv_parts_of_map_eq (map_n_set hlt c).symm
        exact ⟨t1 hU, t2 hS, t3 hC⟩
      · rw [if_neg hc]
        exact ⟨hU, hS, hC⟩
    · rw [if_neg hbr1]
      by_cases hbr2 : lo < p.hs.length ∧ ((p.hs.getD lo default).n.sub n).norm < 1e-9
      · rw [if_pos hbr2]
        by_cases hc : c < (p.hs.getD lo default).c
        · rw [if_pos hc]
          obtain ⟨t1, t2, t3⟩ := strictInv_parts_of_map_eq (map_n_set hbr2.1 c).symm
          exact ⟨t1 hU, t2 hS, t3 hC⟩
        · rw [if_neg hc]
          exact ⟨hU, hS, hC⟩
      · rw [if_neg hbr2]
        push_neg at hbr1 hbr2
        rw [insertIdx_eq_take_cons_drop _ _ _ hlohi]
        have hTangle : ∀ y ∈ p.hs.take lo, angle_of y.n ≤ angle_of n := by
          intro y hy
          obtain ⟨i, hi, hyi⟩ := List.mem_iff_getElem.mp hy
          have hi' : i < lo := by
            simp only [List.length_take] at hi
            omega
          have hil : i < p.hs.length := by
            simp only [List.length_take] at hi
            omega
          have hgt : (p.hs.take lo)[i] = p.hs[i] := List.getElem_take ..
          rw [hgt] at hyi
          have hp2 := hpre i hi'
          rw [hgetD i hil] at hp2
          rw [← hyi]
          exact hp2
        have hDangle : ∀ y ∈ p.hs.drop lo, angle_of n < angle_of y.n := by
          intro y hy
          obtain ⟨i, hi, hyi⟩ := List.mem_iff_getElem.mp hy
          have hil : lo + i < p.hs.length := by
            simp only [List.length_drop] at hi
            omega
          have hgt : (p.hs.drop lo)[i] = p.hs[lo + i] := List.getElem_drop ..
          rw [hgt] at hyi
          have hp2 := hsuf (lo + i) (by omega) hil
          rw [hgetD (lo + i) hil] at hp2
          rw [← hyi]
          exact hp2
        refine ⟨?_, ?_, ?_⟩
        · intro x hx
          rcases List.mem_append.mp hx with hx1 | hx2
          · exact hU x (List.mem_of_mem_take hx1)
          · rcases List.mem_cons.mp hx2 with hx3 | hx4
            · rw [hx3]
              exact hn1
            · exact hU x (List.mem_of_mem_drop hx4)
        · unfold AngleSorted
          rw [List.pairwise_append]
          refine ⟨List.Pairwise.sublist (List.take_sublist _ _) hS, ?_, ?_⟩
          · rw [List.pairwise_cons]
            exact ⟨fun y hy => le_of_lt (hDangle y hy),
              List.Pairwise.sublist (List.drop_sublist _ _) hS⟩
          · intro x hx y hy
            rcases List.mem_cons.mp hy with hy1 | hy2
            · rw [hy1]
              exact hTangle x hx
            · exact le_trans (hTangle x hx) (le_of_lt (hDangle y hy2))
        · have hdecomp := List.take_append_drop lo p.hs
          have hCparts : (p.hs.take lo).Chain' (fun a b => ¬ (a.n.sub b.n).norm < 1e-9) ∧
              (p.hs.drop lo).Chain' (fun a b => ¬ (a.n.sub b.n).norm < 1e-9) := by
            unfold SepConsec at hC
            rw [← hdecomp, List.chain'_append] at hC
            exact ⟨hC.1, hC.2.1⟩
          unfold SepConsec
          rw [List.chain'_append]
          refine ⟨hCparts.1, ?_, ?_⟩
          · rw [List.chain'_cons']
            refine ⟨?_, hCparts.2⟩
            intro y hy
            rw [List.head?_drop] at hy
            have hlt : lo < p.hs.length := by
              by_contra hge
              rw [List.getElem?_eq_none (by omega)] at hy
              exact absurd hy (by simp)
            rw [List.getElem?_eq_getElem hlt] at hy
            simp only [Option.mem_def, Option.some.injEq] at hy
            have hnear : ¬ ((p.hs.getD lo default).n.sub n).norm < 1e-9 :=
              not_lt.mpr (hbr2 hlt)
            rw [hgetD lo hlt] at hnear
            intro hcon
            apply hnear
            rw [Vec2.norm_sub_comm]
            rw [← hy] at hcon
            exact hcon
          · intro x hx y hy
            simp only [List.head?_cons, Option.mem_def, Option.some.injEq] at hy
            rw [List.getLast?_eq_getElem?] at hx
            rcases Nat.eq_zero_or_pos lo with h0 | hpos
            · rw [h0] at hx
              simp at hx
            · have hlen : (p.hs.take lo).length = lo := by
                simp only [List.length_take]
                omega
              rw [hlen] at hx
              obtain ⟨hlt1, hxeq⟩ := List.getElem?_eq_some.mp hx
              have hlt2 : lo - 1 < p.hs.length := by omega
              have hgt : (p.hs.take lo)[lo - 1] = p.hs[lo - 1] :=
                List.getElem_take ..
              have hnear : ¬ ((p.hs.getD (lo - 1) default).n.sub n).norm < 1e-9 :=
                not_lt.mpr (hbr1 hpos)
              rw [hgetD (lo - 1) hlt2] at hnear
              rw [← hy, ← hxeq, hgt]
              exact hnear

/-- C8: the ordered `Poly2` invariants — unit-length normals, entries sorted
by the `atan2`-angle of the normal, and no two consecutive entries with
near-identical directions — are preserved by every constructing operation:
by any sequence of `insert_halfspace` calls starting from an invariant
polytope, by `intersect` of two invariant polytopes, and by every successful
`push_forward`; moreover, when `insert_halfspace` coalesces with the
preceding near-parallel entry, the stored offset is the minimum (most
restrictive) of the two offsets. -/
theorem c8_poly2_invariants :
    (∀ (l : List Hs2) (p : Poly2), p.StrictInv →
      (l.foldl Poly2.insert_halfspace p).StrictInv) ∧
    (∀ p q : Poly2, p.StrictInv → q.StrictInv → (p.intersect q).StrictInv) ∧
    (∀ (p : Poly2) (f : Aff2) (p' : Poly2), p.push_forward f = some p' →
      p'.StrictInv) ∧
    (∀ (p : Poly2) (h : Hs2) (n : Vec2) (c : ℝ), p.StrictInv →
      canonicalize_unit h.n h.c = some (n, c) →
      ∀ lo, lo = bsearch_le p.hs (angle_of n) 0 p.hs.length →
      0 < lo → ((p.hs.getD (lo - 1) default).n.sub n).norm < 1e-9 →
      (p.insert_halfspace h).hs = p.hs.set (lo - 1)
        ⟨(p.hs.getD (lo - 1) default).n,
          min (p.hs.getD (lo - 1) default).c c⟩) := by
  refine ⟨?_, ?_, ?_, ?_⟩
  · intro l
    induction l with
    | nil => intro p hp; exact hp
    | cons h t ih =>
      intro p hp
      exact ih _ (insert_strictInv hp h)
  · intro p q hp hq
    exact intersect_strictInv hp hq
  · intro p f p' hpf
    exact push_forward_strictInv hpf
  · intro p hsp n c hp hcan lo hlodef hpos hnear
    obtain ⟨hU, hS, hC⟩ := hp
    obtain ⟨-, hlohi, -, -⟩ := @bsearch_le_spec p.hs (angle_of n) hS
      p.hs.length 0 p.hs.length (by omega) (Nat.zero_le _) le_rfl
      (fun k hk => absurd hk (Nat.not_lt_zero k))
      (fun k hk hk' => absurd hk' (not_lt.mpr hk))
    rw [← hlodef] at hlohi
    have hlt : lo - 1 < p.hs.length := by omega
    unfold Poly2.insert_halfspace
    simp only [hcan]
    rw [← hlodef]
    rw [if_pos ⟨hpos, hnear⟩]
    by_cases hc : c < (p.hs.getD (lo - 1) default).c
    · rw [if_pos hc, min_eq_right (le_of_lt hc)]
    · rw [if_neg hc, min_eq_left (not_lt.mp hc)]
      have hgd : p.hs.getD (lo - 1) default = p.hs[lo - 1] := by
        rw [List.getD_eq_getElem?_getD, List.getElem?_eq_getElem hlt]
        rfl
      rw [hgd]
      exact (set_getElem_self' p.hs (lo - 1) hlt).symm

theorem c8_witness :
    (([(⟨⟨1, 0⟩, 2⟩ : Hs2)]).foldl Poly2.insert_halfspace ⟨[]⟩).StrictInv :=
  c8_poly2_invariants.1 [⟨⟨1, 0⟩, 2⟩] ⟨[]⟩
    ⟨fun h hm => absurd hm (List.not_mem_nil h), List.Pairwise.nil, List.chain'_nil⟩

/-- `cross` from `geom2/util.rs`: 2D cross product of `b - a` and `c - a`. -/
def cross (a b c : Vec2) : ℝ :=
  (b.x - a.x) * (c.y - a.y) - (b.y - a.y) * (c.x - a.x)

/-- The lexicographic (x, then y) total preorder used by `convex_hull`'s
`sort_by` comparator. -/
def lexLe (a b : Vec2) : Prop := a.x < b.x ∨ (a.x = b.x ∧ a.y ≤ b.y)

instance : DecidableRel lexLe := fun a b => by unfold lexLe; infer_instance

instance : IsTotal Vec2 lexLe := ⟨by
  intro a b
  rcases lt_trichotomy a.x b.x with h | h | h
  · exact Or.inl (Or.inl h)
  · rcases le_total a.y b.y with hy | hy
    · exact Or.inl (Or.inr ⟨h, hy⟩)
    · exact Or.inr (Or.inr ⟨h.symm, hy⟩)
  · exact Or.inr (Or.inl h)⟩

instance : IsTrans Vec2 lexLe := ⟨by
  intro a b c hab hbc
  rcases hab with h1 | ⟨h1, h1y⟩
  · rcases hbc with h2 | ⟨h2, _⟩
    · exact Or.inl (lt_trans h1 h2)
    · exact Or.inl (h2 ▸ h1)
  · rcases hbc with h2 | ⟨h2, h2y⟩
    · exact Or.inl (h1 ▸ h2)
    · exact Or.inr ⟨h1.trans h2, le_trans h1y h2y⟩⟩

/-- `Vec::dedup_by` with predicate `(a - b).norm() < 1e-12`: keep the first
element of each run of near-identical points. -/
def dedupNear (pts : List Vec2) : List Vec2 :=
  pts.foldl (fun out a =>
    match out.getLast? with
    | some b => if (a.sub b).norm < 1e-12 then out else out ++ [a]
    | none => [a]) []

/-- The monotone-chain pop loop of `convex_hull`: while the last two kept
points and `p` make a non-left turn, pop the last kept point. -/
def hullPops (l : List Vec2) (p : Vec2) : List Vec2 :=
  if h : 2 ≤ l.length ∧
      cross (l.getD (l.length - 2) default) (l.getD (l.length - 1) default) p ≤ 0 then
    hullPops l.dropLast p
  else l
termination_by l.length
decreasing_by
  simp only [List.length_dropLast]
  omega

/-- One half (lower or upper) of the monotone chain. -/
def hullFold (pts : List Vec2) : List Vec2 :=
  pts.foldl (fun acc p => hullPops acc p ++ [p]) []

/-- `convex_hull` from `geom2/util.rs` (Andrew's monotone chain, CCW). -/
def convex_hull (points : List Vec2) : Option (List Vec2) :=
  if points.length < 2 then none
  else
    let pts := dedupNear (points.insertionSort lexLe)
    if pts.length < 2 then none
    else
      let lower := hullFold pts
      let upper := hullFold pts.reverse
      some (lower.dropLast ++ upper.dropLast)

/-- `from_points_convex_hull_strict` from `geom2/util.rs`: H-representation
from the hull's edges (outward normal of a CCW edge is the 90-degree
clockwise rotation), canonicalized, sorted by angle, parallels coalesced. -/
def from_points_convex_hull_strict (points : List Vec2) : Option Poly2 :=
  match convex_hull points with
  | none => none
  | some hull =>
    if hull.length < 2 then none
    else
      let hs := (List.range hull.length).filterMap (fun k =>
        let p := hull.getD k default
        let q := hull.getD ((k + 1) % hull.length) default
        let edge := q.sub p
        let n : Vec2 := ⟨edge.y, -edge.x⟩
        let c := n.dot p
        (canonicalize_unit n c).map (fun nc => (⟨nc.1, nc.2⟩ : Hs2)))
      let sorted := hs.insertionSort Poly2.angleLe
      some ⟨sorted.foldl (fun acc h => push_or_coalesce acc h.n h.c) []⟩

/-- 4D vector, coordinates ordered `(x1, x2, y1, y2)` as in `geom4`. -/
structure Vec4 where
  x1 : ℝ
  x2 : ℝ
  y1 : ℝ
  y2 : ℝ

namespace Vec4

def add (a b : Vec4) : Vec4 := ⟨a.x1 + b.x1, a.x2 + b.x2, a.y1 + b.y1, a.y2 + b.y2⟩

def sub (a b : Vec4) : Vec4 := ⟨a.x1 - b.x1, a.x2 - b.x2, a.y1 - b.y1, a.y2 - b.y2⟩

def neg (a : Vec4) : Vec4 := ⟨-a.x1, -a.x2, -a.y1, -a.y2⟩

def smul (t : ℝ) (a : Vec4) : Vec4 := ⟨t * a.x1, t * a.x2, t * a.y1, t * a.y2⟩

def div (a : Vec4) (s : ℝ) : Vec4 := ⟨a.x1 / s, a.x2 / s, a.y1 / s, a.y2 / s⟩

def dot (a b : Vec4) : ℝ := a.x1 * b.x1 + a.x2 * b.x2 + a.y1 * b.y1 + a.y2 * b.y2

/-- Euclidean norm (`nalgebra`'s `.norm()`). -/
def norm (a : Vec4) : ℝ := Real.sqrt (a.x1 ^ 2 + a.x2 ^ 2 + a.y1 ^ 2 + a.y2 ^ 2)

/-- `nalgebra`'s `.normalize()`: `v / v.norm()`. -/
def normalize (a : Vec4) : Vec4 := a.div a.norm

end Vec4

instance : Inhabited Vec4 := ⟨⟨0, 0, 0, 0⟩⟩

/-- Closed half-space `n · x <= c` in R^4 (`Hs4` from `geom4/types.rs`). -/
structure Hs4 where
  n : Vec4
  c : ℝ

instance : Inhabited Hs4 := ⟨⟨⟨0, 0, 0, 0⟩, 0⟩⟩

/-- `TIGHT_EPS` from `geom4/cfg.rs`. -/
def TIGHT_EPS : ℝ := 1e-7

/-- `j_matrix_4` from `geom4/maps.rs` applied to a vector: with coordinates
`(x1, x2, y1, y2)`, the block matrix `[[0, -I], [I, 0]]` sends
`(x1, x2, y1, y2)` to `(-y1, -y2, x1, x2)`. -/
def j_matrix_4_mulVec (v : Vec4) : Vec4 := ⟨-v.y1, -v.y2, v.x1, v.x2⟩

/-- 3x3 determinant of the matrix with columns `(a1,a2,a3)`, `(b1,b2,b3)`,
`(c1,c2,c3)` (expansion along the first row). -/
def det3 (a1 a2 a3 b1 b2 b3 c1 c2 c3 : ℝ) : ℝ :=
  a1 * (b2 * c3 - b3 * c2) - b1 * (a2 * c3 - a3 * c2) + c1 * (a2 * b3 - a3 * b2)

/-- 4x4 determinant of the matrix with columns `a b c d` (nalgebra's
`Matrix4::from_columns(...).determinant()`), by cofactor expansion along the
first column. -/
def det4 (a b c d : Vec4) : ℝ :=
  a.x1 * det3 b.x2 b.y1 b.y2 c.x2 c.y1 c.y2 d.x2 d.y1 d.y2
  - a.x2 * det3 b.x1 b.y1 b.y2 c.x1 c.y1 c.y2 d.x1 d.y1 d.y2
  + a.y1 * det3 b.x1 b.x2 b.y2 c.x1 c.x2 c.y2 d.x1 d.x2 d.y2
  - a.y2 * det3 b.x1 b.x2 b.y1 c.x1 c.x2 c.y1 d.x1 d.x2 d.y1

/-- `orthonormal_complement_2d` from `geom4/maps.rs`: Gram-Schmidt from the
fixed seeds `(1,2,3,5)` and `(-2,1,0.5,-1)` against `n1`, `n2`. -/
def orthonormal_complement_2d (n1 n2 : Vec4) : Option (Vec4 × Vec4) :=
  let v0 : Vec4 := ⟨1, 2, 3, 5⟩
  let va := v0.sub (Vec4.smul (v0.dot n1 / n1.dot n1) n1)
  let vb := va.sub (Vec4.smul (va.dot n2 / n2.dot n2) n2)
  let u1 := vb.div vb.norm
  let w0 : Vec4 := ⟨-2, 1, 1/2, -1⟩
  let wa := w0.sub (Vec4.smul (w0.dot n1 / n1.dot n1) n1)
  let wb := wa.sub (Vec4.smul (wa.dot n2 / n2.dot n2) n2)
  let wc := wb.sub (Vec4.smul (wb.dot u1) u1)
  some (u1, wc.div wc.norm)

/-- `chart_signed_omega` from `oriented_edge/build.rs`: `u1 . (J u2)` for the
two rows of the chart. -/
def chart_signed_omega (u1 u2 : Vec4) : ℝ := u1.dot (j_matrix_4_mulVec u2)

/-- `chart_is_lagrangian` from `oriented_edge/build.rs`. -/
def chart_is_lagrangian (u1 u2 : Vec4) : Prop :=
  |chart_signed_omega u1 u2| < TIGHT_EPS

instance (u1 u2 : Vec4) : Decidable (chart_is_lagrangian u1 u2) := by
  unfold chart_is_lagrangian
  infer_instance

/-- `oriented_orth_map_face2` from `geom4/maps.rs`; the chart is returned as
its two orthonormal rows `(u1, u2)` (the `Matrix2x4` has these as rows, the
`Matrix4x2` as columns).  Real arithmetic makes `is_finite` trivially true. -/
def oriented_orth_map_face2 (hs : List Hs4) (i j : ℕ) : Option (Vec4 × Vec4) :=
  if hs.length ≤ i ∨ hs.length ≤ j ∨ i = j then none
  else
    let n1 := (hs.getD i default).n.normalize
    let n2 := (hs.getD j default).n.normalize
    match orthonormal_complement_2d n1 n2 with
    | none => none
    | some (u1, u2) =>
      let omega := u1.dot (j_matrix_4_mulVec u2)
      if TIGHT_EPS ≤ |omega| then
        if 0 < omega then some (u1, u2) else some (u1, u2.neg)
      else
        let det := det4 u1 u2 n1 n2
        if TIGHT_EPS ≤ |det| then
          if 0 < det then some (u1, u2) else some (u1, u2.neg)
        else some (u1, u2)

/-- `ridge_poly_from_vertices` from `oriented_edge/build.rs`: project the
face's vertices through the chart and take the strict 2D hull. -/
def ridge_poly_from_vertices (u1 u2 : Vec4) (verts : List Vec4) : Option Poly2 :=
  if verts.length < 2 then none
  else from_points_convex_hull_strict (verts.map (fun v => (⟨u1.dot v, u2.dot v⟩ : Vec2)))

/-- A 2-face as produced by `enumerate_faces_from_h`: its two facet indices
and its vertex list. -/
structure Face2 where
  facets : ℕ × ℕ
  vertices : List Vec4

/-- `Ridge` node data from `oriented_edge/types.rs` (the chart stored as its
two rows). -/
structure Ridge4 where
  facets : ℕ × ℕ
  poly : Poly2
  chart_u1 : Vec4
  chart_u2 : Vec4

/-- The per-face node decision of `build_graph`'s first loop: chart, the
Lagrangian skip, then the strict polygon. -/
def nodeOfFace (hs : List Hs4) (f2 : Face2) : Option Ridge4 :=
  match oriented_orth_map_face2 hs f2.facets.1 f2.facets.2 with
  | none => none
  | some (u1, u2) =>
    if chart_is_lagrangian u1 u2 then none
    else
      match ridge_poly_from_vertices u1 u2 f2.vertices with
      | none => none
      | some p => some ⟨f2.facets, p, u1, u2⟩

theorem chart_omega_neg (u1 u2 : Vec4) :
    chart_signed_omega u1 u2.neg = -chart_signed_omega u1 u2 := by
  simp only [chart_signed_omega, Vec4.dot, Vec4.neg, j_matrix_4_mulVec]
  ring

/-- **C6** (corrected): given the chart returned for a 2-face, the face is
rejected (gets no `Ridge` node) exactly when the returned chart is
near-Lagrangian or the strict 2D polygon construction fails; the
determinant fallback inside `oriented_orth_map_face2` only ever flips the
sign of `u2` and hence never changes `|omega|`, so a near-Lagrangian face is
rejected even when the ambient determinant resolves the orientation; a
non-Lagrangian face whose polygon succeeds is kept with the chart
orientation. -/
theorem c6_ridge_rejection :
    (∀ (hs : List Hs4) (f2 : Face2) (u1 u2 : Vec4),
      oriented_orth_map_face2 hs f2.facets.1 f2.facets.2 = some (u1, u2) →
      (nodeOfFace hs f2 = none ↔ chart_is_lagrangian u1 u2 ∨
        ridge_poly_from_vertices u1 u2 f2.vertices = none)) ∧
    (∀ (hs : List Hs4) (i j : ℕ) (u1 u2 w1 w2 : Vec4),
      orthonormal_complement_2d ((hs.getD i default).n.normalize)
          ((hs.getD j default).n.normalize) = some (u1, u2) →
      oriented_orth_map_face2 hs i j = some (w1, w2) →
      |chart_signed_omega w1 w2| = |chart_signed_omega u1 u2|) ∧
    (∀ (hs : List Hs4) (f2 : Face2) (u1 u2 : Vec4) (p : Poly2),
      oriented_orth_map_face2 hs f2.facets.1 f2.facets.2 = some (u1, u2) →
      ¬ chart_is_lagrangian u1 u2 →
      ridge_poly_from_vertices u1 u2 f2.vertices = some p →
      nodeOfFace hs f2 = some ⟨f2.facets, p, u1, u2⟩) := by
  refine ⟨?_, ?_, ?_⟩
  · intro hs f2 u1 u2 hchart
    unfold nodeOfFace
    simp only [hchart]
    by_cases hl : chart_is_lagrangian u1 u2
    · rw [if_pos hl]
      simp [hl]
    · rw [if_neg hl]
      rcases hrp : ridge_poly_from_vertices u1 u2 f2.vertices with _ | p
      · simp [hl, hrp]
      · simp [hl, hrp]
  · intro hs i j u1 u2 w1 w2 hoc hmap
    unfold oriented_orth_map_face2 at hmap
    by_cases hg : hs.length ≤ i ∨ hs.length ≤ j ∨ i = j
    · rw [if_pos hg] at hmap
      exact absurd hmap (by simp)
    · rw [if_neg hg] at hmap
      simp only [hoc] at hmap
      by_cases h1 : TIGHT_EPS ≤ |u1.dot (j_matrix_4_mulVec u2)|
      · rw [if_pos h1] at hmap
        by_cases h2 : 0 < u1.dot (j_matrix_4_mulVec u2)
        · rw [if_pos h2] at hmap
          simp only [Option.some.injEq, Prod.mk.injEq] at hmap
          obtain ⟨rfl, rfl⟩ := hmap
          rfl
        · rw [if_neg h2] at hmap
          simp only [Option.some.injEq, Prod.mk.injEq] at hmap
          obtain ⟨rfl, rfl⟩ := hmap
          rw [chart_omega_neg, abs_neg]
      · rw [if_neg h1] at hmap
        by_cases h3 : TIGHT_EPS ≤ |det4 u1 u2 ((hs.getD i default).n.normalize)
            ((hs.getD j default).n.normalize)|
        · rw [if_pos h3] at hmap
          by_cases h4 : 0 < det4 u1 u2 ((hs.getD i default).n.normalize)
              ((hs.getD j default).n.normalize)
          · rw [if_pos h4] at hmap
            simp only [Option.some.injEq, Prod.mk.injEq] at hmap
            obtain ⟨rfl, rfl⟩ := hmap
            rfl
          · rw [if_neg h4] at hmap
            simp only [Option.some.injEq, Prod.mk.injEq] at hmap
            obtain ⟨rfl, rfl⟩ := hmap
            rw [chart_omega_neg, abs_neg]
        · rw [if_neg h3] at hmap
          simp only [Option.some.injEq, Prod.mk.injEq] at hmap
          obtain ⟨rfl, rfl⟩ := hmap
          rfl
  · intro hs f2 u1 u2 p hchart hl hrp
    unfold nodeOfFace
    simp only [hchart, if_neg hl, hrp]

/-- The 8 half-spaces of the hypercube `[-1,1]^4`. -/
def ce6_hs : List Hs4 :=
  [⟨⟨1, 0, 0, 0⟩, 1⟩, ⟨⟨0, 1, 0, 0⟩, 1⟩, ⟨⟨0, 0, 1, 0⟩, 1⟩, ⟨⟨0, 0, 0, 1⟩, 1⟩,
   ⟨⟨-1, 0, 0, 0⟩, 1⟩, ⟨⟨0, -1, 0, 0⟩, 1⟩, ⟨⟨0, 0, -1, 0⟩, 1⟩, ⟨⟨0, 0, 0, -1⟩, 1⟩]

/-- The Lagrangian 2-face `{x1 = 1, x2 = 1}` of the hypercube: facet pair
`(0, 1)` with its four vertices. -/
def ce6_face : Face2 :=
  ⟨(0, 1), [⟨1, 1, 1, 1⟩, ⟨1, 1, -1, 1⟩, ⟨1, 1, 1, -1⟩, ⟨1, 1, -1, -1⟩]⟩

/-- Gram-Schmidt output `u1` for the facet normals `e1`, `e2`. -/
def ce6_u1 : Vec4 := ⟨0, 0, 3 / Real.sqrt 34, 5 / Real.sqrt 34⟩

/-- Gram-Schmidt output `u2` for the facet normals `e1`, `e2`. -/
def ce6_u2 : Vec4 := ⟨0, 0, 5 / Real.sqrt 34, -3 / Real.sqrt 34⟩

theorem ce6_n1 : ((ce6_hs.getD 0 default).n).normalize = ⟨1, 0, 0, 0⟩ := by
  simp [ce6_hs, Vec4.normalize, Vec4.norm, Vec4.div]

theorem ce6_n2 : ((ce6_hs.getD 1 default).n).normalize = ⟨0, 1, 0, 0⟩ := by
  simp [ce6_hs, Vec4.normalize, Vec4.norm, Vec4.div]

theorem ce6_oc : orthonormal_complement_2d ⟨1, 0, 0, 0⟩ ⟨0, 1, 0, 0⟩ = some (ce6_u1, ce6_u2) := by
  have hss : Real.sqrt 34 * Real.sqrt 34 = 34 := Real.mul_self_sqrt (by norm_num)
  have hA : (1 / 2 - (1 / 2 * (3 / Real.sqrt 34) + -(5 / Real.sqrt 34)) * (3 / Real.sqrt 34))
      = 55 / 68 := by
    have hs0 : (0:ℝ) < Real.sqrt 34 := Real.sqrt_pos.mpr (by norm_num)
    field_simp
    ring_nf
    nlinarith [hss]
  have hB : (-1 - (1 / 2 * (3 / Real.sqrt 34) + -(5 / Real.sqrt 34)) * (5 / Real.sqrt 34))
      = -(33 / 68) := by
    have hs0 : (0:ℝ) < Real.sqrt 34 := Real.sqrt_pos.mpr (by norm_num)
    field_simp
    ring_nf
    nlinarith [hss]
  have hn : Real.sqrt ((55 / 68 : ℝ) ^ 2 + (-(33 / 68) : ℝ) ^ 2) = 11 / 68 * Real.sqrt 34 := by
    have h : ((55 / 68 : ℝ) ^ 2 + (-(33 / 68) : ℝ) ^ 2) = (11 / 68) ^ 2 * 34 := by norm_num
    rw [h, Real.sqrt_mul (by positivity), Real.sqrt_sq (by norm_num)]
  unfold orthonormal_complement_2d
  simp only [Vec4.dot, Vec4.sub, Vec4.smul, Vec4.div, Vec4.norm, ce6_u1, ce6_u2]
  norm_num
  rw [hA, hB, hn]
  have hs0 : (0:ℝ) < Real.sqrt 34 := Real.sqrt_pos.mpr (by norm_num)
  constructor
  · rw [div_eq_div_iff (by positivity) hs0.ne']
    ring_nf
  · rw [div_eq_div_iff (by positivity) hs0.ne']
    ring_nf

theorem ce6_omega : chart_signed_omega ce6_u1 ce6_u2 = 0 := by
  simp only [chart_signed_omega, Vec4.dot, j_matrix_4_mulVec, ce6_u1, ce6_u2]
  ring

theorem ce6_det : det4 ce6_u1 ce6_u2 ⟨1, 0, 0, 0⟩ ⟨0, 1, 0, 0⟩ = -1 := by
  have hss : Real.sqrt 34 * Real.sqrt 34 = 34 := Real.mul_self_sqrt (by norm_num)
  have hs0 : (0:ℝ) < Real.sqrt 34 := Real.sqrt_pos.mpr (by norm_num)
  simp only [det4, det3, ce6_u1, ce6_u2]
  field_simp
  nlinarith [hss]

theorem ce6_chart : oriented_orth_map_face2 ce6_hs 0 1 = some (ce6_u1, ce6_u2.neg) := by
  unfold oriented_orth_map_face2
  rw [if_neg (by simp [ce6_hs])]
  simp only [ce6_n1, ce6_n2, ce6_oc]
  have homega : ce6_u1.dot (j_matrix_4_mulVec ce6_u2) = 0 := ce6_omega
  rw [homega]
  rw [if_neg (by norm_num [TIGHT_EPS])]
  rw [ce6_det]
  rw [if_pos (by norm_num [TIGHT_EPS])]
  rw [if_neg (by norm_num)]

/-- Counterexample to the claim that a ridge is rejected only when the
determinant fallback also fails: the Lagrangian hypercube face `{x1=1,x2=1}`
has `omega = 0` exactly, its ambient determinant resolves the orientation
(`det = -1`, well above the threshold), and it still gets no node. -/
theorem c6_counterexample :
    orthonormal_complement_2d ((ce6_hs.getD 0 default).n.normalize)
        ((ce6_hs.getD 1 default).n.normalize) = some (ce6_u1, ce6_u2) ∧
    |chart_signed_omega ce6_u1 ce6_u2| < TIGHT_EPS ∧
    TIGHT_EPS ≤ |det4 ce6_u1 ce6_u2 ((ce6_hs.getD 0 default).n.normalize)
        ((ce6_hs.getD 1 default).n.normalize)| ∧
    nodeOfFace ce6_hs ce6_face = none := by
  refine ⟨?_, ?_, ?_, ?_⟩
  · rw [ce6_n1, ce6_n2]
    exact ce6_oc
  · rw [ce6_omega]
    norm_num [TIGHT_EPS]
  · rw [ce6_n1, ce6_n2, ce6_det]
    norm_num [TIGHT_EPS]
  · have hch : oriented_orth_map_face2 ce6_hs ce6_face.facets.1 ce6_face.facets.2
        = some (ce6_u1, ce6_u2.neg) := ce6_chart
    have hlag : chart_is_lagrangian ce6_u1 ce6_u2.neg := by
      unfold chart_is_lagrangian
      rw [chart_omega_neg, ce6_omega]
      norm_num [TIGHT_EPS]
    unfold nodeOfFace
    simp only [hch, if_pos hlag]

/-- Three half-spaces whose facet pair `(0, 2)` (`e1`, `e3`) spans a
non-Lagrangian 2-face. -/
def keep_hs : List Hs4 := [⟨⟨1, 0, 0, 0⟩, 1⟩, ⟨⟨0, 1, 0, 0⟩, 1⟩, ⟨⟨0, 0, 1, 0⟩, 1⟩]

/-- A face of `keep_hs` on the facet pair `(0, 2)` with two vertices. -/
def keep_face : Face2 := ⟨(0, 2), [⟨1, 0, 1, 0⟩, ⟨1, 2, 1, 5⟩]⟩

def keep_u1 : Vec4 := ⟨0, 2 / Real.sqrt 29, 0, 5 / Real.sqrt 29⟩

def keep_u2 : Vec4 := ⟨0, 5 / Real.sqrt 29, 0, -2 / Real.sqrt 29⟩

theorem keep_n1 : ((keep_hs.getD 0 default).n).normalize = ⟨1, 0, 0, 0⟩ := by
  simp [keep_hs, Vec4.normalize, Vec4.norm, Vec4.div]

theorem keep_n2 : ((keep_hs.getD 2 default).n).normalize = ⟨0, 0, 1, 0⟩ := by
  simp [keep_hs, Vec4.normalize, Vec4.norm, Vec4.div]

theorem keep_oc : orthonormal_complement_2d ⟨1, 0, 0, 0⟩ ⟨0, 0, 1, 0⟩
    = some (keep_u1, keep_u2) := by
  have hss : Real.sqrt 29 * Real.sqrt 29 = 29 := Real.mul_self_sqrt (by norm_num)
  have hs0 : (0:ℝ) < Real.sqrt 29 := Real.sqrt_pos.mpr (by norm_num)
  have hA : (1 - (2 / Real.sqrt 29 + -(5 / Real.sqrt 29)) * (2 / Real.sqrt 29)) = 35 / 29 := by
    field_simp
    ring_nf
  have hB : (-1 - (2 / Real.sqrt 29 + -(5 / Real.sqrt 29)) * (5 / Real.sqrt 29))
      = -(14 / 29) := by
    field_simp
    ring_nf
  have hn : Real.sqrt ((35 / 29 : ℝ) ^ 2 + (-(14 / 29) : ℝ) ^ 2) = 7 / 29 * Real.sqrt 29 := by
    have h : ((35 / 29 : ℝ) ^ 2 + (-(14 / 29) : ℝ) ^ 2) = (7 / 29) ^ 2 * 29 := by norm_num
    rw [h, Real.sqrt_mul (by positivity), Real.sqrt_sq (by norm_num)]
  unfold orthonormal_complement_2d
  simp only [Vec4.dot, Vec4.sub, Vec4.smul, Vec4.div, Vec4.norm, keep_u1, keep_u2]
  norm_num
  rw [hA, hB, hn]
  constructor
  · rw [div_eq_div_iff (by positivity) hs0.ne']
    ring_nf
  · rw [div_eq_div_iff (by positivity) hs0.ne']
    ring_nf

theorem keep_omega : chart_signed_omega keep_u1 keep_u2 = 1 := by
  have hss : Real.sqrt 29 * Real.sqrt 29 = 29 := Real.mul_self_sqrt (by norm_num)
  have hs0 : (0:ℝ) < Real.sqrt 29 := Real.sqrt_pos.mpr (by norm_num)
  simp only [chart_signed_omega, Vec4.dot, j_matrix_4_mulVec, keep_u1, keep_u2]
  field_simp
  linarith [hss]

theorem keep_chart : oriented_orth_map_face2 keep_hs 0 2 = some (keep_u1, keep_u2) := by
  unfold oriented_orth_map_face2
  rw [if_neg (by norm_num [keep_hs])]
  simp only [keep_n1, keep_n2, keep_oc]
  have homega : keep_u1.dot (j_matrix_4_mulVec keep_u2) = 1 := keep_omega
  rw [homega]
  rw [if_pos (by norm_num [TIGHT_EPS])]
  rw [if_pos (by norm_num)]

theorem hullPops_small (l : List Vec2) (p : Vec2) (h : l.length < 2) : hullPops l p = l := by
  rw [hullPops, dif_neg]
  intro hc
  exact absurd hc.1 (by omega)

/-- The strict polygon of the kept face in its chart. -/
def keepPoly : Poly2 := ⟨[⟨⟨0, -1⟩, 0⟩, ⟨⟨0, 1⟩, 0⟩]⟩

theorem keep_poly_eval :
    ridge_poly_from_vertices keep_u1 keep_u2 keep_face.vertices = some keepPoly := by
  have hss : Real.sqrt 29 * Real.sqrt 29 = 29 := Real.mul_self_sqrt (by norm_num)
  have hs0 : (0:ℝ) < Real.sqrt 29 := Real.sqrt_pos.mpr (by norm_num)
  unfold ridge_poly_from_vertices
  rw [if_neg (by norm_num [keep_face])]
  have hpts : keep_face.vertices.map (fun v => (⟨keep_u1.dot v, keep_u2.dot v⟩ : Vec2))
      = [⟨0, 0⟩, ⟨Real.sqrt 29, 0⟩] := by
    simp only [keep_face, keep_u1, keep_u2, Vec4.dot, List.map]
    norm_num
    constructor
    · field_simp
      linarith [hss]
    · ring
  rw [hpts]
  have hsort : ([(⟨0, 0⟩ : Vec2), ⟨Real.sqrt 29, 0⟩]).insertionSort lexLe
      = [⟨0, 0⟩, ⟨Real.sqrt 29, 0⟩] := by
    simp only [List.insertionSort, List.orderedInsert]
    rw [if_pos (show lexLe ⟨0, 0⟩ ⟨Real.sqrt 29, 0⟩ from Or.inl hs0)]
  have hnrm29 : Vec2.norm ⟨Real.sqrt 29, 0⟩ = Real.sqrt 29 := by
    unfold Vec2.norm
    norm_num
  have hdedup : dedupNear [⟨0, 0⟩, ⟨Real.sqrt 29, 0⟩] = [⟨0, 0⟩, ⟨Real.sqrt 29, 0⟩] := by
    unfold dedupNear
    simp only [List.foldl, List.getLast?_nil, List.getLast?_singleton]
    have hsub : (⟨Real.sqrt 29, 0⟩ : Vec2).sub ⟨0, 0⟩ = ⟨Real.sqrt 29, 0⟩ := by
      simp [Vec2.sub]
    rw [hsub, hnrm29, if_neg (by nlinarith [hss, hs0])]
    simp
  have hfold : hullFold [⟨0, 0⟩, ⟨Real.sqrt 29, 0⟩] = [⟨0, 0⟩, ⟨Real.sqrt 29, 0⟩] := by
    unfold hullFold
    simp only [List.foldl]
    rw [hullPops_small [] ⟨0, 0⟩ (by simp)]
    simp only [List.nil_append]
    rw [hullPops_small [⟨0, 0⟩] ⟨Real.sqrt 29, 0⟩ (by simp)]
    simp
  have hfoldr : hullFold [⟨Real.sqrt 29, 0⟩, ⟨0, 0⟩] = [⟨Real.sqrt 29, 0⟩, ⟨0, 0⟩] := by
    unfold hullFold
    simp only [List.foldl]
    rw [hullPops_small [] ⟨Real.sqrt 29, 0⟩ (by simp)]
    simp only [List.nil_append]
    rw [hullPops_small [⟨Real.sqrt 29, 0⟩] ⟨0, 0⟩ (by simp)]
    simp
  have hhull : convex_hull [⟨0, 0⟩, ⟨Real.sqrt 29, 0⟩] = some [⟨0, 0⟩, ⟨Real.sqrt 29, 0⟩] := by
    unfold convex_hull
    rw [if_neg (by norm_num)]
    simp only [hsort, hdedup, List.reverse_cons, List.reverse_nil, List.nil_append,
      List.singleton_append]
    rw [if_neg (by norm_num)]
    rw [hfold, hfoldr]
    simp [List.dropLast]
  unfold from_points_convex_hull_strict
  simp only [hhull]
  rw [if_neg (by norm_num)]
  have hcanon1 : canonicalize_unit ⟨0, -Real.sqrt 29⟩ 0 = some (⟨0, -1⟩, 0) := by
    unfold canonicalize_unit
    have hv : Vec2.norm ⟨0, -Real.sqrt 29⟩ = Real.sqrt 29 := by
      unfold Vec2.norm
      norm_num
    simp only [hv]
    rw [if_neg (not_le.mpr hs0)]
    simp [neg_div, div_self hs0.ne']
  have hcanon2 : canonicalize_unit ⟨0, Real.sqrt 29⟩ 0 = some (⟨0, 1⟩, 0) := by
    unfold canonicalize_unit
    have hv : Vec2.norm ⟨0, Real.sqrt 29⟩ = Real.sqrt 29 := by
      unfold Vec2.norm
      norm_num
    simp only [hv]
    rw [if_neg (not_le.mpr hs0)]
    simp [div_self hs0.ne']
  have hr : List.range 2 = [0, 1] := by decide
  norm_num [hr, List.filterMap_cons, List.filterMap_nil, List.getD, Vec2.sub, Vec2.dot,
    hcanon1, hcanon2]
  have hang : Poly2.angleLe ⟨⟨0, -1⟩, 0⟩ ⟨⟨0, 1⟩, 0⟩ := by
    unfold Poly2.angleLe
    rw [angle_of_neg_e2, angle_of_e2]
    linarith [Real.pi_pos]
  rw [if_pos hang]
  have hpoc1 : push_or_coalesce [] (⟨0, -1⟩ : Vec2) 0 = [⟨⟨0, -1⟩, 0⟩] := rfl
  have hnorm2 : Vec2.norm ⟨0, -2⟩ = 2 := by
    unfold Vec2.norm
    rw [show ((0:ℝ) ^ 2 + (-2) ^ 2) = 2 ^ 2 by norm_num, Real.sqrt_sq (by norm_num)]
  have hpoc2 : push_or_coalesce [⟨⟨0, -1⟩, 0⟩] (⟨0, 1⟩ : Vec2) 0
      = [⟨⟨0, -1⟩, 0⟩, ⟨⟨0, 1⟩, 0⟩] := by
    unfold push_or_coalesce
    simp only [List.getLast?_singleton]
    have hsub2 : ((⟨0, -1⟩ : Vec2).sub ⟨0, 1⟩) = ⟨0, -2⟩ := by
      simp [Vec2.sub]
      norm_num
    rw [hsub2, hnorm2, if_neg (by norm_num)]
    simp
  simp only [List.foldl, hpoc1, hpoc2]
  rfl

theorem c6_witness :
    nodeOfFace ce6_hs ce6_face = none ∧
    nodeOfFace keep_hs keep_face = some ⟨keep_face.facets, keepPoly, keep_u1, keep_u2⟩ := by
  constructor
  · exact (c6_ridge_rejection.1 ce6_hs ce6_face ce6_u1 ce6_u2.neg ce6_chart).mpr
      (Or.inl (by
        unfold chart_is_lagrangian
        rw [chart_omega_neg, ce6_omega]
        norm_num [TIGHT_EPS]))
  · exact c6_ridge_rejection.2.2 keep_hs keep_face keep_u1 keep_u2 keepPoly keep_chart
      (by
        unfold chart_is_lagrangian
        rw [keep_omega]
        norm_num [TIGHT_EPS])
      keep_poly_eval

/-- `GeomCfg` from `geom2/types.rs`. -/
structure GeomCfg where
  eps_det : ℝ
  eps_feas : ℝ
  eps_tau : ℝ

/-- The `other_facet` helper closure of `build_graph`. -/
def other_facet (r : Ridge4) (f : ℕ) : ℕ :=
  if r.facets.1 = f then r.facets.2 else r.facets.1

/-- `EdgeData` from `oriented_edge/types.rs` (`from`/`to` spelled `fromR`,
`toR`); the IEEE value `f64::NEG_INFINITY` stored in `lb_action` is modelled
by `EReal`'s bottom. -/
structure EdgeData4 where
  fromR : ℕ
  toR : ℕ
  facet : ℕ
  dom_in : Poly2
  img_out : Poly2
  map_ij : Aff2
  action_inc : Aff1
  rotation_inc : ℝ
  lb_action : EReal

instance : Inhabited Ridge4 := ⟨⟨(0, 0), ⟨[]⟩, default, default⟩⟩

instance : Inhabited EdgeData4 :=
  ⟨⟨0, 0, 0, ⟨[]⟩, ⟨[]⟩, ⟨Mat2.id, ⟨0, 0⟩⟩, ⟨⟨0, 0⟩, 0⟩, 0, ⊥⟩⟩

/-- The per-edge lower bound of `build_graph`: fold `f64::min` starting from
`f64::INFINITY` over the HPI vertices when bounded, `NEG_INFINITY`
otherwise. -/
def edgeLb (dom : Poly2) (action_inc : Aff1) : EReal :=
  match dom.halfspace_intersection with
  | HalfspaceIntersection.Bounded verts =>
      verts.foldl (fun acc z => min acc ((action_inc.eval z : ℝ) : EReal)) ⊤
  | _ => ⊥

/-- The body of `build_graph`'s edge double loop: every `continue` is a
`none`. -/
def buildEdge (hs : List Hs4) (svd : Mat2 → Svd2) (cfg : GeomCfg)
    (ridges : List Ridge4) (ridges_in_f : List ℕ) (f : ℕ) (v : Vec4)
    (ri rj : ℕ) : Option EdgeData4 :=
  if ri = rj then none
  else
    let node_i := ridges.getD ri default
    let node_j := ridges.getD rj default
    let h_idx_j := other_facet node_j f
    let d_j := (hs.getD h_idx_j default).n.dot v
    if d_j ≤ cfg.eps_tau then none
    else
      let a_pos : Vec2 := ⟨node_i.chart_u1.dot (hs.getD h_idx_j default).n,
                           node_i.chart_u2.dot (hs.getD h_idx_j default).n⟩
      let c_pos := (hs.getD h_idx_j default).c - cfg.eps_feas
      let dom0 := node_i.poly.insert_halfspace ⟨a_pos, c_pos⟩
      let dom := ridges_in_f.foldl (fun dom rk =>
        let h_idx_k := other_facet (ridges.getD rk default) f
        if h_idx_k = h_idx_j then dom
        else
          let d_k := (hs.getD h_idx_k default).n.dot v
          if d_k ≤ cfg.eps_tau then dom
          else
            let coeff_4 := (Vec4.smul d_k (hs.getD h_idx_j default).n).sub
              (Vec4.smul d_j (hs.getD h_idx_k default).n)
            let a2 : Vec2 := ⟨node_i.chart_u1.dot coeff_4, node_i.chart_u2.dot coeff_4⟩
            let c2 := d_j * (hs.getD h_idx_k default).c - d_k * (hs.getD h_idx_j default).c
            dom.insert_halfspace ⟨a2, c2⟩) dom0
      if (dom.halfspace_intersection_eps cfg.eps_feas).is_empty then none
      else
        let u_vec : Vec2 := ⟨node_j.chart_u1.dot v, node_j.chart_u2.dot v⟩
        let r_row : Vec2 := ⟨(hs.getD h_idx_j default).n.dot node_i.chart_u1,
                             (hs.getD h_idx_j default).n.dot node_i.chart_u2⟩
        let m : Mat2 := ⟨node_j.chart_u1.dot node_i.chart_u1 - u_vec.x * r_row.x * (1 / d_j),
                         node_j.chart_u1.dot node_i.chart_u2 - u_vec.x * r_row.y * (1 / d_j),
                         node_j.chart_u2.dot node_i.chart_u1 - u_vec.y * r_row.x * (1 / d_j),
                         node_j.chart_u2.dot node_i.chart_u2 - u_vec.y * r_row.y * (1 / d_j)⟩
        let t : Vec2 := ⟨u_vec.x * ((hs.getD h_idx_j default).c / d_j),
                         u_vec.y * ((hs.getD h_idx_j default).c / d_j)⟩
        let map_ij : Aff2 := ⟨m, t⟩
        let det_map := map_ij.m.det
        if |det_map| ≤ cfg.eps_det then none
        else if det_map < 0 then none
        else
          let rotation_inc := (rotation_angle svd map_ij).getD 0
          let bf := (hs.getD f default).c
          let a_vec : Vec2 := ⟨node_i.chart_u1.dot (hs.getD h_idx_j default).n,
                               node_i.chart_u2.dot (hs.getD h_idx_j default).n⟩
          let scale := bf / d_j
          let action_inc : Aff1 := ⟨⟨-a_vec.x * scale, -a_vec.y * scale⟩,
                                    scale * (hs.getD h_idx_j default).c⟩
          let img := (dom.push_forward map_ij).getD ⟨[]⟩
          some ⟨ri, rj, f, dom, img, map_ij, action_inc, rotation_inc,
            edgeLb dom action_inc⟩

/-- Adjacency comparison by stored lower bound (the `sort_by` comparator). -/
def edgeLbLe (edges : List EdgeData4) (a b : ℕ) : Prop :=
  (edges.getD a default).lb_action ≤ (edges.getD b default).lb_action

instance (edges : List EdgeData4) : DecidableRel (edgeLbLe edges) := fun a b => by
  unfold edgeLbLe
  infer_instance

instance (edges : List EdgeData4) : IsTotal ℕ (edgeLbLe edges) := ⟨fun _ _ => le_total _ _⟩

instance (edges : List EdgeData4) : IsTrans ℕ (edgeLbLe edges) := ⟨fun _ _ _ => le_trans⟩

/-- The node-collection step of `build_graph`'s first loop (ridges plus
`by_facet` buckets). -/
def ridgeStep (hs : List Hs4) (acc : List Ridge4 × List (List ℕ)) (f2 : Face2) :
    List Ridge4 × List (List ℕ) :=
  match nodeOfFace hs f2 with
  | none => acc
  | some node =>
    let id := acc.1.length
    let bf1 := acc.2.set node.facets.1 ((acc.2.getD node.facets.1 []) ++ [id])
    let bf2 := bf1.set node.facets.2 ((bf1.getD node.facets.2 []) ++ [id])
    (acc.1 ++ [node], bf2)

/-- One `rj` step of the edge loop. -/
def innerStep (hs : List Hs4) (svd : Mat2 → Svd2) (cfg : GeomCfg)
    (ridges : List Ridge4) (ridges_in_f : List ℕ) (f : ℕ) (v : Vec4) (ri : ℕ)
    (st : List EdgeData4 × List (List ℕ)) (rj : ℕ) :
    List EdgeData4 × List (List ℕ) :=
  match buildEdge hs svd cfg ridges ridges_in_f f v ri rj with
  | none => st
  | some e =>
    let eidx := st.1.length
    (st.1 ++ [e], st.2.set ri ((st.2.getD ri []) ++ [eidx]))

/-- One `ri` step of the edge loop. -/
def midStep (hs : List Hs4) (svd : Mat2 → Svd2) (cfg : GeomCfg)
    (ridges : List Ridge4) (ridges_in_f : List ℕ) (f : ℕ) (v : Vec4)
    (st : List EdgeData4 × List (List ℕ)) (ri : ℕ) :
    List EdgeData4 × List (List ℕ) :=
  ridges_in_f.foldl (innerStep hs svd cfg ridges ridges_in_f f v ri) st

/-- One facet step of the edge loop. -/
def facetStep (hs : List Hs4) (svd : Mat2 → Svd2) (cfg : GeomCfg)
    (ridges : List Ridge4) (by_facet : List (List ℕ)) (v_f : List Vec4)
    (st : List EdgeData4 × List (List ℕ)) (f : ℕ) :
    List EdgeData4 × List (List ℕ) :=
  let ridges_in_f := by_facet.getD f []
  if ridges_in_f.length < 2 then st
  else ridges_in_f.foldl (midStep hs svd cfg ridges ridges_in_f f (v_f.getD f default)) st

/-- The oriented-edge `Graph` (`oriented_edge/types.rs`). -/
structure Graph4 where
  ridges : List Ridge4
  edges : List EdgeData4
  adj : List (List ℕ)
  num_facets : ℕ

/-- `build_graph` from `oriented_edge/build.rs`, parameterized over the list
of 2-faces (the `HashMap`-based face enumeration yields them in an
unspecified order) and over the SVD oracle used by `rotation_angle`.
`reeb_on_facets` is inlined as the `v_f` map. -/
def buildGraphFromFaces (hs : List Hs4) (faces2 : List Face2) (cfg : GeomCfg)
    (svd : Mat2 → Svd2) : Graph4 :=
  let rb := faces2.foldl (ridgeStep hs) ([], List.replicate hs.length [])
  let v_f := hs.map (fun h => j_matrix_4_mulVec h.n)
  let st := (List.range hs.length).foldl (facetStep hs svd cfg rb.1 rb.2 v_f)
    ([], List.replicate rb.1.length [])
  ⟨rb.1, st.1, st.2.map (fun out => out.insertionSort (edgeLbLe st.1)), hs.length⟩

theorem foldlMin_le_init (f : Vec2 → EReal) :
    ∀ (l : List Vec2) (a : EReal), l.foldl (fun acc z => min acc (f z)) a ≤ a := by
  intro l
  induction l with
  | nil => intro a; exact le_refl a
  | cons x t ih =>
    intro a
    exact le_trans (ih (min a (f x))) (min_le_left _ _)

theorem foldlMin_le_mem (f : Vec2 → EReal) :
    ∀ (l : List Vec2) (a : EReal), ∀ z ∈ l,
      l.foldl (fun acc z => min acc (f z)) a ≤ f z := by
  intro l
  induction l with
  | nil => intro a z hz; exact absurd hz (List.not_mem_nil z)
  | cons x t ih =>
    intro a z hz
    rcases List.mem_cons.mp hz with h | h
    · subst h
      exact le_trans (foldlMin_le_init f t (min a (f z))) (min_le_right _ _)
    · exact ih (min a (f x)) z h

theorem foldlMin_attained (f : Vec2 → EReal) :
    ∀ (l : List Vec2) (a : EReal),
      l.foldl (fun acc z => min acc (f z)) a = a ∨
      ∃ z ∈ l, l.foldl (fun acc z => min acc (f z)) a = f z := by
  intro l
  induction l with
  | nil => intro a; exact Or.inl rfl
  | cons x t ih =>
    intro a
    simp only [List.foldl_cons]
    rcases le_total a (f x) with hle | hle
    · rw [min_eq_left hle]
      rcases ih a with h | ⟨z, hz, hzeq⟩
      · exact Or.inl h
      · exact Or.inr ⟨z, List.mem_cons_of_mem x hz, hzeq⟩
    · rw [min_eq_right hle]
      rcases ih (f x) with h | ⟨z, hz, hzeq⟩
      · exact Or.inr ⟨x, List.mem_cons_self x t, h⟩
      · exact Or.inr ⟨z, List.mem_cons_of_mem x hz, hzeq⟩

/-- What the spec asserts of a stored per-edge lower bound: over a bounded
domain it is the minimum of the action increment over the polygon's
vertices (`f64::INFINITY` for a degenerate empty vertex list), and `-inf`
over a non-bounded domain. -/
def lbSpec (e : EdgeData4) : Prop :=
  match e.dom_in.halfspace_intersection with
  | HalfspaceIntersection.Bounded verts =>
      (verts = [] → e.lb_action = ⊤) ∧
      (verts ≠ [] → e.lb_action ∈ verts.map
        (fun z => ((e.action_inc.eval z : ℝ) : EReal))) ∧
      (∀ z ∈ verts, e.lb_action ≤ ((e.action_inc.eval z : ℝ) : EReal))
  | _ => e.lb_action = ⊥

theorem edgeLb_lbSpec (r1 r2 r3 : ℕ) (dom img : Poly2) (m : Aff2) (a : Aff1) (rot : ℝ) :
    lbSpec ⟨r1, r2, r3, dom, img, m, a, rot, edgeLb dom a⟩ := by
  unfold lbSpec edgeLb
  rcases hd : dom.halfspace_intersection with _ | _ | verts
  · simp only [hd]
  · simp only [hd]
  · simp only [hd]
    refine ⟨?_, ?_, ?_⟩
    · intro hnil
      subst hnil
      rfl
    · intro hne
      rcases foldlMin_attained (fun z => ((a.eval z : ℝ) : EReal)) verts ⊤ with h | ⟨z, hz, hzeq⟩
      · exfalso
        rcases List.exists_mem_of_ne_nil verts hne with ⟨z, hz⟩
        have hle := foldlMin_le_mem (fun z => ((a.eval z : ℝ) : EReal)) verts ⊤ z hz
        rw [h] at hle
        exact absurd (top_le_iff.mp hle) (EReal.coe_ne_top _)
      · exact List.mem_map.mpr ⟨z, hz, hzeq.symm⟩
    · intro z hz
      exact foldlMin_le_mem (fun z => ((a.eval z : ℝ) : EReal)) verts ⊤ z hz

theorem buildEdge_lbSpec {hs : List Hs4} {svd : Mat2 → Svd2} {cfg : GeomCfg}
    {ridges : List Ridge4} {rif : List ℕ} {f : ℕ} {v : Vec4} {ri rj : ℕ}
    {e : EdgeData4} (h : buildEdge hs svd cfg ridges rif f v ri rj = some e) :
    lbSpec e := by
  unfold buildEdge at h
  simp only [] at h
  split at h
  · exact absurd h (by simp)
  · split at h
    · exact absurd h (by simp)
    · split at h
      · exact absurd h (by simp)
      · split at h
        · exact absurd h (by simp)
        · split at h
          · exact absurd h (by simp)
          · rw [← Option.some.inj h]
            exact edgeLb_lbSpec _ _ _ _ _ _ _ _

theorem foldl_pres {α σ : Type} {Inv : σ → Prop} {g : σ → α → σ}
    (hg : ∀ s a, Inv s → Inv (g s a)) :
    ∀ (l : List α) (s : σ), Inv s → Inv (l.foldl g s) := by
  intro l
  induction l with
  | nil => intro s h; exact h
  | cons x t ih => intro s h; exact ih (g s x) (hg s x h)

theorem innerStep_pres (hs : List Hs4) (svd : Mat2 → Svd2) (cfg : GeomCfg)
    (ridges : List Ridge4) (rif : List ℕ) (f : ℕ) (v : Vec4) (ri : ℕ)
    (st : List EdgeData4 × List (List ℕ)) (rj : ℕ)
    (hst : ∀ e ∈ st.1, lbSpec e) :
    ∀ e ∈ (innerStep hs svd cfg ridges rif f v ri st rj).1, lbSpec e := by
  unfold innerStep
  rcases hbe : buildEdge hs svd cfg ridges rif f v ri rj with _ | e0
  · exact hst
  · intro e he
    simp only [List.mem_append, List.mem_singleton] at he
    rcases he with he | he
    · exact hst e he
    · subst he
      exact buildEdge_lbSpec hbe

theorem midStep_pres (hs : List Hs4) (svd : Mat2 → Svd2) (cfg : GeomCfg)
    (ridges : List Ridge4) (rif : List ℕ) (f : ℕ) (v : Vec4)
    (st : List EdgeData4 × List (List ℕ)) (ri : ℕ)
    (hst : ∀ e ∈ st.1, lbSpec e) :
    ∀ e ∈ (midStep hs svd cfg ridges rif f v st ri).1, lbSpec e := by
  unfold midStep
  exact foldl_pres (fun s a hI => innerStep_pres hs svd cfg ridges rif f v ri s a hI) rif st hst

theorem facetStep_pres (hs : List Hs4) (svd : Mat2 → Svd2) (cfg : GeomCfg)
    (ridges : List Ridge4) (by_facet : List (List ℕ)) (v_f : List Vec4)
    (st : List EdgeData4 × List (List ℕ)) (f : ℕ)
    (hst : ∀ e ∈ st.1, lbSpec e) :
    ∀ e ∈ (facetStep hs svd cfg ridges by_facet v_f st f).1, lbSpec e := by
  unfold facetStep
  simp only []
  by_cases hlen : (by_facet.getD f []).length < 2
  · rw [if_pos hlen]
    exact hst
  · rw [if_neg hlen]
    exact foldl_pres
      (fun s a hI => midStep_pres hs svd cfg ridges (by_facet.getD f []) f
        (v_f.getD f default) s a hI)
      (by_facet.getD f []) st hst

/-- **C7**: in the built graph, every stored per-edge lower bound is the
minimum of the edge's action increment over the vertices of its domain
polygon when the domain's half-plane intersection is `Bounded` (top for a
degenerate empty vertex list) and bottom (`NEG_INFINITY`) otherwise, and
every adjacency list is sorted ascending by the stored lower bound. -/
theorem c7_lb_and_adjacency (hs : List Hs4) (faces2 : List Face2) (cfg : GeomCfg)
    (svd : Mat2 → Svd2) :
    (buildGraphFromFaces hs faces2 cfg svd).edges.Forall lbSpec ∧
    (buildGraphFromFaces hs faces2 cfg svd).adj.Forall
      (fun out => out.Pairwise (edgeLbLe (buildGraphFromFaces hs faces2 cfg svd).edges)) := by
  unfold buildGraphFromFaces
  simp only []
  constructor
  · rw [List.forall_iff_forall_mem]
    exact foldl_pres
      (fun s a hI => facetStep_pres hs svd cfg _ _ _ s a hI)
      (List.range hs.length) _ (fun e he => absurd he (List.not_mem_nil e))
  · rw [List.forall_iff_forall_mem]
    intro out hout
    rcases List.mem_map.mp hout with ⟨out0, _, hmap⟩
    subst hmap
    exact List.sorted_insertionSort (edgeLbLe _) out0

/-- `SearchCfg` from `oriented_edge/types.rs`. -/
structure SearchCfg where
  use_rotation_prune : Bool
  rotation_budget : ℝ

/-- `State` from `oriented_edge/types.rs`. -/
structure State4 where
  start : ℕ
  cur : ℕ
  facets_seen : List Bool
  candidate : Poly2
  action : Aff1
  rho : ℝ
  phi_start_to_current : Aff2

/-- `DfsRunner`'s mutable accumulators.  `best` is an `Option ℝ` standing
for the `f64` incumbent initialized to `INFINITY` (`none` is the infinite
incumbent).  `closures` is a ghost field recording the value of every
successful fixed-point closure, used to state the search's result spec; the
other fields evolve exactly as in the source. -/
structure DfsRunner where
  best : Option ℝ
  best_cycle : List ℕ
  stack : List ℕ
  closures : List ℝ

/-- The incumbent as an extended real (`none` is `+inf`). -/
def bestE (b : Option ℝ) : EReal := b.elim ⊤ (fun v => (v : EReal))

/-- The incumbent vertex prune at the top of `recur`: over a bounded
candidate, prune when the candidate's action lower bound is at least
`best - 1e-12` (in `f64` this comparison is against the possibly infinite
incumbent, hence the `EReal` arithmetic). -/
def vertexPrune (st : State4) (best : Option ℝ) : Prop :=
  match st.candidate.halfspace_intersection with
  | HalfspaceIntersection.Bounded verts =>
      bestE best - ((1e-12 : ℝ) : EReal) ≤
        verts.foldl (fun acc z => min acc ((st.action.eval z : ℝ) : EReal)) ⊤
  | _ => False

/-- Outcome of examining one outgoing edge inside `recur`'s loop: every
`continue` before the recursive call is a `skip`; reaching the
`e.to == state.start` closure branch is `closeCycle`; otherwise the search
descends into the next state. -/
inductive EdgeOutcome where
  | skip : EdgeOutcome
  | closeCycle : State4 → EdgeOutcome
  | descend : State4 → EdgeOutcome

open Classical in
/-- The per-edge body of `recur`'s loop (`oriented_edge/dfs.rs`), as a
function of the current incumbent and state.  The incumbent cut
`c1.with_cut(a1.to_cut(best))` is skipped when the incumbent is still
infinite (in `f64` it is the vacuous half-plane with offset `+inf`). -/
def edgeOutcome (g : Graph4) (cfg : GeomCfg) (scfg : SearchCfg) (best : Option ℝ)
    (st : State4) (eidx : ℕ) : EdgeOutcome :=
  let e := g.edges.getD eidx default
  if st.facets_seen.getD e.facet false then .skip
  else
    let c_dom := st.candidate.intersect e.dom_in
    if (c_dom.halfspace_intersection_eps cfg.eps_feas).is_empty then .skip
    else
      match c_dom.push_forward e.map_ij with
      | none => .skip
      | some c1 =>
        let rho1 := st.rho + e.rotation_inc
        if scfg.use_rotation_prune ∧ scfg.rotation_budget < rho1 then .skip
        else
          match st.action.compose_with_inv_affine2 e.map_ij with
          | none => .skip
          | some a_pull =>
            match e.action_inc.compose_with_inv_affine2 e.map_ij with
            | none => .skip
            | some a_edge =>
              let a1 := a_pull.add a_edge
              let c2 := match best with
                | some b => c1.with_cut (a1.to_cut b)
                | none => c1
              if (c2.halfspace_intersection_eps cfg.eps_feas).is_empty then .skip
              else
                let phi1 : Aff2 := ⟨e.map_ij.m.mul st.phi_start_to_current.m,
                  (e.map_ij.m.mulVec st.phi_start_to_current.t).add e.map_ij.t⟩
                let next : State4 := ⟨st.start, e.toR,
                  st.facets_seen.set e.facet true, c2, a1, rho1, phi1⟩
                if e.toR = st.start then .closeCycle next else .descend next

/-- The cycle-closure branch of `recur`: a successful fixed-point solve
(abstracted as the oracle `fp`, the interface of `fixed_point_in_poly`)
updates the incumbent when strictly better; the ghost `closures` list
records every successful closure value. -/
def closeStep (fp : Aff2 → Poly2 → Aff1 → Option (Vec2 × ℝ))
    (next : State4) (r : DfsRunner) : DfsRunner :=
  match fp next.phi_start_to_current next.candidate next.action with
  | none => r
  | some (_, val) =>
    match r.best with
    | none => ⟨some val, r.stack, r.stack, r.closures ++ [val]⟩
    | some b =>
      if val < b then ⟨some val, r.stack, r.stack, r.closures ++ [val]⟩
      else ⟨some b, r.best_cycle, r.stack, r.closures ++ [val]⟩

open Classical in
/-- `DfsRunner::recur`, with explicit fuel (the source recursion terminates
because each descent marks a fresh facet; exhausted fuel returns the runner
unchanged).  The stack push/pop around the recursive call becomes extending
the stack for the subcall and restoring it afterwards. -/
def recur (g : Graph4) (cfg : GeomCfg) (scfg : SearchCfg)
    (fp : Aff2 → Poly2 → Aff1 → Option (Vec2 × ℝ)) :
    ℕ → State4 → DfsRunner → DfsRunner
  | 0, _, r => r
  | Nat.succ fuel, st, r =>
    if vertexPrune st r.best then r
    else
      (g.adj.getD st.cur []).foldl (fun r eidx =>
        match edgeOutcome g cfg scfg r.best st eidx with
        | .skip => r
        | .closeCycle next => closeStep fp next r
        | .descend next =>
          let r2 := recur g cfg scfg fp fuel next
            ⟨r.best, r.best_cycle, r.stack ++ [next.cur], r.closures⟩
          ⟨r2.best, r2.best_cycle, r.stack, r2.closures⟩) r

/-- The fresh state for a start ridge in `DfsRunner::solve`. -/
def initState (g : Graph4) (s : ℕ) : State4 :=
  ⟨s, s, List.replicate g.num_facets false, (g.ridges.getD s default).poly,
   ⟨⟨0, 0⟩, 0⟩, 0, ⟨Mat2.id, ⟨0, 0⟩⟩⟩

/-- One start-ridge iteration of `DfsRunner::solve` (push the start onto the
cleared stack, recur, clear the stack). -/
def solveStep (g : Graph4) (cfg : GeomCfg) (scfg : SearchCfg)
    (fp : Aff2 → Poly2 → Aff1 → Option (Vec2 × ℝ)) (fuel : ℕ)
    (r : DfsRunner) (s : ℕ) : DfsRunner :=
  let r1 := recur g cfg scfg fp fuel (initState g s)
    ⟨r.best, r.best_cycle, [s], r.closures⟩
  ⟨r1.best, r1.best_cycle, [], r1.closures⟩

/-- `DfsRunner::solve`'s full loop over all start ridges. -/
def dfsSolveFull (g : Graph4) (cfg : GeomCfg) (scfg : SearchCfg)
    (fp : Aff2 → Poly2 → Aff1 → Option (Vec2 × ℝ)) (fuel : ℕ) : DfsRunner :=
  (List.range g.ridges.length).foldl (solveStep g cfg scfg fp fuel)
    ⟨none, [], [], []⟩

/-- `dfs_solve`: `Some((best, best_cycle))` when the incumbent is finite. -/
def dfs_solve (g : Graph4) (cfg : GeomCfg) (scfg : SearchCfg)
    (fp : Aff2 → Poly2 → Aff1 → Option (Vec2 × ℝ)) (fuel : ℕ) :
    Option (ℝ × List ℕ) :=
  let r := dfsSolveFull g cfg scfg fp fuel
  match r.best with
  | some v => some (v, r.best_cycle)
  | none => none

/-- Running minimum (`f64::INFINITY` start modelled as `none`). -/
def minOpt (l : List ℝ) : Option ℝ :=
  l.foldl (fun acc v => match acc with | none => some v | some b => some (min b v)) none

theorem minOpt_append (l : List ℝ) (v : ℝ) :
    minOpt (l ++ [v]) = match minOpt l with
      | none => some v
      | some b => some (min b v) := by
  unfold minOpt
  rw [List.foldl_append]
  rfl

theorem minOpt_cons_isSome (x : ℝ) (t : List ℝ) : (minOpt (x :: t)).isSome = true := by
  suffices h : ∀ (t : List ℝ) (b : ℝ),
      (t.foldl (fun acc v => match acc with
        | none => some v
        | some b => some (min b v)) (some b)).isSome = true by
    exact h t x
  intro t
  induction t with
  | nil => intro b; rfl
  | cons y s ih => intro b; exact ih (min b y)

theorem minOpt_eq_none_iff (l : List ℝ) : minOpt l = none ↔ l = [] := by
  cases l with
  | nil => simp [minOpt]
  | cons x t =>
    constructor
    · intro h
      have := minOpt_cons_isSome x t
      rw [h] at this
      exact absurd this (by simp)
    · intro h
      exact absurd h (by simp)

/-- The incumbent always equals the running minimum of the recorded closure
values. -/
def BestInv (r : DfsRunner) : Prop := r.best = minOpt r.closures

theorem closeStep_inv (fp : Aff2 → Poly2 → Aff1 → Option (Vec2 × ℝ))
    (next : State4) (r : DfsRunner) (h : BestInv r) : BestInv (closeStep fp next r) := by
  unfold closeStep
  rcases fp next.phi_start_to_current next.candidate next.action with _ | ⟨z, val⟩
  · exact h
  · unfold BestInv at h ⊢
    rcases hb : r.best with _ | b
    · simp only []
      rw [minOpt_append, ← h, hb]
    · simp only []
      by_cases hlt : val < b
      · rw [if_pos hlt]
        simp only []
        rw [minOpt_append, ← h, hb]
        simp only []
        rw [min_eq_right (le_of_lt hlt)]
      · rw [if_neg hlt]
        simp only []
        rw [minOpt_append, ← h, hb]
        simp only []
        rw [min_eq_left (not_lt.mp hlt)]

theorem recur_inv (g : Graph4) (cfg : GeomCfg) (scfg : SearchCfg)
    (fp : Aff2 → Poly2 → Aff1 → Option (Vec2 × ℝ)) :
    ∀ (fuel : ℕ) (st : State4) (r : DfsRunner), BestInv r →
      BestInv (recur g cfg scfg fp fuel st r) := by
  intro fuel
  induction fuel with
  | zero => intro st r h; exact h
  | succ fuel ih =>
    intro st r h
    rw [recur]
    by_cases hp : vertexPrune st r.best
    · rw [if_pos hp]
      exact h
    · rw [if_neg hp]
      refine foldl_pres ?_ (g.adj.getD st.cur []) r h
      intro s a hI
      rcases ho : edgeOutcome g cfg scfg s.best st a with _ | next | next
      · simp only [ho]
        exact hI
      · simp only [ho]
        exact closeStep_inv fp next s hI
      · simp only [ho]
        exact ih next ⟨s.best, s.best_cycle, s.stack ++ [next.cur], s.closures⟩ hI

theorem dfsSolveFull_inv (g : Graph4) (cfg : GeomCfg) (scfg : SearchCfg)
    (fp : Aff2 → Poly2 → Aff1 → Option (Vec2 × ℝ)) (fuel : ℕ) :
    BestInv (dfsSolveFull g cfg scfg fp fuel) := by
  unfold dfsSolveFull
  refine foldl_pres ?_ (List.range g.ridges.length) _ rfl
  intro r s hI
  unfold solveStep
  exact recur_inv g cfg scfg fp fuel (initState g s)
    ⟨r.best, r.best_cycle, [s], r.closures⟩ hI

/-- **C2**: over the exact-real embedding (with the fixed-point solver as an
oracle and explicit fuel), the incumbent of the finished search equals the
running minimum of all successful closure values; consequently `dfs_solve`
returns `none` exactly when no cycle closure ever succeeded, and otherwise
returns the minimum over all successful closures (with the recorded best
cycle).  Geometric degeneracies — empty intersections, failed push-forwards
or pull-backs, failed fixed points — only skip the one edge, which the
embedding renders by `edgeOutcome`/`closeStep` being total. -/
theorem c2_dfs_solve_spec (g : Graph4) (cfg : GeomCfg) (scfg : SearchCfg)
    (fp : Aff2 → Poly2 → Aff1 → Option (Vec2 × ℝ)) (fuel : ℕ) :
    (dfsSolveFull g cfg scfg fp fuel).best
      = minOpt (dfsSolveFull g cfg scfg fp fuel).closures ∧
    (dfs_solve g cfg scfg fp fuel = none ↔
      (dfsSolveFull g cfg scfg fp fuel).closures = []) ∧
    dfs_solve g cfg scfg fp fuel
      = (minOpt (dfsSolveFull g cfg scfg fp fuel).closures).map
          (fun v => (v, (dfsSolveFull g cfg scfg fp fuel).best_cycle)) := by
  have hinv := dfsSolveFull_inv g cfg scfg fp fuel
  refine ⟨hinv, ?_, ?_⟩
  · unfold dfs_solve
    simp only []
    rw [hinv]
    rcases hm : minOpt (dfsSolveFull g cfg scfg fp fuel).closures with _ | v
    · simp only []
      constructor
      · intro _
        exact (minOpt_eq_none_iff _).mp hm
      · intro _
        trivial
    · simp only []
      constructor
      · intro hcon
        exact absurd hcon (by simp)
      · intro hnil
        rw [hnil] at hm
        exact absurd hm.symm (by simp [minOpt])
  · unfold dfs_solve
    simp only []
    rw [hinv]
    rcases hm : minOpt (dfsSolveFull g cfg scfg fp fuel).closures with _ | v
    · rfl
    · rfl

/-- Inversion on `edgeOutcome`: either the edge is skipped, or the facet was
unseen and the produced next state marks exactly that facet. -/
theorem edgeOutcome_shape (g : Graph4) (cfg : GeomCfg) (scfg : SearchCfg)
    (best : Option ℝ) (st : State4) (eidx : ℕ) :
    edgeOutcome g cfg scfg best st eidx = EdgeOutcome.skip ∨
    ∃ next : State4,
      st.facets_seen.getD (g.edges.getD eidx default).facet false = false ∧
      next.facets_seen = st.facets_seen.set (g.edges.getD eidx default).facet true ∧
      (edgeOutcome g cfg scfg best st eidx = EdgeOutcome.closeCycle next ∨
       edgeOutcome g cfg scfg best st eidx = EdgeOutcome.descend next) := by
  unfold edgeOutcome
  simp only []
  by_cases hseen : st.facets_seen.getD (g.edges.getD eidx default).facet false = true
  · rw [if_pos hseen]
    exact Or.inl rfl
  · have hf : st.facets_seen.getD (g.edges.getD eidx default).facet false = false := by
      revert hseen
      cases st.facets_seen.getD (g.edges.getD eidx default).facet false <;> simp
    rw [if_neg hseen]
    split
    · exact Or.inl rfl
    · split
      · exact Or.inl rfl
      · split
        · exact Or.inl rfl
        · split
          · exact Or.inl rfl
          · split
            · exact Or.inl rfl
            · split
              · exact Or.inl rfl
              · split
                · exact Or.inr ⟨_, hf, rfl, Or.inl rfl⟩
                · exact Or.inr ⟨_, hf, rfl, Or.inr rfl⟩

theorem edgeOutcome_not_skip {g : Graph4} {cfg : GeomCfg} {scfg : SearchCfg}
    {best : Option ℝ} {st : State4} {eidx : ℕ} {next : State4}
    (h : edgeOutcome g cfg scfg best st eidx = EdgeOutcome.closeCycle next ∨
         edgeOutcome g cfg scfg best st eidx = EdgeOutcome.descend next) :
    st.facets_seen.getD (g.edges.getD eidx default).facet false = false ∧
    next.facets_seen = st.facets_seen.set (g.edges.getD eidx default).facet true := by
  rcases edgeOutcome_shape g cfg scfg best st eidx with hs | ⟨next0, hf, hset, hcd⟩
  · rcases h with h | h <;> (rw [hs] at h; exact absurd h (by simp))
  · have hnext : next0 = next := by
      rcases h with h | h <;> rcases hcd with hcd | hcd <;> rw [hcd] at h
      · exact EdgeOutcome.closeCycle.inj h
      · exact absurd h (by simp)
      · exact absurd h (by simp)
      · exact EdgeOutcome.descend.inj h
    rw [← hnext]
    exact ⟨hf, hset⟩

theorem getD_replicate_false (n k : ℕ) : (List.replicate n false).getD k false = false := by
  rcases lt_or_ge k n with h | h
  · rw [List.getD_eq_getElem?_getD, List.getElem?_eq_getElem (by simpa using h)]
    simp
  · rw [List.getD_eq_getElem?_getD, List.getElem?_eq_none (by simpa using h)]
    rfl

theorem getD_set_eq (l : List Bool) (i : ℕ) (hi : i < l.length) (b : Bool) :
    (l.set i b).getD i false = b := by
  rw [List.getD_eq_getElem?_getD, List.getElem?_eq_getElem (by simpa using hi)]
  rw [List.getElem_set]
  simp

theorem getD_set_ne (l : List Bool) (i k : ℕ) (hne : k ≠ i) (b : Bool) :
    (l.set i b).getD k false = l.getD k false := by
  rcases lt_or_ge k l.length with h | h
  · rw [List.getD_eq_getElem?_getD, List.getElem?_eq_getElem (by simpa using h),
      List.getD_eq_getElem?_getD, List.getElem?_eq_getElem h]
    rw [List.getElem_set]
    rw [if_neg (fun hc => hne hc.symm)]
  · rw [List.getD_eq_getElem?_getD, List.getElem?_eq_none (by simpa using h),
      List.getD_eq_getElem?_getD, List.getElem?_eq_none (by simpa using h)]

/-- The search states reachable by `recur`'s descent steps from some start
ridge, together with the list of facets traversed since the start. -/
inductive Reach (g : Graph4) (cfg : GeomCfg) (scfg : SearchCfg) : State4 → List ℕ → Prop where
  | start : ∀ s : ℕ, s < g.ridges.length → Reach g cfg scfg (initState g s) []
  | step : ∀ (st : State4) (tr : List ℕ) (best : Option ℝ) (eidx : ℕ) (next : State4),
      Reach g cfg scfg st tr →
      eidx ∈ g.adj.getD st.cur [] →
      edgeOutcome g cfg scfg best st eidx = EdgeOutcome.descend next →
      Reach g cfg scfg next (tr ++ [(g.edges.getD eidx default).facet])

theorem reach_inv (g : Graph4) (cfg : GeomCfg) (scfg : SearchCfg)
    (hA : ∀ l ∈ g.adj, ∀ i ∈ l, i < g.edges.length)
    (hF : ∀ e ∈ g.edges, e.facet < g.num_facets) :
    ∀ (st : State4) (tr : List ℕ), Reach g cfg scfg st tr →
      st.facets_seen.length = g.num_facets ∧ tr.Nodup ∧
      (∀ k, st.facets_seen.getD k false = true ↔ k ∈ tr) := by
  intro st tr hr
  induction hr with
  | start s hs =>
    refine ⟨by simp [initState], List.nodup_nil, ?_⟩
    intro k
    simp only [initState]
    rw [getD_replicate_false]
    simp
  | step st tr best eidx next hr hmem hout ih =>
    obtain ⟨hlen, hnd, hiff⟩ := ih
    have heidx : eidx < g.edges.length := by
      rcases lt_or_ge st.cur g.adj.length with h | h
      · have hg : g.adj.getD st.cur [] = g.adj[st.cur] := by
          rw [List.getD_eq_getElem?_getD, List.getElem?_eq_getElem h]
          rfl
        rw [hg] at hmem
        exact hA _ (List.getElem_mem h) eidx hmem
      · rw [List.getD_eq_getElem?_getD, List.getElem?_eq_none (by simpa using h)] at hmem
        exact absurd hmem (List.not_mem_nil eidx)
    have hfnum : (g.edges.getD eidx default).facet < g.num_facets := by
      have hmem2 : g.edges.getD eidx default ∈ g.edges := by
        rw [List.getD_eq_getElem?_getD, List.getElem?_eq_getElem heidx]
        exact List.getElem_mem heidx
      exact hF _ hmem2
    obtain ⟨hseenf, hset⟩ := edgeOutcome_not_skip (Or.inr hout)
    have hfnotin : (g.edges.getD eidx default).facet ∉ tr := by
      intro hin
      have := (hiff _).mpr hin
      rw [hseenf] at this
      exact absurd this (by simp)
    refine ⟨?_, ?_, ?_⟩
    · rw [hset]
      simp [hlen]
    · rw [List.nodup_append]
      refine ⟨hnd, List.nodup_singleton _, ?_⟩
      intro a ha hb
      rw [List.mem_singleton] at hb
      exact hfnotin (hb ▸ ha)
    · intro k
      rw [hset]
      by_cases hk : k = (g.edges.getD eidx default).facet
      · subst hk
        rw [getD_set_eq _ _ (by rw [hlen]; exact hfnum)]
        simp
      · rw [getD_set_ne _ _ _ hk]
        rw [hiff k]
        constructor
        · intro h2
          exact List.mem_append.mpr (Or.inl h2)
        · intro h2
          rcases List.mem_append.mp h2 with h3 | h3
          · exact h3
          · rw [List.mem_singleton] at h3
            exact absurd h3 hk

/-- **C4**: the DFS explores only facet-disjoint walks: an outgoing edge
whose facet is already marked is skipped, every reachable search state's
marked facets are exactly the pairwise-distinct facets traversed since the
start, and a cycle closure's facet list (traversed facets plus the closing
edge's facet) is duplicate-free, so every reported best cycle traverses
each facet at most once.  The graph is assumed index-wellformed (adjacency
entries point into `edges`, edge facets are below `num_facets`), which
`build_graph` guarantees (Rust would panic otherwise). -/
theorem c4_facet_disjoint (g : Graph4) (cfg : GeomCfg) (scfg : SearchCfg)
    (hA : ∀ l ∈ g.adj, ∀ i ∈ l, i < g.edges.length)
    (hF : ∀ e ∈ g.edges, e.facet < g.num_facets) :
    (∀ (best : Option ℝ) (st : State4) (eidx : ℕ),
      st.facets_seen.getD (g.edges.getD eidx default).facet false = true →
      edgeOutcome g cfg scfg best st eidx = EdgeOutcome.skip) ∧
    (∀ (st : State4) (tr : List ℕ), Reach g cfg scfg st tr →
      tr.Nodup ∧ (∀ k, st.facets_seen.getD k false = true ↔ k ∈ tr)) ∧
    (∀ (st : State4) (tr : List ℕ) (best : Option ℝ) (eidx : ℕ) (next : State4),
      Reach g cfg scfg st tr →
      edgeOutcome g cfg scfg best st eidx = EdgeOutcome.closeCycle next →
      (tr ++ [(g.edges.getD eidx default).facet]).Nodup) := by
  refine ⟨?_, ?_, ?_⟩
  · intro best st eidx hseen
    unfold edgeOutcome
    simp only []
    rw [if_pos hseen]
  · intro st tr hr
    obtain ⟨-, hnd, hiff⟩ := reach_inv g cfg scfg hA hF st tr hr
    exact ⟨hnd, hiff⟩
  · intro st tr best eidx next hr hout
    obtain ⟨-, hnd, hiff⟩ := reach_inv g cfg scfg hA hF st tr hr
    obtain ⟨hseenf, -⟩ := edgeOutcome_not_skip (Or.inl hout)
    have hfnotin : (g.edges.getD eidx default).facet ∉ tr := by
      intro hin
      have := (hiff _).mpr hin
      rw [hseenf] at this
      exact absurd this (by simp)
    rw [List.nodup_append]
    refine ⟨hnd, List.nodup_singleton _, ?_⟩
    intro a ha hb
    rw [List.mem_singleton] at hb
    exact hfnotin (hb ▸ ha)

/-- A tiny index-wellformed graph: two ridges, no edges, two facets. -/
def c4g : Graph4 :=
  ⟨[⟨(0, 1), ⟨[]⟩, default, default⟩, ⟨(0, 1), ⟨[]⟩, default, default⟩], [], [[], []], 2⟩

theorem c4_witness :
    edgeOutcome c4g ⟨0, 0, 0⟩ ⟨true, 2⟩ none
      ⟨0, 0, [true], ⟨[]⟩, ⟨⟨0, 0⟩, 0⟩, 0, ⟨Mat2.id, ⟨0, 0⟩⟩⟩ 0 = EdgeOutcome.skip ∧
    (([] : List ℕ).Nodup ∧
      (∀ k, (initState c4g 0).facets_seen.getD k false = true ↔ k ∈ ([] : List ℕ))) := by
  have hA : ∀ l ∈ c4g.adj, ∀ i ∈ l, i < c4g.edges.length := by
    intro l hl i hi
    simp only [c4g] at hl
    rcases List.mem_cons.mp hl with h | h
    · subst h
      exact absurd hi (List.not_mem_nil i)
    · rw [List.mem_singleton] at h
      subst h
      exact absurd hi (List.not_mem_nil i)
  have hF : ∀ e ∈ c4g.edges, e.facet < c4g.num_facets := by
    intro e he
    simp only [c4g] at he
    exact absurd he (List.not_mem_nil e)
  constructor
  · exact (c4_facet_disjoint c4g ⟨0, 0, 0⟩ ⟨true, 2⟩ hA hF).1 none
      ⟨0, 0, [true], ⟨[]⟩, ⟨⟨0, 0⟩, 0⟩, 0, ⟨Mat2.id, ⟨0, 0⟩⟩⟩ 0 rfl
  · exact (c4_facet_disjoint c4g ⟨0, 0, 0⟩ ⟨true, 2⟩ hA hF).2.1 (initState c4g 0) []
      (Reach.start 0 (by norm_num [c4g]))
